import Mathlib

/-!
# BSO toolbox: structural-design node and flat-shell element

A shallow embedding of `bso/structural_design/element/node.cpp` and
`bso/structural_design/element/flat_shell.cpp`, followed by theorems about
the embedded operations.

Conventions of the embedding.

* `double` values are elements of an arbitrary field `K` (exact arithmetic);
  every definition is computable and can be evaluated at `K := ℚ`.
* `Eigen::Vector6i` is `Fin 6 → Int`, `Eigen::Vector6d` is `Fin 6 → K`.
* `std::map` is a finite partial function (`StdMap`); `find` is application,
  `operator[]=` is `StdMap.assign`, `clear` gives `StdMap.empty`.
* `unsigned long` is a natural number below `ULONG_MODULUS = 2 ^ 64`;
  incrementing wraps around modulo `ULONG_MODULUS`.
* A member function that mutates the object returns an `Outcome`: the new
  state, or a thrown error together with the state at the moment of the throw,
  or `undefined` when the C++ code reads or writes outside a buffer.
* A `const` member function returns `Except Error value`.
-/

namespace bso.structural_design.element

/-! ## Data model -/

/-- Error kinds. `InvalidDOF`: a local DOF index above 5. `MissingLoadCase`: no
entry for a load case. `DOFNotAssigned`: a global index was requested for a DOF
that is inactive, constrained or not numbered. -/
inductive Error where
  | InvalidDOF
  | MissingLoadCase
  | DOFNotAssigned
  deriving DecidableEq, Repr

/-- Result of a mutating member function. -/
inductive Outcome (σ : Type) where
  | ok (s : σ)
  | thrown (e : Error) (s : σ)
  | undefined

/-- A `std::map` seen as a finite partial function. -/
def StdMap (κ ν : Type) : Type := κ → Option ν

/-- The empty map (`clear()`, or a freshly constructed map). -/
def StdMap.empty {κ ν : Type} : StdMap κ ν := fun _ => none

/-- Lookup, `m.find(k)`: `none` stands for `m.end()`. -/
def StdMap.find {κ ν : Type} (m : StdMap κ ν) (k : κ) : Option ν := m k

/-- Assignment `m[k] = v`. -/
def StdMap.assign {κ ν : Type} [DecidableEq κ] (m : StdMap κ ν) (k : κ) (v : ν) : StdMap κ ν :=
  fun x => if x = k then some v else m x

/-- Load cases are compared by identity (`component::load_case*`). -/
abbrev load_case : Type := Nat

/-- Number of values of an `unsigned long` (LP64). -/
def ULONG_MODULUS : Nat := 2 ^ 64

/-- State of a `node`: identity, position, constraints, nodal freedom
signature, loads, displacements and nodal freedom table. -/
structure node (K : Type) where
  mID : Nat
  coords : Fin 3 → K
  mConstraints : Fin 6 → Int
  mNFS : Fin 6 → Int
  mLoads : StdMap load_case (Fin 6 → K)
  mDisplacements : StdMap load_case (Fin 6 → K)
  mNFT : StdMap Nat Nat

section NodeOps

variable {K : Type}

/-- Constructor `node::node` followed by `initializeVariables`. -/
def node.mk0 (coords : Fin 3 → K) (ID : Nat) : node K :=
  { mID := ID, coords := coords, mConstraints := fun _ => 0, mNFS := fun _ => 0,
    mLoads := StdMap.empty, mDisplacements := StdMap.empty, mNFT := StdMap.empty }

/-- Embedding of `node::updateNFS`. -/
def node.updateNFS (n : node K) (EFS : Fin 6 → Int) : node K :=
  (List.finRange 6).foldl
    (fun s i => if EFS i = 1 then { s with mNFS := Function.update s.mNFS i 1 } else s) n

/-- Embedding of `node::addConstraint`. -/
def node.addConstraint (n : node K) (localDOF : Nat) : Outcome (node K) :=
  if h : localDOF > 5 then .thrown .InvalidDOF n
  else .ok { n with mConstraints := Function.update n.mConstraints ⟨localDOF, by omega⟩ 1 }

/-- Embedding of `node::addLoad`. -/
def node.addLoad [Zero K] [Add K] (n : node K) (lc : load_case) (localDOF : Nat) (magnitude : K) :
    Outcome (node K) :=
  if h : localDOF > 5 then .thrown .InvalidDOF n
  else
    let loads1 : StdMap load_case (Fin 6 → K) :=
      match n.mLoads.find lc with
      | none => n.mLoads.assign lc (fun _ => 0)
      | some _ => n.mLoads
    let old : Fin 6 → K := (loads1.find lc).getD (fun _ => 0)
    let new : Fin 6 → K :=
      Function.update old ⟨localDOF, by omega⟩ (old ⟨localDOF, by omega⟩ + magnitude)
    .ok { n with mLoads := loads1.assign lc new }

/-- Body of the inner loop of `node::addDisplacements` for local DOF `j`. The
loop state is the vector `tempDisplacements` and the offset of `disp_ite` in
the supplied vector `v`; `none` when `*disp_ite` is read at or past the end of
`v`. -/
def node.addDisplacements.body [Zero K] (n : node K) (v : List K)
    (s : (Fin 6 → K) × Nat) (j : Fin 6) : Option ((Fin 6 → K) × Nat) :=
  if n.mNFS j = 1 ∧ n.mConstraints j = 0 then
    match v[s.2]? with
    | some x => some (Function.update s.1 j x, s.2 + 1)
    | none => none
  else some (Function.update s.1 j 0, s.2)

/-- Inner loop of `node::addDisplacements` for one supplied vector `v`: the
6-vector built from `v`. -/
def node.addDisplacements.inner [Zero K] (n : node K) (v : List K) : Option (Fin 6 → K) :=
  ((List.finRange 6).foldlM (node.addDisplacements.body n v) ((fun _ => 0), 0)).map Prod.fst

/-- Body of the outer loop of `node::addDisplacements` for one entry `i` of the
supplied map: `mDisplacements[i.first] = tempDisplacements`. -/
def node.addDisplacements.outer [Zero K] (s : node K) (i : load_case × List K) :
    Option (node K) :=
  (node.addDisplacements.inner s i.2).map
    (fun t => { s with mDisplacements := s.mDisplacements.assign i.1 t })

/-- Embedding of `node::addDisplacements`; `displacements` lists the entries of
the supplied `std::map` in iteration order. -/
def node.addDisplacements [Zero K] (n : node K) (displacements : List (load_case × List K)) :
    Outcome (node K) :=
  match displacements.foldlM node.addDisplacements.outer
      { n with mDisplacements := StdMap.empty } with
  | some s => .ok s
  | none => .undefined

/-- Embedding of `node::clearDisplacements`. -/
def node.clearDisplacements (n : node K) : node K :=
  { n with mDisplacements := StdMap.empty }

/-- Embedding of `node::getDisplacements`. -/
def node.getDisplacements (n : node K) (lc : load_case) : Except Error (Fin 6 → K) :=
  match n.mDisplacements.find lc with
  | none => .error .MissingLoadCase
  | some d => .ok d

/-- Embedding of `node::getLoads`. -/
def node.getLoads (n : node K) (lc : load_case) : Except Error (Fin 6 → K) :=
  match n.mLoads.find lc with
  | none => .error .MissingLoadCase
  | some d => .ok d

/-- Embedding of `node::getConstraint`. -/
def node.getConstraint (n : node K) (k : Nat) : Except Error Int :=
  if h : k > 5 then .error .InvalidDOF else .ok (n.mConstraints ⟨k, by omega⟩)

/-- Embedding of `node::getNFS`. -/
def node.getNFS (n : node K) (k : Nat) : Except Error Int :=
  if h : k > 5 then .error .InvalidDOF else .ok (n.mNFS ⟨k, by omega⟩)

/-- Body of the loop of `node::generateNFT` for local DOF `i`, on the pair of
the node and the counter `NFM`: `mNFT[i] = NFM++`. -/
def node.generateNFT.body (s : node K × Nat) (i : Fin 6) : node K × Nat :=
  if s.1.mNFS i = 1 ∧ s.1.mConstraints i = 0 then
    ({ s.1 with mNFT := s.1.mNFT.assign i.val s.2 }, (s.2 + 1) % ULONG_MODULUS)
  else s

/-- Embedding of `node::generateNFT`: the node after the call and the value of
the counter `NFM` after the call. -/
def node.generateNFT (n : node K) (NFM : Nat) : node K × Nat :=
  (List.finRange 6).foldl node.generateNFT.body (n, NFM)

/-- Embedding of `node::getGlobalDOF`. -/
def node.getGlobalDOF (n : node K) (localDOF : Nat) : Except Error Nat :=
  if h : localDOF > 5 then .error .InvalidDOF
  else if n.mNFS ⟨localDOF, by omega⟩ = 0 ∨ n.mConstraints ⟨localDOF, by omega⟩ = 1 then
    .error .DOFNotAssigned
  else
    match n.mNFT.find localDOF with
    | none => .error .DOFNotAssigned
    | some g => .ok g

/-- Embedding of `node::checkLoad`. `load` is the caller's variable, passed by
reference; the result is the returned flag and the variable after the call.
`none` when `localDOF > 5`: the function does not test the index, and the
vectors would be indexed outside their range. -/
def node.checkLoad [Zero K] [DecidableEq K] (n : node K) (lc : load_case) (localDOF : Nat)
    (load : K) : Option (Bool × K) :=
  if h : localDOF > 5 then none
  else if n.mNFS ⟨localDOF, by omega⟩ = 1 ∧ n.mConstraints ⟨localDOF, by omega⟩ = 0 then
    match n.mLoads.find lc with
    | some v =>
      let load1 : K := v ⟨localDOF, by omega⟩
      if load1 ≠ 0 then some (true, load1) else some (false, load1)
    | none => some (false, load)
  else some (false, load)

end NodeOps

/-! ## Operation sequences on a node -/

section NodeRuns

variable {K : Type}

/-- The mutating operations of a node, with their arguments. -/
inductive NodeOp (K : Type) where
  | updateNFS (EFS : Fin 6 → Int)
  | addConstraint (localDOF : Nat)
  | addLoad (lc : load_case) (localDOF : Nat) (magnitude : K)
  | addDisplacements (displacements : List (load_case × List K))
  | clearDisplacements
  | generateNFT (NFM : Nat)

/-- One operation applied to a node. The counter returned by `generateNFT`
belongs to the caller and is dropped here. -/
def NodeOp.apply [Zero K] [Add K] (op : NodeOp K) (n : node K) : Outcome (node K) :=
  match op with
  | .updateNFS EFS => .ok (n.updateNFS EFS)
  | .addConstraint localDOF => n.addConstraint localDOF
  | .addLoad lc localDOF magnitude => n.addLoad lc localDOF magnitude
  | .addDisplacements displacements => n.addDisplacements displacements
  | .clearDisplacements => .ok n.clearDisplacements
  | .generateNFT NFM => .ok (n.generateNFT NFM).1

/-- A sequence of operations applied in order. A thrown error is caught by the
caller, which goes on with the node as the throw left it; an operation with
undefined behaviour ends the run without a state. -/
def node.run [Zero K] [Add K] (n : node K) : List (NodeOp K) → Option (node K)
  | [] => some n
  | op :: ops =>
    match op.apply n with
    | .ok s => node.run s ops
    | .thrown _ s => node.run s ops
    | .undefined => none

/-- The operation is neither `updateNFS` nor `addConstraint`. -/
def NodeOp.keepsFlags : NodeOp K → Bool
  | .updateNFS _ => false
  | .addConstraint _ => false
  | _ => true

/-- One numbering pass: `generateNFT` called once on each node of the list, in
list order, with one shared counter. A position of the list is one node
object. -/
def numberingPass : List (node K) → Nat → List (node K) × Nat
  | [], NFM => ([], NFM)
  | n :: ns, NFM =>
    let r := n.generateNFT NFM
    let rs := numberingPass ns r.2
    (r.1 :: rs.1, rs.2)

end NodeRuns

/-! ## Flat shell element: stiffness matrix -/

section FlatShellStiffness

open Matrix

variable {K : Type} [Field K]

/-- The matrix `lambda << vx, vy, vz`: its columns are the local axes. The
axes come from the geometry classes (`getCenter`, `getNormal`, `normalize`,
`cross`), which are not part of these sources, and are parameters here. -/
def lambdaMatrix (vx vy vz : Fin 3 → K) : Matrix (Fin 3) (Fin 3) K :=
  Matrix.of fun i j => ![vx, vy, vz] j i

/-- The matrix `mT`: `lambda.transpose()` on each of the 8 diagonal 3x3 blocks
`(2*i+j)*3`, zero elsewhere. -/
def transformationMatrix (lambda : Matrix (Fin 3) (Fin 3) K) : Matrix (Fin 24) (Fin 24) K :=
  Matrix.of fun r c =>
    if r.val / 3 = c.val / 3 then
      lambdaᵀ ⟨r.val % 3, Nat.mod_lt _ (by decide)⟩ ⟨c.val % 3, Nat.mod_lt _ (by decide)⟩
    else 0

/-- The matrix `locCoords`: row `i` is `lambda.transpose() * mVertices[i]`. -/
def localCoordinates (lambda : Matrix (Fin 3) (Fin 3) K) (mVertices : Fin 4 → Fin 3 → K) :
    Matrix (Fin 4) (Fin 3) K :=
  Matrix.of fun i => lambdaᵀ *ᵥ mVertices i

/-- The integration points `(ksi, eta)` in the order of the loops over `l` and
`m`; `s` is the value of `sqrt(1.0 / 3.0)`. Both weights are 1. -/
def integrationPoints (s : K) : List (K × K) :=
  [(-1 * s, -1 * s), (-1 * s, 1 * s), (1 * s, -1 * s), (1 * s, 1 * s)]

/-- Weight `wKsi` and `wEta` of every integration point. -/
def integrationWeight : K := 1

/-- The matrix `J`. -/
def jacobian (loc : Matrix (Fin 4) (Fin 3) K) (ksi eta : K) : Matrix (Fin 2) (Fin 2) K :=
  !![(-(1/4) + (1/4) * eta) * loc 0 0 + ((1/4) - (1/4) * eta) * loc 1 0
        + ((1/4) + (1/4) * eta) * loc 2 0 + (-(1/4) - (1/4) * eta) * loc 3 0,
     (-(1/4) + (1/4) * eta) * loc 0 1 + ((1/4) - (1/4) * eta) * loc 1 1
        + ((1/4) + (1/4) * eta) * loc 2 1 + (-(1/4) - (1/4) * eta) * loc 3 1;
     (-(1/4) + (1/4) * ksi) * loc 0 0 + (-(1/4) - (1/4) * ksi) * loc 1 0
        + ((1/4) + (1/4) * ksi) * loc 2 0 + ((1/4) - (1/4) * ksi) * loc 3 0,
     (-(1/4) + (1/4) * ksi) * loc 0 1 + (-(1/4) - (1/4) * ksi) * loc 1 1
        + ((1/4) + (1/4) * ksi) * loc 2 1 + ((1/4) - (1/4) * ksi) * loc 3 1]

/-- The value of `J.determinant()` for a 2x2 matrix. -/
def determinant2 (J : Matrix (Fin 2) (Fin 2) K) : K := J 0 0 * J 1 1 - J 0 1 * J 1 0

/-- The matrix `J.inverse()` in exact arithmetic: the adjugate divided by the
determinant (division by 0 gives 0 in `K`). -/
def inverse2 (J : Matrix (Fin 2) (Fin 2) K) : Matrix (Fin 2) (Fin 2) K :=
  (1 / determinant2 J) • !![J 1 1, -J 0 1; -J 1 0, J 0 0]

/-- The matrix `A`, scaled by `1 / J.determinant()`. -/
def membraneA (J : Matrix (Fin 2) (Fin 2) K) : Matrix (Fin 3) (Fin 4) K :=
  (1 / determinant2 J) •
    !![J 1 1, -J 0 1, 0, 0;
       0, 0, -J 1 0, J 0 0;
       -J 1 0, J 0 0, J 1 1, -J 0 1]

/-- The matrix `G`. -/
def membraneG (ksi eta : K) : Matrix (Fin 4) (Fin 8) K :=
  !![-(1/4) + (1/4) * eta, 0, (1/4) - (1/4) * eta, 0,
       (1/4) + (1/4) * eta, 0, -(1/4) - (1/4) * eta, 0;
     -(1/4) + (1/4) * ksi, 0, -(1/4) - (1/4) * ksi, 0,
       (1/4) + (1/4) * ksi, 0, (1/4) - (1/4) * ksi, 0;
     0, -(1/4) + (1/4) * eta, 0, (1/4) - (1/4) * eta,
       0, (1/4) + (1/4) * eta, 0, -(1/4) - (1/4) * eta;
     0, -(1/4) + (1/4) * ksi, 0, -(1/4) - (1/4) * ksi,
       0, (1/4) + (1/4) * ksi, 0, (1/4) - (1/4) * ksi]

/-- The matrix `B = A * G` for in-plane behaviour. -/
def membraneB (J : Matrix (Fin 2) (Fin 2) K) (ksi eta : K) : Matrix (Fin 3) (Fin 8) K :=
  membraneA J * membraneG ksi eta

/-- The matrix `ETermNormal`. -/
def ETermNormal (mE mPoisson : K) : Matrix (Fin 3) (Fin 3) K :=
  (mE / (1 - mPoisson ^ 2)) • !![1, mPoisson, 0; mPoisson, 1, 0; 0, 0, 0]

/-- The matrix `ETermShear`. -/
def ETermShear (mE mPoisson : K) : Matrix (Fin 3) (Fin 3) K :=
  (mE / (1 - mPoisson ^ 2)) • !![0, 0, 0; 0, 0, 0; 0, 0, (1 - mPoisson) / 2]

/-- The matrix `N` of Batoz and Tahar. -/
def bendingN (ksi eta : K) : Matrix (Fin 8) (Fin 2) K :=
  !![(1/4) * (2 * ksi + eta) * (1 - eta), (1/4) * (2 * eta + ksi) * (1 - ksi);
     (1/4) * (2 * ksi - eta) * (1 - eta), (1/4) * (2 * eta - ksi) * (1 + ksi);
     (1/4) * (2 * ksi + eta) * (1 + eta), (1/4) * (2 * eta + ksi) * (1 + ksi);
     (1/4) * (2 * ksi - eta) * (1 + eta), (1/4) * (2 * eta - ksi) * (1 - ksi);
     -ksi * (1 - eta), (-(1/2)) * (1 - ksi * ksi);
     (1/2) * (1 - eta * eta), -eta * (1 + ksi);
     -ksi * (1 + eta), (1/2) * (1 - ksi * ksi);
     (-(1/2)) * (1 - eta * eta), -eta * (1 - ksi)]

/-- The matrix `ETermBending`. -/
def ETermBending (mE mPoisson mThickness : K) : Matrix (Fin 3) (Fin 3) K :=
  ((mE * mThickness ^ 3) / (12 * (1 - mPoisson ^ 2))) •
    !![1, mPoisson, 0; mPoisson, 1, 0; 0, 0, (1 - mPoisson) / 2]

/-- End nodes of edge `i`: `indices = {{0,1},{1,2},{2,3},{3,0}}`. -/
def edgeNodes (i : Fin 4) : Fin 4 × Fin 4 := ![(0, 1), (1, 2), (2, 3), (3, 0)] i

/-- Edge difference `xij`. -/
def edgeX (loc : Matrix (Fin 4) (Fin 3) K) (i : Fin 4) : K :=
  loc (edgeNodes i).1 0 - loc (edgeNodes i).2 0

/-- Edge difference `yij`. -/
def edgeY (loc : Matrix (Fin 4) (Fin 3) K) (i : Fin 4) : K :=
  loc (edgeNodes i).1 1 - loc (edgeNodes i).2 1

/-- The value `lij = pow(xij,2) + pow(yij,2)`. -/
def edgeL (loc : Matrix (Fin 4) (Fin 3) K) (i : Fin 4) : K :=
  edgeX loc i ^ 2 + edgeY loc i ^ 2

/-- An 8-vector that is zero in its first four entries and `f i` at `i + 4`. -/
def edgeVector (f : Fin 4 → K) : Fin 8 → K := ![0, 0, 0, 0, f 0, f 1, f 2, f 3]

/-- The vector `a`. -/
def coeffA (loc : Matrix (Fin 4) (Fin 3) K) : Fin 8 → K :=
  edgeVector fun i => -edgeX loc i / edgeL loc i

/-- The vector `b`. -/
def coeffB (loc : Matrix (Fin 4) (Fin 3) K) : Fin 8 → K :=
  edgeVector fun i => (3/4) * edgeX loc i * edgeY loc i / edgeL loc i

/-- The vector `c`. -/
def coeffC (loc : Matrix (Fin 4) (Fin 3) K) : Fin 8 → K :=
  edgeVector fun i => ((1/4) * edgeX loc i ^ 2 - (1/2) * edgeY loc i ^ 2) / edgeL loc i

/-- The vector `d`. -/
def coeffD (loc : Matrix (Fin 4) (Fin 3) K) : Fin 8 → K :=
  edgeVector fun i => -edgeY loc i / edgeL loc i

/-- The vector `e`. -/
def coeffE (loc : Matrix (Fin 4) (Fin 3) K) : Fin 8 → K :=
  edgeVector fun i => (-(1/2) * edgeX loc i ^ 2 + (1/4) * edgeY loc i ^ 2) / edgeL loc i

/-- Rows of `N` used for node `i`: `indices = {{4,7},{5,4},{6,5},{7,6}}`. -/
def midNodes (i : Fin 4) : Fin 8 × Fin 8 := ![(4, 7), (5, 4), (6, 5), (7, 6)] i

/-- Row `N1 = N.row(i)` as an index of `N`. -/
def cornerRow (i : Fin 4) : Fin 8 := ![0, 1, 2, 3] i

/-- The matrix `Hx`: rows `3*i`, `3*i+1`, `3*i+2` for the nodes `i = 0..3`. -/
def bendingHx (loc : Matrix (Fin 4) (Fin 3) K) (ksi eta : K) : Matrix (Fin 12) (Fin 2) K :=
  let N := bendingN ksi eta
  let a := coeffA loc
  let b := coeffB loc
  let c := coeffC loc
  let r0 : Fin 4 → Fin 2 → K := fun i =>
    (3/2 : K) • (a (midNodes i).1 • N (midNodes i).1 - a (midNodes i).2 • N (midNodes i).2)
  let r1 : Fin 4 → Fin 2 → K := fun i =>
    b (midNodes i).1 • N (midNodes i).1 + b (midNodes i).2 • N (midNodes i).2
  let r2 : Fin 4 → Fin 2 → K := fun i =>
    N (cornerRow i) - c (midNodes i).1 • N (midNodes i).1 - c (midNodes i).2 • N (midNodes i).2
  Matrix.of ![r0 0, r1 0, r2 0, r0 1, r1 1, r2 1, r0 2, r1 2, r2 2, r0 3, r1 3, r2 3]

/-- The matrix `Hy`: rows `3*i`, `3*i+1`, `3*i+2` for the nodes `i = 0..3`. -/
def bendingHy (loc : Matrix (Fin 4) (Fin 3) K) (ksi eta : K) : Matrix (Fin 12) (Fin 2) K :=
  let N := bendingN ksi eta
  let b := coeffB loc
  let d := coeffD loc
  let e := coeffE loc
  let r0 : Fin 4 → Fin 2 → K := fun i =>
    (3/2 : K) • (d (midNodes i).1 • N (midNodes i).1 - d (midNodes i).2 • N (midNodes i).2)
  let r1 : Fin 4 → Fin 2 → K := fun i =>
    -N (cornerRow i) + e (midNodes i).1 • N (midNodes i).1 + e (midNodes i).2 • N (midNodes i).2
  let r2 : Fin 4 → Fin 2 → K := fun i =>
    (-1 : K) • (b (midNodes i).1 • N (midNodes i).1 + b (midNodes i).2 • N (midNodes i).2)
  Matrix.of ![r0 0, r1 0, r2 0, r0 1, r1 1, r2 1, r0 2, r1 2, r2 2, r0 3, r1 3, r2 3]

/-- The matrix `B` for bending behaviour. -/
def bendingB (loc : Matrix (Fin 4) (Fin 3) K) (JInverse : Matrix (Fin 2) (Fin 2) K)
    (ksi eta : K) : Matrix (Fin 3) (Fin 12) K :=
  let Hx := bendingHx loc ksi eta
  let Hy := bendingHy loc ksi eta
  Matrix.of ![Hx *ᵥ JInverse 0, Hy *ᵥ JInverse 1, Hy *ᵥ JInverse 0 + Hx *ᵥ JInverse 1]

/-- Contribution of one integration point to `kNormal`. -/
def kNormalTerm (loc : Matrix (Fin 4) (Fin 3) K) (mE mPoisson mThickness : K) (p : K × K) :
    Matrix (Fin 8) (Fin 8) K :=
  let J := jacobian loc p.1 p.2
  let B := membraneB J p.1 p.2
  determinant2 J • ((mThickness * integrationWeight * integrationWeight) •
    (Bᵀ * ETermNormal mE mPoisson * B))

/-- Contribution of one integration point to `kShear`. -/
def kShearTerm (loc : Matrix (Fin 4) (Fin 3) K) (mE mPoisson mThickness : K) (p : K × K) :
    Matrix (Fin 8) (Fin 8) K :=
  let J := jacobian loc p.1 p.2
  let B := membraneB J p.1 p.2
  determinant2 J • ((mThickness * integrationWeight * integrationWeight) •
    (Bᵀ * ETermShear mE mPoisson * B))

/-- Contribution of one integration point to `kBending`. -/
def kBendingTerm (loc : Matrix (Fin 4) (Fin 3) K) (mE mPoisson mThickness : K) (p : K × K) :
    Matrix (Fin 12) (Fin 12) K :=
  let J := jacobian loc p.1 p.2
  let B := bendingB loc (inverse2 J) p.1 p.2
  determinant2 J • (Bᵀ * ETermBending mE mPoisson mThickness * B)

/-- The matrix `kNormal` after the numerical integration. -/
def kNormal (loc : Matrix (Fin 4) (Fin 3) K) (mE mPoisson mThickness s : K) :
    Matrix (Fin 8) (Fin 8) K :=
  (integrationPoints s).foldl (fun k p => k + kNormalTerm loc mE mPoisson mThickness p) 0

/-- The matrix `kShear` after the numerical integration. -/
def kShear (loc : Matrix (Fin 4) (Fin 3) K) (mE mPoisson mThickness s : K) :
    Matrix (Fin 8) (Fin 8) K :=
  (integrationPoints s).foldl (fun k p => k + kShearTerm loc mE mPoisson mThickness p) 0

/-- The matrix `kBending` after the numerical integration. -/
def kBending (loc : Matrix (Fin 4) (Fin 3) K) (mE mPoisson mThickness s : K) :
    Matrix (Fin 12) (Fin 12) K :=
  (integrationPoints s).foldl (fun k p => k + kBendingTerm loc mE mPoisson mThickness p) 0

/-- Scatter of an 8x8 membrane matrix: block `(2*m, 2*n)` of `k` goes to
`block<2,2>(6*m+0, 6*n+0)`; the other entries stay 0. -/
def scatterMembrane (k : Matrix (Fin 8) (Fin 8) K) : Matrix (Fin 24) (Fin 24) K :=
  Matrix.of fun r c =>
    if h : r.val % 6 < 2 ∧ c.val % 6 < 2 then
      k ⟨2 * (r.val / 6) + r.val % 6, by omega⟩ ⟨2 * (c.val / 6) + c.val % 6, by omega⟩
    else 0

/-- Scatter of the 12x12 bending matrix: block `(3*m, 3*n)` of `k` goes to
`block<3,3>(6*m+2, 6*n+2)`; the other entries stay 0. -/
def scatterBending (k : Matrix (Fin 12) (Fin 12) K) : Matrix (Fin 24) (Fin 24) K :=
  Matrix.of fun r c =>
    if h : (2 ≤ r.val % 6 ∧ r.val % 6 < 5) ∧ (2 ≤ c.val % 6 ∧ c.val % 6 < 5) then
      k ⟨3 * (r.val / 6) + (r.val % 6 - 2), by omega⟩
        ⟨3 * (c.val / 6) + (c.val % 6 - 2), by omega⟩
    else 0

/-- The value of `M.mean()`: the sum of all entries divided by their number. -/
def mean (M : Matrix (Fin 24) (Fin 24) K) : K := (∑ r, ∑ c, M r c) / 576

/-- Assignment `M(i,j) = v`. -/
def setEntry (M : Matrix (Fin 24) (Fin 24) K) (i j : Fin 24) (v : K) :
    Matrix (Fin 24) (Fin 24) K :=
  Matrix.of fun r c => if r = i ∧ c = j then v else M r c

/-- The four assignments that add the drilling stiffness to `mSM`. -/
def addDrilling (M : Matrix (Fin 24) (Fin 24) K) : Matrix (Fin 24) (Fin 24) K :=
  let M1 := setEntry M 5 5 (mean M)
  let M2 := setEntry M1 11 11 (M1 5 5)
  let M3 := setEntry M2 17 17 (M2 5 5)
  setEntry M3 23 23 (M3 5 5)

/-- The matrices stored by `deriveStiffnessMatrix`, and the local matrices
they are computed from. -/
structure StiffnessMatrices (K : Type) where
  mT : Matrix (Fin 24) (Fin 24) K
  localBending : Matrix (Fin 24) (Fin 24) K
  localNormal : Matrix (Fin 24) (Fin 24) K
  localShear : Matrix (Fin 24) (Fin 24) K
  localSum : Matrix (Fin 24) (Fin 24) K
  localSM : Matrix (Fin 24) (Fin 24) K
  mSM : Matrix (Fin 24) (Fin 24) K
  mOriginalSM : Matrix (Fin 24) (Fin 24) K
  mSMBending : Matrix (Fin 24) (Fin 24) K
  mSMNormal : Matrix (Fin 24) (Fin 24) K
  mSMShear : Matrix (Fin 24) (Fin 24) K

/-- Embedding of the numerical part of `flat_shell::deriveStiffnessMatrix`
(from the transformation matrix on). Parameters: the local axes `vx`, `vy`,
`vz`, the vertices, the material values and the value `s` of
`sqrt(1.0 / 3.0)`. -/
def deriveStiffnessMatrix (vx vy vz : Fin 3 → K) (mVertices : Fin 4 → Fin 3 → K)
    (mE mPoisson mThickness s : K) : StiffnessMatrices K :=
  let lambda := lambdaMatrix vx vy vz
  let mT := transformationMatrix lambda
  let locCoords := localCoordinates lambda mVertices
  let localNormal := scatterMembrane (kNormal locCoords mE mPoisson mThickness s)
  let localShear := scatterMembrane (kShear locCoords mE mPoisson mThickness s)
  let localBending := scatterBending (kBending locCoords mE mPoisson mThickness s)
  let localSum := localBending + localNormal + localShear
  let localSM := addDrilling localSum
  { mT := mT
    localBending := localBending
    localNormal := localNormal
    localShear := localShear
    localSum := localSum
    localSM := localSM
    mSM := mTᵀ * localSM * mT
    mOriginalSM := mTᵀ * localSM * mT
    mSMBending := mTᵀ * localBending * mT
    mSMNormal := mTᵀ * localNormal * mT
    mSMShear := mTᵀ * localShear * mT }

end FlatShellStiffness

/-! ## Flat shell element: the loops that fill the 24x24 matrices -/

section FlatShellLoops

open Matrix

variable {K : Type}

/-- Block assignment `M.block<p,p>(i,j) = k.block<p,p>(ki,kj)` for a source
matrix `k` of size `s`: the entries `(i+a, j+b)` of `M` with `a, b < p` become
the entries `(ki+a, kj+b)` of `k`. (A source block that does not fit into `k`
leaves `M` as it is; the loops below never ask for one.) -/
def assignBlock {s : Nat} (p : Nat) (M : Matrix (Fin 24) (Fin 24) K) (i j : Nat)
    (k : Matrix (Fin s) (Fin s) K) (ki kj : Nat) : Matrix (Fin 24) (Fin 24) K :=
  Matrix.of fun r c =>
    if h : ((i ≤ r.val ∧ r.val < i + p) ∧ (j ≤ c.val ∧ c.val < j + p)) ∧
        (ki + p ≤ s ∧ kj + p ≤ s) then
      k ⟨ki + (r.val - i), by omega⟩ ⟨kj + (c.val - j), by omega⟩
    else M r c

/-- The pairs `(m, n)` in the order of the loops `for m` and `for n` that
scatter the stiffness terms. -/
def scatterPairs : List (Nat × Nat) :=
  (List.range 4).flatMap fun m => (List.range 4).map fun n => (m, n)

/-- The matrices `mSMNormal`, `mSMShear` and `mSMBending` of the local frame. -/
structure LocalMatrices (K : Type) where
  mSMNormal : Matrix (Fin 24) (Fin 24) K
  mSMShear : Matrix (Fin 24) (Fin 24) K
  mSMBending : Matrix (Fin 24) (Fin 24) K

/-- Body of the scatter loops for the pair `(m, n)`: the three block
assignments. -/
def scatterLoop.body (kNormal kShear : Matrix (Fin 8) (Fin 8) K)
    (kBending : Matrix (Fin 12) (Fin 12) K) (s : LocalMatrices K) (mn : Nat × Nat) :
    LocalMatrices K :=
  { mSMNormal := assignBlock 2 s.mSMNormal (6 * mn.1 + 0) (6 * mn.2 + 0) kNormal
      (2 * mn.1) (2 * mn.2)
    mSMShear := assignBlock 2 s.mSMShear (6 * mn.1 + 0) (6 * mn.2 + 0) kShear
      (2 * mn.1) (2 * mn.2)
    mSMBending := assignBlock 3 s.mSMBending (6 * mn.1 + 2) (6 * mn.2 + 2) kBending
      (3 * mn.1) (3 * mn.2) }

/-- Embedding of the lines that fill the stiffness terms into the 24x24
matrices: `setZero(24,24)` three times, then the loops over `m` and `n`. -/
def scatterLoop [Zero K] (kNormal kShear : Matrix (Fin 8) (Fin 8) K)
    (kBending : Matrix (Fin 12) (Fin 12) K) : LocalMatrices K :=
  scatterPairs.foldl (scatterLoop.body kNormal kShear kBending)
    { mSMNormal := 0, mSMShear := 0, mSMBending := 0 }

/-- The block numbers `2*i+j` in the order of the loops `for i` and `for j` that
fill `mT`. -/
def transformationBlocks : List Nat :=
  (List.range 4).flatMap fun i => (List.range 2).map fun j => 2 * i + j

/-- Embedding of the lines that fill `mT`: `setZero(24,24)`, then
`mT.block<3,3>((2*i+j)*3,(2*i+j)*3) = lambda.transpose()` in the loops over `i`
and `j`. -/
def transformationLoop [Zero K] (lambda : Matrix (Fin 3) (Fin 3) K) :
    Matrix (Fin 24) (Fin 24) K :=
  transformationBlocks.foldl (fun M b => assignBlock 3 M (b * 3) (b * 3) lambdaᵀ 0 0) 0

/-- Modelled from the spec: `normalize` of the geometry vector class, which is
not part of these sources, divides a vector by its length. `rt` is the square
root function. -/
def normalize [Field K] (rt : K → K) (v : Fin 3 → K) : Fin 3 → K :=
  fun i => v i / rt (v ⬝ᵥ v)

/-- Modelled from the spec: `cross` of the geometry vector class, which is not
part of these sources, is the cross product. -/
def cross [Field K] (a b : Fin 3 → K) : Fin 3 → K :=
  ![a 1 * b 2 - a 2 * b 1, a 2 * b 0 - a 0 * b 2, a 0 * b 1 - a 1 * b 0]

/-- The vector from the centre of the element to the middle of the edge between
the vertices 1 and 2, before it is normalised. `center` is the value of
`getCenter()`, which is not part of these sources. -/
def localXDirection [Field K] (center : Fin 3 → K) (mVertices : Fin 4 → Fin 3 → K) :
    Fin 3 → K :=
  fun i => (mVertices 1 i + mVertices 2 i) / 2 - center i

/-- Embedding of the lines that derive the local axes `vx`, `vy`, `vz`.
`center` and `normal` are the values of `getCenter()` and `getNormal()`. -/
def localAxes [Field K] (rt : K → K) (center normal : Fin 3 → K)
    (mVertices : Fin 4 → Fin 3 → K) : (Fin 3 → K) × (Fin 3 → K) × (Fin 3 → K) :=
  let vx := normalize rt (localXDirection center mVertices)
  let vz := normalize rt normal
  let vy := normalize rt (cross vz vx)
  (vx, vy, vz)

end FlatShellLoops

/-! ## Flat shell element: state and response -/

section FlatShellResponse

open Matrix

variable {K : Type}

/-- State of a `flat_shell` used by `computeResponse`: the element freedom
signature, the bound nodes (read only through `getDisplacements`), the global
stiffness matrices and the response state. -/
structure flat_shell (K : Type) where
  mEFS : Fin 6 → Int
  mNodes : List (node K)
  mSM : Matrix (Fin 24) (Fin 24) K
  mSMNormal : Matrix (Fin 24) (Fin 24) K
  mSMShear : Matrix (Fin 24) (Fin 24) K
  mSMBending : Matrix (Fin 24) (Fin 24) K
  mDisplacements : StdMap load_case (Fin 24 → K)
  mEnergies : StdMap load_case K
  mTotalEnergy : K
  mSeparatedEnergies : StdMap load_case (StdMap String K)

/-- The element freedom signature `mEFS << 1,1,1,1,1,1` of a flat shell. -/
def flatShellEFS : Fin 6 → Int := fun _ => 1

/-- Inner loop of `flat_shell::computeResponse` over the local DOFs `js` of one
node. The loop state is the buffer `elementDisplacements` and the offset of
`dispIte`. `getDisplacements` is evaluated before the write; a write at offset
24 or more is outside the buffer. -/
def flat_shell.computeResponse.innerLoop (e : flat_shell K) (lc : load_case) (nd : node K) :
    List (Fin 6) → (Fin 24 → K) × Nat → Outcome ((Fin 24 → K) × Nat)
  | [], s => .ok s
  | j :: js, s =>
    if e.mEFS j = 1 then
      match nd.getDisplacements lc with
      | .error err => .thrown err s
      | .ok d =>
        if h : s.2 < 24 then
          flat_shell.computeResponse.innerLoop e lc nd js (Function.update s.1 ⟨s.2, h⟩ (d j), s.2 + 1)
        else .undefined
    else flat_shell.computeResponse.innerLoop e lc nd js s

/-- Outer loop of `flat_shell::computeResponse` over the bound nodes. -/
def flat_shell.computeResponse.outerLoop (e : flat_shell K) (lc : load_case) :
    List (node K) → (Fin 24 → K) × Nat → Outcome ((Fin 24 → K) × Nat)
  | [], s => .ok s
  | nd :: nds, s =>
    match flat_shell.computeResponse.innerLoop e lc nd (List.finRange 6) s with
    | .ok s1 => flat_shell.computeResponse.outerLoop e lc nds s1
    | .thrown err s1 => .thrown err s1
    | .undefined => .undefined

/-- The value `0.5 * d.transpose() * M * d`. -/
def halfQuadraticForm [Field K] (M : Matrix (Fin 24) (Fin 24) K) (d : Fin 24 → K) : K :=
  Matrix.vecMul ((1 / 2 : K) • d) M ⬝ᵥ d

/-- Assignment `m[lc][tag] = v` in the map of maps `mSeparatedEnergies`. -/
def assignSeparated (m : StdMap load_case (StdMap String K)) (lc : load_case) (tag : String)
    (v : K) : StdMap load_case (StdMap String K) :=
  m.assign lc (((m.find lc).getD StdMap.empty).assign tag v)

/-- Embedding of `flat_shell::computeResponse`. -/
def flat_shell.computeResponse [Field K] (e : flat_shell K) (lc : load_case) :
    Outcome (flat_shell K) :=
  match flat_shell.computeResponse.outerLoop e lc e.mNodes ((fun _ => 0), 0) with
  | .thrown err _ => .thrown err e
  | .undefined => .undefined
  | .ok s =>
    let elementDisplacements := s.1
    let energy := halfQuadraticForm e.mSM elementDisplacements
    let sep1 := assignSeparated e.mSeparatedEnergies lc "normal"
      (halfQuadraticForm e.mSMNormal elementDisplacements)
    let sep2 := assignSeparated sep1 lc "shear"
      (halfQuadraticForm e.mSMShear elementDisplacements)
    let sep3 := assignSeparated sep2 lc "bending"
      (halfQuadraticForm e.mSMBending elementDisplacements)
    .ok { e with
      mDisplacements := e.mDisplacements.assign lc elementDisplacements
      mEnergies := e.mEnergies.assign lc energy
      mTotalEnergy := e.mTotalEnergy + energy
      mSeparatedEnergies := sep3 }

end FlatShellResponse

/-! ## Flat shell element: node binding -/

section FlatShellBinding

variable {K : Type}

/-- The container `l` of candidate nodes after the binding loops, and the
positions in `l` of the nodes pushed back to `mNodes`, in the order of the
pushes. -/
structure Binding (K : Type) where
  pool : List (node K)
  mNodes : List Nat

/-- Inner loop of the binding step for the vertex `i`, over the nodes of the
container from position `k` on: `j->updateNFS(mEFS)`, then
`if (i.isSameAs(*j)) mNodes.push_back(j)`. The result is the nodes after the
loop and the positions pushed back. The test `isSameAs` of the geometry classes
is not part of these sources and is a parameter; it compares coordinates. -/
def bindVertex (isSameAs : (Fin 3 → K) → (Fin 3 → K) → Bool) (mEFS : Fin 6 → Int)
    (i : Fin 3 → K) : List (node K) → Nat → List (node K) × List Nat
  | [], _ => ([], [])
  | j :: js, k =>
    let j1 := j.updateNFS mEFS
    let r := bindVertex isSameAs mEFS i js (k + 1)
    (j1 :: r.1, if isSameAs i j1.coords then k :: r.2 else r.2)

/-- Body of the outer loop of the binding step for the vertex `i`, with
`mEFS << 1,1,1,1,1,1`. -/
def bindNodes.body (isSameAs : (Fin 3 → K) → (Fin 3 → K) → Bool) (s : Binding K)
    (i : Fin 3 → K) : Binding K :=
  let r := bindVertex isSameAs (fun _ => 1) i s.pool 0
  { pool := r.1, mNodes := s.mNodes ++ r.2 }

end FlatShellBinding

/-! ## Notions used to state the properties -/

section Notions

variable {K : Type}

/-- Local DOF `i` is active (freedom flag 1) and unconstrained (constraint
flag 0): the condition tested by `generateNFT` and `addDisplacements`. -/
def node.free (n : node K) (i : Fin 6) : Prop := n.mNFS i = 1 ∧ n.mConstraints i = 0

instance node.decidableFree (n : node K) (i : Fin 6) : Decidable (n.free i) := by
  unfold node.free
  exact inferInstance

/-- Number of active-and-unconstrained local DOFs `j` of the list `l` with
`j < i`. -/
def node.freeBeforeIn (n : node K) (l : List (Fin 6)) (i : Nat) : Nat :=
  (l.filter (fun j => decide (j.val < i) && decide (n.free j))).length

/-- Number of active-and-unconstrained local DOFs `j < i` of the node. -/
def node.freeBefore (n : node K) (i : Nat) : Nat := n.freeBeforeIn (List.finRange 6) i

/-- Number of active-and-unconstrained local DOFs of the node. -/
def node.freeCount (n : node K) : Nat := n.freeBefore 6

/-- The numbering map has an entry for exactly the active-and-unconstrained
local DOFs of the node. -/
def node.numberingMatchesFlags (n : node K) : Prop :=
  ∀ k : Nat, (n.mNFT.find k).isSome = true ↔ ∃ i : Fin 6, i.val = k ∧ n.free i

/-- Total number of active-and-unconstrained DOFs over a list of nodes. -/
def totalFree (ns : List (node K)) : Nat := (ns.map node.freeCount).sum

/-- The node at position `p` of `ns` holds global index `g` for local DOF `i`. -/
def heldIndex (ns : List (node K)) (p i g : Nat) : Prop :=
  ∃ n, ns[p]? = some n ∧ n.mNFT.find i = some g

/-- The entries of a 24-vector at the membrane DOFs (offsets 0 and 1 of each
node), as an 8-vector. -/
def gatherMembrane (w : Fin 24 → K) : Fin 8 → K :=
  fun a => w ⟨6 * (a.val / 2) + a.val % 2, by omega⟩

/-- The entries of a 24-vector at the bending DOFs (offsets 2, 3 and 4 of each
node), as a 12-vector. -/
def gatherBending (w : Fin 24 → K) : Fin 12 → K :=
  fun a => w ⟨6 * (a.val / 3) + 2 + a.val % 3, by omega⟩

/-- Position `6*n + j` of local DOF `j` of bound node `n` in a 24-vector. -/
def elementDOF (n : Fin 4) (j : Fin 6) : Fin 24 := ⟨6 * n.val + j.val, by omega⟩

/-- The 24-vector that has `u` in the three translational DOFs of each of the 4
nodes and 0 in every rotational DOF. -/
def translationVector [Zero K] (u : Fin 3 → K) : Fin 24 → K :=
  fun r => if h : r.val % 6 < 3 then u ⟨r.val % 6, h⟩ else 0

/-- The load stored for load case `lc` at local DOF `i`, and 0 when `lc` has no
load vector. -/
def node.loadAt [Zero K] (n : node K) (lc : load_case) (i : Fin 6) : K :=
  match n.mLoads.find lc with
  | some v => v i
  | none => 0

/-- The node with `m` added to the load stored for `lc` at local DOF `i` (a
load vector of zeros being created when `lc` has none). -/
def node.loadAdded [Zero K] [Add K] (n : node K) (lc : load_case) (i : Fin 6) (m : K) :
    node K :=
  { n with mLoads :=
      n.mLoads.assign lc (Function.update (fun j => n.loadAt lc j) i (n.loadAt lc i + m)) }

/-- The operation `addLoad` of a registration `(lc, localDOF, magnitude)` with
`localDOF` in range. -/
def addLoadOp (c : load_case × Fin 6 × K) : NodeOp K := NodeOp.addLoad c.1 c.2.1.val c.2.2

/-- The value accumulated from `start` by adding to it, one at a time and in
the order of the registrations, the magnitudes registered for load case `lc` and
local DOF `i`, with the addition of the scalars (`+=`). -/
def accumulated [Add K] (calls : List (load_case × Fin 6 × K)) (lc : load_case) (i : Fin 6)
    (start : K) : K :=
  (calls.filter (fun c => decide (c.1 = lc ∧ c.2.1 = i))).foldl (fun acc c => acc + c.2.2) start

/-- Every freedom flag of the node is 0 or 1. -/
def node.flagsBoolean (n : node K) : Prop := ∀ i : Fin 6, n.mNFS i = 0 ∨ n.mNFS i = 1

/-- The node with all six freedom flags set. -/
def node.allActive (n : node K) : node K := { n with mNFS := fun _ => 1 }

/-- The 24x24 matrix whose only nonzero entries are `v` at (5,5), (11,11),
(17,17) and (23,23). -/
def drillingMatrix [Zero K] (v : K) : Matrix (Fin 24) (Fin 24) K :=
  Matrix.of fun r c => if r = c ∧ r.val % 6 = 5 then v else 0

/-- The vertices of the square of side 2 in the plane `z = 0` with its centre
at the origin. -/
def exampleCentredVertices : Fin 4 → Fin 3 → ℚ :=
  ![![-1, -1, 0], ![1, -1, 0], ![1, 1, 0], ![-1, 1, 0]]

/-- A function on the rationals that is a square root at 0 and at 1. -/
def exampleRoot : ℚ → ℚ := fun x => x

/-- The local axes of the centred square, for the normal `(0, 0, 1)`. -/
def exampleAxes : (Fin 3 → ℚ) × (Fin 3 → ℚ) × (Fin 3 → ℚ) :=
  localAxes exampleRoot (fun _ => 0) ![0, 0, 1] exampleCentredVertices

/-- A node of rational coordinates at the origin with freedom signature
`(1,1,0,0,0,0)`, no constraint and nothing stored. -/
def exampleNode : node ℚ :=
  { mID := 1, coords := fun _ => 0, mConstraints := fun _ => 0,
    mNFS := fun i => if i.val < 2 then 1 else 0,
    mLoads := StdMap.empty, mDisplacements := StdMap.empty, mNFT := StdMap.empty }

/-- A flat shell over the rationals with zero stiffness matrices, the flat-shell
freedom signature, the given bound nodes and an empty response state. -/
def exampleShell (nodes : List (node ℚ)) : flat_shell ℚ :=
  { mEFS := flatShellEFS, mNodes := nodes, mSM := 0, mSMNormal := 0, mSMShear := 0,
    mSMBending := 0, mDisplacements := StdMap.empty, mEnergies := StdMap.empty,
    mTotalEnergy := 0, mSeparatedEnergies := StdMap.empty }

/-- The example node with the zero displacement vector stored for load case 7. -/
def exampleDisplacedNode : node ℚ :=
  { exampleNode with mDisplacements := StdMap.empty.assign 7 (fun _ => 0) }

/-- A square matrix is positive semidefinite: it is symmetric and its
quadratic form is nowhere negative. -/
def positiveSemidefinite {ι : Type} [Fintype ι] [LinearOrderedField K] (M : Matrix ι ι K) :
    Prop :=
  M.transpose = M ∧ ∀ x : ι → K, 0 ≤ Matrix.dotProduct x (Matrix.mulVec M x)

/-- Number of binary digits of `n`, computed with at most `fuel` halvings. -/
def binaryDigits : Nat → Nat → Nat
  | 0, _ => 0
  | fuel + 1, n => if n = 0 then 0 else binaryDigits fuel (n / 2) + 1

/-- The value of the `double` nearest to the natural number `n` (IEEE 754
binary64: 53 significant binary digits, rounding to nearest, ties to the even
significand), for `n` below the overflow threshold `2^1024`. -/
def roundToDouble (n : Nat) : Nat :=
  let unit := 2 ^ (binaryDigits n n - 53)
  let q := n / unit
  let r := n % unit
  if 2 * r < unit then q * unit
  else if unit < 2 * r then (q + 1) * unit
  else if q % 2 = 0 then q * unit
  else (q + 1) * unit

/-- The values of type `double` that are nonnegative integers, each given by
its value. -/
structure IntegralDouble where
  value : Nat

/-- The `double` 0. -/
instance IntegralDouble.instZero : Zero IntegralDouble := ⟨⟨0⟩⟩

/-- Addition of two `double` values: the exact sum, rounded to the nearest
`double`. -/
instance IntegralDouble.instAdd : Add IntegralDouble :=
  ⟨fun a b => ⟨roundToDouble (a.value + b.value)⟩⟩

/-- A node with `double` scalars as the constructor leaves it. -/
def exampleDoubleNode : node IntegralDouble := node.mk0 (fun _ => ⟨0⟩) 1

end Notions

/-! ## Theorems: node -/

section NodeTheorems

variable {K : Type}

/-! ### The loop of `generateNFT` -/

theorem node.freeBeforeIn_cons (n : node K) (a : Fin 6) (l : List (Fin 6)) (k : Nat) :
    n.freeBeforeIn (a :: l) k =
      (if a.val < k ∧ n.free a then 1 else 0) + n.freeBeforeIn l k := by
  unfold node.freeBeforeIn
  rw [List.filter_cons]
  by_cases h : a.val < k ∧ n.free a
  · simp [h, Nat.add_comm]
  · have hb : (decide (a.val < k) && decide (n.free a)) = false := by
      simpa [Bool.and_eq_true] using h
    simp [hb, h]

theorem node.freeBeforeIn_eq_zero (n : node K) (l : List (Fin 6)) (k : Nat)
    (h : ∀ j ∈ l, k ≤ j.val) : n.freeBeforeIn l k = 0 := by
  unfold node.freeBeforeIn
  rw [List.length_eq_zero, List.filter_eq_nil_iff]
  intro j hj
  have := h j hj
  simp
  intro hlt
  omega

theorem succ_mod_add (c x M : Nat) : ((c + 1) % M + x) % M = (c + (1 + x)) % M := by
  rw [Nat.add_mod, Nat.mod_mod, ← Nat.add_mod, Nat.add_assoc]

/-- Loop invariant of `generateNFT` over an increasing list of local DOFs. -/
theorem generateNFT_loop (l : List (Fin 6)) : ∀ (n : node K) (c : Nat), c < ULONG_MODULUS →
    l.Pairwise (· < ·) →
    (l.foldl node.generateNFT.body (n, c)).1 =
      { n with mNFT := fun k => if ∃ i ∈ l, i.val = k ∧ n.free i
          then some ((c + n.freeBeforeIn l k) % ULONG_MODULUS) else n.mNFT k } ∧
    (l.foldl node.generateNFT.body (n, c)).2 = (c + n.freeBeforeIn l 6) % ULONG_MODULUS := by
  induction l with
  | nil =>
    intro n c hc _
    simp [node.freeBeforeIn, Nat.mod_eq_of_lt hc]
  | cons a l ih =>
    intro n c hc hp
    rw [List.pairwise_cons] at hp
    obtain ⟨ha, hl⟩ := hp
    rw [List.foldl_cons]
    by_cases hf : n.mNFS a = 1 ∧ n.mConstraints a = 0
    · have hstep : node.generateNFT.body (n, c) a =
          ({ n with mNFT := n.mNFT.assign a.val c }, (c + 1) % ULONG_MODULUS) := by
        simp [node.generateNFT.body, hf]
      have hc1 : (c + 1) % ULONG_MODULUS < ULONG_MODULUS := Nat.mod_lt _ (by decide)
      rw [hstep]
      obtain ⟨h1, h2⟩ := ih { n with mNFT := n.mNFT.assign a.val c } _ hc1 hl
      have hfa : n.free a := hf
      have hfree : ∀ i, node.free { n with mNFT := n.mNFT.assign a.val c } i = n.free i :=
        fun _ => rfl
      have hcnt : ∀ k, node.freeBeforeIn { n with mNFT := n.mNFT.assign a.val c } l k
          = n.freeBeforeIn l k := fun _ => rfl
      constructor
      · rw [h1]
        congr 1
        funext k
        simp only [hfree, hcnt]
        by_cases hk : a.val = k
        · have hno : ¬ ∃ i ∈ l, i.val = k ∧ n.free i := by
            rintro ⟨i, hi, hik, _⟩
            have := ha i hi
            omega
          have hyes : ∃ i ∈ a :: l, i.val = k ∧ n.free i :=
            ⟨a, List.mem_cons_self _ _, hk, hfa⟩
          have hz : n.freeBeforeIn l k = 0 :=
            n.freeBeforeIn_eq_zero l k (fun j hj => by have := ha j hj; omega)
          rw [if_neg hno, if_pos hyes, node.freeBeforeIn_cons, hz]
          have hnlt : ¬ (a.val < k ∧ n.free a) := by omega
          simp [StdMap.assign, hk, hnlt, Nat.mod_eq_of_lt hc]
        · by_cases hex : ∃ i ∈ l, i.val = k ∧ n.free i
          · have hyes : ∃ i ∈ a :: l, i.val = k ∧ n.free i := by
              obtain ⟨i, hi, h⟩ := hex
              exact ⟨i, List.mem_cons_of_mem _ hi, h⟩
            have hlt : a.val < k := by
              obtain ⟨i, hi, hik, _⟩ := hex
              have := ha i hi
              omega
            rw [if_pos hex, if_pos hyes, node.freeBeforeIn_cons, if_pos ⟨hlt, hfa⟩,
              succ_mod_add]
          · have hno : ¬ ∃ i ∈ a :: l, i.val = k ∧ n.free i := by
              rintro ⟨i, hi, hik, hfi⟩
              rcases List.mem_cons.1 hi with rfl | hi
              · exact hk hik
              · exact hex ⟨i, hi, hik, hfi⟩
            rw [if_neg hex, if_neg hno]
            have : ¬ k = a.val := fun h => hk h.symm
            simp [StdMap.assign, this]
      · rw [h2, hcnt, node.freeBeforeIn_cons, if_pos ⟨a.isLt, hfa⟩, succ_mod_add]
    · have hstep : node.generateNFT.body (n, c) a = (n, c) := by
        simp [node.generateNFT.body, hf]
      have hfa : ¬ n.free a := hf
      rw [hstep]
      obtain ⟨h1, h2⟩ := ih n c hc hl
      have hcnt : ∀ k, n.freeBeforeIn (a :: l) k = n.freeBeforeIn l k := by
        intro k
        rw [node.freeBeforeIn_cons, if_neg (fun h => hfa h.2), Nat.zero_add]
      have hex : ∀ k, (∃ i ∈ a :: l, i.val = k ∧ n.free i) ↔
          ∃ i ∈ l, i.val = k ∧ n.free i := by
        intro k
        constructor
        · rintro ⟨i, hi, hik, hfi⟩
          rcases List.mem_cons.1 hi with rfl | hi
          · exact absurd hfi hfa
          · exact ⟨i, hi, hik, hfi⟩
        · rintro ⟨i, hi, h⟩
          exact ⟨i, List.mem_cons_of_mem _ hi, h⟩
      constructor
      · rw [h1]
        congr 1
        funext k
        simp only [hcnt, hex]
      · rw [h2, hcnt]

theorem finRange_six_increasing : (List.finRange 6).Pairwise (· < ·) := by decide

/-- The node after `generateNFT`: only the numbering map changes, and it gets an
entry for exactly the active-and-unconstrained local DOFs. -/
theorem generateNFT_fst (n : node K) (c : Nat) (hc : c < ULONG_MODULUS) :
    (n.generateNFT c).1 =
      { n with mNFT := fun k => if ∃ i : Fin 6, i.val = k ∧ n.free i
          then some ((c + n.freeBefore k) % ULONG_MODULUS) else n.mNFT k } := by
  have h := (generateNFT_loop (List.finRange 6) n c hc finRange_six_increasing).1
  unfold node.generateNFT
  rw [h]
  congr 1
  funext k
  simp [List.mem_finRange, node.freeBefore]

/-- The counter after `generateNFT`. -/
theorem generateNFT_snd (n : node K) (c : Nat) (hc : c < ULONG_MODULUS) :
    (n.generateNFT c).2 = (c + n.freeCount) % ULONG_MODULUS :=
  (generateNFT_loop (List.finRange 6) n c hc finRange_six_increasing).2

theorem generateNFT_free (n : node K) (c : Nat) (hc : c < ULONG_MODULUS) (i : Fin 6) :
    (n.generateNFT c).1.free i ↔ n.free i := by
  rw [generateNFT_fst n c hc]
  exact Iff.rfl

theorem generateNFT_freeBefore (n : node K) (c : Nat) (hc : c < ULONG_MODULUS) (k : Nat) :
    (n.generateNFT c).1.freeBefore k = n.freeBefore k := by
  rw [generateNFT_fst n c hc]
  rfl

/-- Index held after `generateNFT` by an active-and-unconstrained local DOF. -/
theorem generateNFT_find_free (n : node K) (c : Nat) (hc : c < ULONG_MODULUS) (i : Fin 6)
    (hi : n.free i) :
    (n.generateNFT c).1.mNFT.find i.val = some ((c + n.freeBefore i.val) % ULONG_MODULUS) := by
  rw [generateNFT_fst n c hc]
  have : ∃ j : Fin 6, j.val = i.val ∧ n.free j := ⟨i, rfl, hi⟩
  simp only [StdMap.find, if_pos this]

/-- A key that is no active-and-unconstrained local DOF keeps its map state. -/
theorem generateNFT_find_other (n : node K) (c : Nat) (hc : c < ULONG_MODULUS) (k : Nat)
    (hk : ¬ ∃ i : Fin 6, i.val = k ∧ n.free i) :
    (n.generateNFT c).1.mNFT.find k = n.mNFT.find k := by
  rw [generateNFT_fst n c hc]
  simp only [StdMap.find, if_neg hk]

theorem node.freeBeforeIn_mono (n : node K) (l : List (Fin 6)) {k k' : Nat} (h : k ≤ k') :
    n.freeBeforeIn l k ≤ n.freeBeforeIn l k' := by
  induction l with
  | nil => simp [node.freeBeforeIn]
  | cons a l ih =>
    rw [node.freeBeforeIn_cons, node.freeBeforeIn_cons]
    by_cases h1 : a.val < k ∧ n.free a
    · have h2 : a.val < k' ∧ n.free a := ⟨by omega, h1.2⟩
      rw [if_pos h1, if_pos h2]
      omega
    · rw [if_neg h1]
      split <;> omega

/-- An active-and-unconstrained DOF of an increasing list is counted by every
later bound. -/
theorem node.freeBeforeIn_lt (n : node K) (l : List (Fin 6)) (hl : l.Pairwise (· < ·))
    (i : Fin 6) (hi : i ∈ l) (hf : n.free i) {k : Nat} (hk : i.val < k) :
    n.freeBeforeIn l i.val < n.freeBeforeIn l k := by
  induction l with
  | nil => simp at hi
  | cons a l ih =>
    rw [List.pairwise_cons] at hl
    rw [node.freeBeforeIn_cons, node.freeBeforeIn_cons]
    rcases List.mem_cons.1 hi with rfl | hi
    · have hz : n.freeBeforeIn l i.val = 0 :=
        n.freeBeforeIn_eq_zero l _ (fun j hj => by have := hl.1 j hj; omega)
      have h1 : ¬ (i.val < i.val ∧ n.free i) := by omega
      rw [if_neg h1, if_pos ⟨hk, hf⟩, hz]
      omega
    · have := ih hl.2 hi
      have hai : a.val < i.val := hl.1 i hi
      by_cases h1 : a.val < i.val ∧ n.free a
      · have h2 : a.val < k ∧ n.free a := ⟨by omega, h1.2⟩
        rw [if_pos h1, if_pos h2]
        omega
      · rw [if_neg h1]
        split <;> omega

theorem node.freeBefore_lt_freeCount (n : node K) (i : Fin 6) (hf : n.free i) :
    n.freeBefore i.val < n.freeCount :=
  n.freeBeforeIn_lt _ finRange_six_increasing i (List.mem_finRange i) hf i.isLt

/-- Every rank below the count is the rank of an active-and-unconstrained DOF. -/
theorem node.freeBeforeIn_surj (n : node K) (l : List (Fin 6)) (hl : l.Pairwise (· < ·)) :
    ∀ r : Nat, r < n.freeBeforeIn l 6 → ∃ i ∈ l, n.free i ∧ n.freeBeforeIn l i.val = r := by
  induction l with
  | nil =>
    intro r hr
    simp [node.freeBeforeIn] at hr
  | cons a l ih =>
    intro r hr
    rw [List.pairwise_cons] at hl
    rw [node.freeBeforeIn_cons] at hr
    by_cases hf : n.free a
    · rw [if_pos ⟨a.isLt, hf⟩] at hr
      rcases r with _ | r
      · refine ⟨a, List.mem_cons_self _ _, hf, ?_⟩
        have hz : n.freeBeforeIn l a.val = 0 :=
          n.freeBeforeIn_eq_zero l _ (fun j hj => by have := hl.1 j hj; omega)
        have h1 : ¬ (a.val < a.val ∧ n.free a) := by omega
        rw [node.freeBeforeIn_cons, if_neg h1, hz]
      · obtain ⟨i, hi, hfi, hr'⟩ := ih hl.2 r (by omega)
        refine ⟨i, List.mem_cons_of_mem _ hi, hfi, ?_⟩
        have hai : a.val < i.val := hl.1 i hi
        rw [node.freeBeforeIn_cons, if_pos ⟨hai, hf⟩, hr']
        omega
    · rw [if_neg (fun h => hf h.2), Nat.zero_add] at hr
      obtain ⟨i, hi, hfi, hr'⟩ := ih hl.2 r hr
      refine ⟨i, List.mem_cons_of_mem _ hi, hfi, ?_⟩
      rw [node.freeBeforeIn_cons, if_neg (fun h => hf h.2), Nat.zero_add, hr']

/-- The entries of the numbering map of a previously unnumbered node after a
call of `generateNFT` that does not wrap the counter. -/
theorem generateNFT_find_iff (n : node K) (c : Nat) (hn : n.mNFT = StdMap.empty)
    (hc : c + n.freeCount < ULONG_MODULUS) (k g : Nat) :
    (n.generateNFT c).1.mNFT.find k = some g ↔
      ∃ i : Fin 6, i.val = k ∧ n.free i ∧ g = c + n.freeBefore i.val := by
  have hc0 : c < ULONG_MODULUS := by omega
  by_cases hk : ∃ i : Fin 6, i.val = k ∧ n.free i
  · obtain ⟨i, rfl, hi⟩ := hk
    have hlt := n.freeBefore_lt_freeCount i hi
    rw [generateNFT_find_free n c hc0 i hi, Nat.mod_eq_of_lt (by omega)]
    constructor
    · intro h
      exact ⟨i, rfl, hi, (Option.some.inj h).symm⟩
    · rintro ⟨j, hj, _, hg⟩
      have : j = i := Fin.ext hj
      subst this
      rw [hg]
  · rw [generateNFT_find_other n c hc0 k hk, hn]
    constructor
    · intro h
      simp [StdMap.find, StdMap.empty] at h
    · rintro ⟨i, hik, hi, _⟩
      exact absurd ⟨i, hik, hi⟩ hk

theorem heldIndex_zero (n : node K) (ns : List (node K)) (i g : Nat) :
    heldIndex (n :: ns) 0 i g ↔ n.mNFT.find i = some g := by
  simp [heldIndex]

theorem heldIndex_succ (n : node K) (ns : List (node K)) (p i g : Nat) :
    heldIndex (n :: ns) (p + 1) i g ↔ heldIndex ns p i g := by
  simp [heldIndex]

/-- One numbering pass over previously unnumbered nodes that does not wrap the
counter: range of the indices, coverage of the range, distinctness, and the
final counter. -/
theorem numberingPass_spec (ns : List (node K)) : ∀ c : Nat,
    (∀ n ∈ ns, n.mNFT = StdMap.empty) → c + totalFree ns < ULONG_MODULUS →
    (∀ p i g, heldIndex (numberingPass ns c).1 p i g → c ≤ g ∧ g < c + totalFree ns) ∧
    (∀ g, c ≤ g → g < c + totalFree ns → ∃ p i, heldIndex (numberingPass ns c).1 p i g) ∧
    (∀ p i p' i' g, heldIndex (numberingPass ns c).1 p i g →
      heldIndex (numberingPass ns c).1 p' i' g → p = p' ∧ i = i') ∧
    (numberingPass ns c).2 = c + totalFree ns := by
  induction ns with
  | nil =>
    intro c _ _
    refine ⟨?_, ?_, ?_, ?_⟩
    · intro p i g h
      simp [heldIndex, numberingPass] at h
    · intro g h1 h2
      simp [totalFree] at h2
      omega
    · intro p i p' i' g h
      simp [heldIndex, numberingPass] at h
    · simp [numberingPass, totalFree]
  | cons n ns ih =>
    intro c hempty hc
    have htot : totalFree (n :: ns) = n.freeCount + totalFree ns := by
      simp [totalFree]
    rw [htot] at hc
    have hn : n.mNFT = StdMap.empty := hempty n (List.mem_cons_self _ _)
    have hcn : c + n.freeCount < ULONG_MODULUS := by omega
    have hc0 : c < ULONG_MODULUS := by omega
    have hsnd : (n.generateNFT c).2 = c + n.freeCount := by
      rw [generateNFT_snd n c hc0, Nat.mod_eq_of_lt hcn]
    have hpass : numberingPass (n :: ns) c =
        ((n.generateNFT c).1 :: (numberingPass ns (c + n.freeCount)).1,
          (numberingPass ns (c + n.freeCount)).2) := by
      simp [numberingPass, hsnd]
    obtain ⟨hA, hB, hC, hD⟩ := ih (c + n.freeCount)
      (fun m hm => hempty m (List.mem_cons_of_mem _ hm)) (by omega)
    have hhead : ∀ i g, (n.generateNFT c).1.mNFT.find i = some g →
        c ≤ g ∧ g < c + n.freeCount ∧ ∃ j : Fin 6, j.val = i ∧ n.free j ∧
          g = c + n.freeBefore j.val := by
      intro i g h
      obtain ⟨j, hj, hfj, hg⟩ := (generateNFT_find_iff n c hn hcn i g).1 h
      have := n.freeBefore_lt_freeCount j hfj
      exact ⟨by omega, by omega, j, hj, hfj, hg⟩
    rw [hpass, htot]
    refine ⟨?_, ?_, ?_, ?_⟩
    · intro p i g h
      rcases p with _ | p
      · rw [heldIndex_zero] at h
        have := hhead i g h
        omega
      · rw [heldIndex_succ] at h
        have := hA p i g h
        omega
    · intro g h1 h2
      by_cases hg : g < c + n.freeCount
      · obtain ⟨j, _, hfj, hr⟩ :=
          n.freeBeforeIn_surj _ finRange_six_increasing (g - c) (by
            show g - c < n.freeCount
            omega)
        refine ⟨0, j.val, ?_⟩
        rw [heldIndex_zero, generateNFT_find_iff n c hn hcn]
        refine ⟨j, rfl, hfj, ?_⟩
        show g = c + n.freeBeforeIn (List.finRange 6) j.val
        omega
      · obtain ⟨p, i, h⟩ := hB g (by omega) (by omega)
        exact ⟨p + 1, i, (heldIndex_succ _ _ p i g).2 h⟩
    · intro p i p' i' g h h'
      rcases p with _ | p <;> rcases p' with _ | p'
      · rw [heldIndex_zero] at h h'
        obtain ⟨_, _, j, hj, hfj, hg⟩ := hhead i g h
        obtain ⟨_, _, j', hj', hfj', hg'⟩ := hhead i' g h'
        refine ⟨rfl, ?_⟩
        have heq : n.freeBefore j.val = n.freeBefore j'.val := by omega
        rcases Nat.lt_trichotomy j.val j'.val with hlt | heq' | hgt
        · have := n.freeBeforeIn_lt _ finRange_six_increasing j (List.mem_finRange j) hfj hlt
          unfold node.freeBefore at heq
          omega
        · omega
        · have := n.freeBeforeIn_lt _ finRange_six_increasing j' (List.mem_finRange j') hfj' hgt
          unfold node.freeBefore at heq
          omega
      · rw [heldIndex_zero] at h
        rw [heldIndex_succ] at h'
        have := hhead i g h
        have := hA p' i' g h'
        omega
      · rw [heldIndex_succ] at h
        rw [heldIndex_zero] at h'
        have := hhead i' g h'
        have := hA p i g h
        omega
      · rw [heldIndex_succ] at h h'
        obtain ⟨hp, hi⟩ := hC p i p' i' g h h'
        exact ⟨by omega, hi⟩
    · rw [hD]
      omega

/-! ### The loops of `addDisplacements` -/

/-- Loop invariant of the inner loop of `addDisplacements` over an increasing
list of local DOFs, when the supplied vector is long enough. -/
theorem addDisplacements_inner_loop [Zero K] (n : node K) (v : List K) (l : List (Fin 6)) :
    ∀ (t : Fin 6 → K) (pos : Nat), l.Pairwise (· < ·) →
    pos + n.freeBeforeIn l 6 ≤ v.length →
    l.foldlM (node.addDisplacements.body n v) (t, pos) =
      some (fun j => if j ∈ l then
              (if n.free j then (v[pos + n.freeBeforeIn l j.val]?).getD 0 else 0)
            else t j,
            pos + n.freeBeforeIn l 6) := by
  induction l with
  | nil =>
    intro t pos _ _
    simp [node.freeBeforeIn]
  | cons a l ih =>
    intro t pos hp hlen
    rw [List.pairwise_cons] at hp
    obtain ⟨ha, hl⟩ := hp
    have hnot : a ∉ l := fun h => by have := ha a h; omega
    rw [List.foldlM_cons]
    by_cases hf : n.mNFS a = 1 ∧ n.mConstraints a = 0
    · have hfa : n.free a := hf
      have h6 : n.freeBeforeIn (a :: l) 6 = 1 + n.freeBeforeIn l 6 := by
        rw [node.freeBeforeIn_cons, if_pos ⟨a.isLt, hfa⟩]
      rw [h6] at hlen
      have hpos : pos < v.length := by omega
      have hread : v[pos]? = some v[pos] := List.getElem?_eq_getElem hpos
      have hstep : node.addDisplacements.body n v (t, pos) a =
          some (Function.update t a v[pos], pos + 1) := by
        simp [node.addDisplacements.body, hf, hread]
      rw [hstep]
      show List.foldlM (node.addDisplacements.body n v) (Function.update t a v[pos], pos + 1) l
        = _
      rw [ih _ _ hl (by omega), h6]
      congr 2
      · funext j
        by_cases hja : j = a
        · subst hja
          have hz : n.freeBeforeIn l j.val = 0 :=
            n.freeBeforeIn_eq_zero l _ (fun i hi => by have := ha i hi; omega)
          have h1 : ¬ (j.val < j.val ∧ n.free j) := by omega
          simp [hnot, hfa, node.freeBeforeIn_cons, h1, hz, hread]
        · by_cases hjl : j ∈ l
          · have haj : a.val < j.val := ha j hjl
            have h1 : a.val < j.val ∧ n.free a := ⟨haj, hfa⟩
            simp only [hjl, List.mem_cons, or_true, if_true, node.freeBeforeIn_cons, if_pos h1]
            by_cases hfj : n.free j
            · simp only [hfj, if_true]
              congr 2
              omega
            · simp only [hfj, if_false]
          · simp [hjl, hja]
      · omega
    · have hfa : ¬ n.free a := hf
      have hcnt : ∀ k, n.freeBeforeIn (a :: l) k = n.freeBeforeIn l k := by
        intro k
        rw [node.freeBeforeIn_cons, if_neg (fun h => hfa h.2), Nat.zero_add]
      rw [hcnt] at hlen
      have hstep : node.addDisplacements.body n v (t, pos) a =
          some (Function.update t a 0, pos) := by
        simp [node.addDisplacements.body, hf]
      rw [hstep]
      show List.foldlM (node.addDisplacements.body n v) (Function.update t a 0, pos) l = _
      rw [ih _ _ hl hlen]
      congr 2
      · funext j
        by_cases hja : j = a
        · subst hja
          simp [hnot, hfa]
        · by_cases hjl : j ∈ l
          · simp only [hjl, List.mem_cons, or_true, if_true, hcnt]
          · simp [hjl, hja]
      · rw [hcnt]

/-- The 6-vector built by the inner loop from a vector that is long enough. -/
theorem addDisplacements_inner_eq [Zero K] (n : node K) (v : List K)
    (hlen : n.freeCount ≤ v.length) :
    node.addDisplacements.inner n v =
      some (fun j => if n.free j then (v[n.freeBefore j.val]?).getD 0 else 0) := by
  unfold node.addDisplacements.inner
  rw [addDisplacements_inner_loop n v _ _ 0 finRange_six_increasing (by
    rw [Nat.zero_add]
    exact hlen)]
  simp [List.mem_finRange, node.freeBefore]

/-- Loop invariant of the outer loop of `addDisplacements`. -/
theorem addDisplacements_outer_loop [Zero K] (ds : List (load_case × List K)) :
    ∀ s : node K, (ds.map Prod.fst).Nodup → (∀ e ∈ ds, s.freeCount ≤ e.2.length) →
    ds.foldlM node.addDisplacements.outer s =
      some { s with mDisplacements := fun lc =>
        match ds.find? (fun e => decide (e.1 = lc)) with
        | some e => some (fun j => if s.free j then (e.2[s.freeBefore j.val]?).getD 0 else 0)
        | none => s.mDisplacements lc } := by
  induction ds with
  | nil =>
    intro s _ _
    simp
  | cons e ds ih =>
    intro s hk hlen
    rw [List.map_cons, List.nodup_cons] at hk
    obtain ⟨hnot, hk⟩ := hk
    have he := hlen e (List.mem_cons_self _ _)
    have hstep : node.addDisplacements.outer s e =
        some { s with mDisplacements := (s.mDisplacements.assign e.1
          (fun j => if s.free j then (e.2[s.freeBefore j.val]?).getD 0 else 0)) } := by
      simp [node.addDisplacements.outer, addDisplacements_inner_eq s e.2 he]
    rw [List.foldlM_cons, hstep]
    show List.foldlM node.addDisplacements.outer _ ds = _
    have key := ih { s with mDisplacements := (s.mDisplacements.assign e.1
        (fun j => if s.free j then (e.2[s.freeBefore j.val]?).getD 0 else 0)) } hk
      (fun e' he' => hlen e' (List.mem_cons_of_mem _ he'))
    rw [key]
    congr 2
    funext lc
    by_cases hlc : e.1 = lc
    · subst hlc
      have hnone : ds.find? (fun e' => decide (e'.1 = e.1)) = none := by
        rw [List.find?_eq_none]
        intro e' he' h
        have : e'.1 = e.1 := by simpa using h
        exact hnot (this ▸ List.mem_map_of_mem Prod.fst he')
      simp only [hnone, List.find?_cons, decide_True]
      simp [StdMap.assign]
    · have : ¬ lc = e.1 := fun h => hlc h.symm
      simp only [List.find?_cons, hlc, decide_False]
      cases ds.find? (fun e' => decide (e'.1 = lc)) with
      | none => simp [StdMap.assign, this]
      | some e' => rfl

/-! ### Keys of the numbering map -/

/-- The loop of `generateNFT`, for any counter value: flags are kept and the
keys of the map grow by the active-and-unconstrained DOFs of the list. -/
theorem generateNFT_loop_keys (l : List (Fin 6)) : ∀ (n : node K) (c : Nat),
    (l.foldl node.generateNFT.body (n, c)).1.mNFS = n.mNFS ∧
    (l.foldl node.generateNFT.body (n, c)).1.mConstraints = n.mConstraints ∧
    ∀ k : Nat, ((l.foldl node.generateNFT.body (n, c)).1.mNFT.find k).isSome = true ↔
      ((∃ i ∈ l, i.val = k ∧ n.free i) ∨ (n.mNFT.find k).isSome = true) := by
  induction l with
  | nil =>
    intro n c
    simp
  | cons a l ih =>
    intro n c
    rw [List.foldl_cons]
    by_cases hf : n.mNFS a = 1 ∧ n.mConstraints a = 0
    · have hstep : node.generateNFT.body (n, c) a =
          ({ n with mNFT := n.mNFT.assign a.val c }, (c + 1) % ULONG_MODULUS) := by
        simp [node.generateNFT.body, hf]
      rw [hstep]
      obtain ⟨h1, h2, h3⟩ := ih { n with mNFT := n.mNFT.assign a.val c } ((c + 1) % ULONG_MODULUS)
      refine ⟨h1, h2, fun k => ?_⟩
      rw [h3 k]
      have hfree : ∀ i, node.free { n with mNFT := n.mNFT.assign a.val c } i ↔ n.free i :=
        fun _ => Iff.rfl
      simp only [hfree, List.mem_cons]
      by_cases hk : k = a.val
      · subst hk
        have : ∃ i, (i = a ∨ i ∈ l) ∧ i.val = a.val ∧ n.free i := ⟨a, Or.inl rfl, rfl, hf⟩
        simp [StdMap.find, StdMap.assign, this]
      · have hne : ∀ i : Fin 6, i.val = k → ¬ i = a := by
          rintro i hik rfl
          exact hk hik.symm
        simp only [StdMap.find, StdMap.assign, if_neg hk]
        constructor
        · rintro (⟨i, hi, hik, hfi⟩ | h)
          · exact Or.inl ⟨i, Or.inr hi, hik, hfi⟩
          · exact Or.inr h
        · rintro (⟨i, hi | hi, hik, hfi⟩ | h)
          · exact absurd hi (hne i hik)
          · exact Or.inl ⟨i, hi, hik, hfi⟩
          · exact Or.inr h
    · have hstep : node.generateNFT.body (n, c) a = (n, c) := by
        simp [node.generateNFT.body, hf]
      rw [hstep]
      obtain ⟨h1, h2, h3⟩ := ih n c
      refine ⟨h1, h2, fun k => ?_⟩
      rw [h3 k]
      simp only [List.mem_cons]
      constructor
      · rintro (⟨i, hi, hik, hfi⟩ | h)
        · exact Or.inl ⟨i, Or.inr hi, hik, hfi⟩
        · exact Or.inr h
      · rintro (⟨i, hi | hi, hik, hfi⟩ | h)
        · subst hi
          exact absurd hfi hf
        · exact Or.inl ⟨i, hi, hik, hfi⟩
        · exact Or.inr h

/-- After `generateNFT` on a node whose map has no entry for another key than
an active-and-unconstrained local DOF, the map has an entry for exactly these
DOFs. -/
theorem generateNFT_numberingMatchesFlags (n : node K) (c : Nat)
    (hn : ∀ k : Nat, (n.mNFT.find k).isSome = true → ∃ i : Fin 6, i.val = k ∧ n.free i) :
    (n.generateNFT c).1.numberingMatchesFlags := by
  obtain ⟨h1, h2, h3⟩ := generateNFT_loop_keys (List.finRange 6) n c
  intro k
  have hfree : ∀ i, (n.generateNFT c).1.free i ↔ n.free i := by
    intro i
    unfold node.free node.generateNFT
    rw [h1, h2]
  unfold node.generateNFT
  rw [h3 k]
  simp only [List.mem_finRange, true_and]
  constructor
  · rintro (⟨i, hik, hfi⟩ | h)
    · exact ⟨i, hik, (hfree i).2 hfi⟩
    · obtain ⟨i, hik, hfi⟩ := hn k h
      exact ⟨i, hik, (hfree i).2 hfi⟩
  · rintro ⟨i, hik, hfi⟩
    exact Or.inl ⟨i, hik, (hfree i).1 hfi⟩

/-- The outer loop of `addDisplacements` changes the displacement store only. -/
theorem addDisplacements_outer_frame [Zero K] (ds : List (load_case × List K)) :
    ∀ s s' : node K, ds.foldlM node.addDisplacements.outer s = some s' →
    s'.mNFS = s.mNFS ∧ s'.mConstraints = s.mConstraints ∧ s'.mNFT = s.mNFT ∧
    s'.mLoads = s.mLoads := by
  induction ds with
  | nil =>
    intro s s' h
    have : s = s' := by simpa using h
    subst this
    exact ⟨rfl, rfl, rfl, rfl⟩
  | cons e ds ih =>
    intro s s' h
    rw [List.foldlM_cons] at h
    cases hin : node.addDisplacements.inner s e.2 with
    | none =>
      simp [node.addDisplacements.outer, hin] at h
    | some t =>
      have hstep : node.addDisplacements.outer s e =
          some { s with mDisplacements := s.mDisplacements.assign e.1 t } := by
        simp [node.addDisplacements.outer, hin]
      rw [hstep] at h
      have h' : ds.foldlM node.addDisplacements.outer
          { s with mDisplacements := s.mDisplacements.assign e.1 t } = some s' := h
      have hrec := ih { s with mDisplacements := s.mDisplacements.assign e.1 t } s' h'
      exact hrec

/-- An operation other than `updateNFS` and `addConstraint` keeps the property
that the numbering map matches the flags, whether it returns or throws. -/
theorem NodeOp.keeps_numberingMatchesFlags [Zero K] [Add K] (op : NodeOp K) (n : node K)
    (hop : op.keepsFlags = true) (hn : n.numberingMatchesFlags) :
    (∀ s, op.apply n = .ok s → s.numberingMatchesFlags) ∧
    (∀ e s, op.apply n = .thrown e s → s.numberingMatchesFlags) := by
  cases op with
  | updateNFS EFS => simp [NodeOp.keepsFlags] at hop
  | addConstraint localDOF => simp [NodeOp.keepsFlags] at hop
  | addLoad lc localDOF magnitude =>
    constructor
    · intro s hs
      by_cases h : localDOF > 5
      · simp [NodeOp.apply, node.addLoad, h] at hs
      · simp only [NodeOp.apply, node.addLoad, dif_neg h, Outcome.ok.injEq] at hs
        subst hs
        exact hn
    · intro e s hs
      by_cases h : localDOF > 5
      · simp only [NodeOp.apply, node.addLoad, dif_pos h, Outcome.thrown.injEq] at hs
        rw [← hs.2]
        exact hn
      · simp [NodeOp.apply, node.addLoad, h] at hs
  | addDisplacements displacements =>
    constructor
    · intro s hs
      simp only [NodeOp.apply, node.addDisplacements] at hs
      cases hfold : displacements.foldlM node.addDisplacements.outer
          { n with mDisplacements := StdMap.empty } with
      | none => simp [hfold] at hs
      | some s' =>
        simp only [hfold, Outcome.ok.injEq] at hs
        subst hs
        obtain ⟨h1, h2, h3, _⟩ := addDisplacements_outer_frame displacements _ _ hfold
        intro k
        unfold node.free
        rw [h1, h2, h3]
        exact hn k
    · intro e s hs
      simp only [NodeOp.apply, node.addDisplacements] at hs
      cases hfold : displacements.foldlM node.addDisplacements.outer
          { n with mDisplacements := StdMap.empty } with
      | none => simp [hfold] at hs
      | some s' => simp [hfold] at hs
  | clearDisplacements =>
    constructor
    · intro s hs
      simp only [NodeOp.apply, Outcome.ok.injEq] at hs
      subst hs
      exact hn
    · intro e s hs
      simp [NodeOp.apply] at hs
  | generateNFT NFM =>
    constructor
    · intro s hs
      simp only [NodeOp.apply, Outcome.ok.injEq] at hs
      subst hs
      exact generateNFT_numberingMatchesFlags n NFM (fun k hk => (hn k).1 hk)
    · intro e s hs
      simp [NodeOp.apply] at hs

/-- A run of operations other than `updateNFS` and `addConstraint` keeps the
property that the numbering map matches the flags. -/
theorem run_keeps_numberingMatchesFlags [Zero K] [Add K] (ops : List (NodeOp K)) :
    ∀ n n' : node K, (∀ op ∈ ops, op.keepsFlags = true) → n.numberingMatchesFlags →
    node.run n ops = some n' → n'.numberingMatchesFlags := by
  induction ops with
  | nil =>
    intro n n' _ hn hrun
    simp only [node.run, Option.some.injEq] at hrun
    subst hrun
    exact hn
  | cons op ops ih =>
    intro n n' hops hn hrun
    obtain ⟨hok, hthrown⟩ :=
      op.keeps_numberingMatchesFlags n (hops op (List.mem_cons_self _ _)) hn
    have hrest : ∀ op' ∈ ops, op'.keepsFlags = true :=
      fun op' h => hops op' (List.mem_cons_of_mem _ h)
    rw [node.run] at hrun
    cases hap : op.apply n with
    | ok s =>
      rw [hap] at hrun
      exact ih s n' hrest (hok s hap) hrun
    | thrown e s =>
      rw [hap] at hrun
      exact ih s n' hrest (hthrown e s hap) hrun
    | undefined =>
      rw [hap] at hrun
      simp at hrun

/-! ### Main results: node -/

/-- C1 (counterexample). One numbering pass over the single unnumbered example
node (two active-and-unconstrained DOFs) from the counter value `2 ^ 64 - 1`:
local DOF 1 holds the index `0`, which lies outside the range
`2 ^ 64 - 1, 2 ^ 64`, and the counter ends at `1`, not at `2 ^ 64 - 1 + 2`. -/
theorem numberingPass_wraps_at_max :
    exampleNode.mNFT = StdMap.empty ∧ totalFree [exampleNode] = 2 ∧
    heldIndex (numberingPass [exampleNode] (2 ^ 64 - 1)).1 0 1 0 ∧
    ¬ (2 ^ 64 - 1 ≤ 0 ∧ 0 < 2 ^ 64 - 1 + totalFree [exampleNode]) ∧
    (numberingPass [exampleNode] (2 ^ 64 - 1)).2 = 1 ∧
    (numberingPass [exampleNode] (2 ^ 64 - 1)).2 ≠ 2 ^ 64 - 1 + totalFree [exampleNode] := by
  refine ⟨rfl, by decide, ?_, by decide, by decide, by decide⟩
  rw [heldIndex]
  exact ⟨_, rfl, by decide⟩

/-- C1 (amended). For every list of previously unnumbered nodes (a position of
the list is one node object) and every initial counter value `c` with
`c + k < 2^64`, `k` the total number of active-and-unconstrained DOFs, after
`generateNFT` has been called once on each node in list order with the shared
counter: the indices held by different (node, local DOF) pairs are different,
the indices held are exactly the numbers `c, ..., c + k - 1`, and the counter
ends at `c + k`. -/
theorem numberingPass_contiguous (ns : List (node K)) (c : Nat)
    (hns : ∀ n ∈ ns, n.mNFT = StdMap.empty) (hc : c + totalFree ns < ULONG_MODULUS) :
    (∀ p i p' i' g, heldIndex (numberingPass ns c).1 p i g →
      heldIndex (numberingPass ns c).1 p' i' g → p = p' ∧ i = i') ∧
    (∀ g, (∃ p i, heldIndex (numberingPass ns c).1 p i g) ↔ c ≤ g ∧ g < c + totalFree ns) ∧
    (numberingPass ns c).2 = c + totalFree ns := by
  obtain ⟨hA, hB, hC, hD⟩ := numberingPass_spec ns c hns hc
  refine ⟨hC, fun g => ⟨?_, fun h => hB g h.1 h.2⟩, hD⟩
  rintro ⟨p, i, h⟩
  exact hA p i g h

/-- C1 (witness): the amended statement for two copies of the example node
numbered from 10. -/
theorem numberingPass_contiguous_witness :
    (∀ n ∈ [exampleNode, exampleNode], n.mNFT = StdMap.empty) ∧
    10 + totalFree [exampleNode, exampleNode] < ULONG_MODULUS ∧
    (numberingPass [exampleNode, exampleNode] 10).2
      = 10 + totalFree [exampleNode, exampleNode] :=
  ⟨by simp [exampleNode], by decide,
    (numberingPass_contiguous [exampleNode, exampleNode] 10 (by simp [exampleNode])
      (by decide)).2.2⟩

/-- C2 (counterexample). The example node is unnumbered and its local DOF 1 is
active and unconstrained with one such DOF before it; called with the counter
at `2 ^ 64 - 1`, `generateNFT` gives DOF 1 the index `0`, not `2 ^ 64 - 1 + 1`,
and leaves the counter at `1`, not at `2 ^ 64 - 1 + 2`. -/
theorem generateNFT_wraps_at_max :
    exampleNode.mNFT = StdMap.empty ∧ exampleNode.free 1 ∧
    exampleNode.freeBefore 1 = 1 ∧ exampleNode.freeCount = 2 ∧
    (exampleNode.generateNFT (2 ^ 64 - 1)).1.mNFT.find 1 = some 0 ∧
    (exampleNode.generateNFT (2 ^ 64 - 1)).1.mNFT.find 1
      ≠ some (2 ^ 64 - 1 + exampleNode.freeBefore 1) ∧
    (exampleNode.generateNFT (2 ^ 64 - 1)).2 = 1 ∧
    (exampleNode.generateNFT (2 ^ 64 - 1)).2 ≠ 2 ^ 64 - 1 + exampleNode.freeCount := by
  refine ⟨rfl, by decide, by decide, by decide, by decide, by decide, by decide, by decide⟩

/-- C2 (amended). For a previously unnumbered node and a counter value `c`
(an `unsigned long`), `generateNFT` gives each active-and-unconstrained local
DOF `i` the index `(c + number of active-and-unconstrained DOFs j < i) mod 2^64`,
gives no index to any other key, and leaves the counter at
`(c + number of active-and-unconstrained DOFs) mod 2^64`. When
`c + number of active-and-unconstrained DOFs < 2^64` the counter does not wrap
and these are `c + (number of such j < i)` and `c + (number of such DOFs)`. -/
theorem generateNFT_assigns_in_order (n : node K) (c : Nat) (hn : n.mNFT = StdMap.empty)
    (hc : c < ULONG_MODULUS) :
    (∀ i : Fin 6, n.free i →
      (n.generateNFT c).1.mNFT.find i.val = some ((c + n.freeBefore i.val) % ULONG_MODULUS)) ∧
    (∀ k : Nat, (¬ ∃ i : Fin 6, i.val = k ∧ n.free i) →
      (n.generateNFT c).1.mNFT.find k = none) ∧
    (n.generateNFT c).2 = (c + n.freeCount) % ULONG_MODULUS ∧
    (c + n.freeCount < ULONG_MODULUS →
      (∀ i : Fin 6, n.free i →
        (n.generateNFT c).1.mNFT.find i.val = some (c + n.freeBefore i.val)) ∧
      (n.generateNFT c).2 = c + n.freeCount) := by
  refine ⟨fun i hi => generateNFT_find_free n c hc i hi, ?_, generateNFT_snd n c hc, ?_⟩
  · intro k hk
    rw [generateNFT_find_other n c hc k hk, hn]
    rfl
  · intro hlt
    constructor
    · intro i hi
      rw [generateNFT_find_free n c hc i hi]
      have := n.freeBefore_lt_freeCount i hi
      rw [Nat.mod_eq_of_lt (by omega)]
    · rw [generateNFT_snd n c hc, Nat.mod_eq_of_lt hlt]

/-- C2 (witness): the amended statement at the example node and counter 0. -/
theorem generateNFT_assigns_in_order_witness :
    exampleNode.mNFT = StdMap.empty ∧ 0 < ULONG_MODULUS ∧
    (exampleNode.generateNFT 0).2 = (0 + exampleNode.freeCount) % ULONG_MODULUS :=
  ⟨rfl, by decide, (generateNFT_assigns_in_order exampleNode 0 rfl (by decide)).2.2.1⟩

/-- C3. For every node state and every supplied map (its keys are distinct) in
which each vector has as many entries as the node has active-and-unconstrained
DOFs, `addDisplacements` returns without reading past the end of a supplied
vector and changes the displacement store only; afterwards exactly the load
cases of the supplied map are present, and the 6-vector stored for each of
them has at an active-and-unconstrained local DOF `i` the supplied scalar of
index (number of active-and-unconstrained DOFs below `i`) and 0 at every other
local DOF. -/
theorem addDisplacements_spec [Zero K] (n : node K) (ds : List (load_case × List K))
    (hkeys : (ds.map Prod.fst).Nodup) (hlen : ∀ e ∈ ds, e.2.length = n.freeCount) :
    ∃ n' : node K, n.addDisplacements ds = .ok n' ∧
      n' = { n with mDisplacements := n'.mDisplacements } ∧
      (∀ lc, (n'.mDisplacements.find lc).isSome = true ↔ lc ∈ ds.map Prod.fst) ∧
      (∀ e ∈ ds, ∃ d : Fin 6 → K, n'.mDisplacements.find e.1 = some d ∧
        ∀ i : Fin 6, (n.free i → e.2[n.freeBefore i.val]? = some (d i)) ∧
          (¬ n.free i → d i = 0)) := by
  have hloop := addDisplacements_outer_loop ds { n with mDisplacements := StdMap.empty } hkeys
    (fun e he => le_of_eq (hlen e he).symm)
  refine ⟨{ n with mDisplacements := fun lc =>
      match ds.find? (fun e => decide (e.1 = lc)) with
      | some e => some (fun j => if n.free j then (e.2[n.freeBefore j.val]?).getD 0 else 0)
      | none => none }, ?_, rfl, ?_, ?_⟩
  · unfold node.addDisplacements
    rw [hloop]
    rfl
  · intro lc
    simp only [StdMap.find]
    cases hfind : ds.find? (fun e => decide (e.1 = lc)) with
    | none =>
      have hno : lc ∉ ds.map Prod.fst := by
        rintro hmem
        obtain ⟨e, he, rfl⟩ := List.mem_map.1 hmem
        have := List.find?_eq_none.1 hfind e he
        simp at this
      simp [StdMap.empty, hno]
    | some e =>
      have h1 : e.1 = lc := by simpa using List.find?_some hfind
      have h2 : e ∈ ds := List.mem_of_find?_eq_some hfind
      have : lc ∈ ds.map Prod.fst := h1 ▸ List.mem_map_of_mem Prod.fst h2
      simp [this]
  · intro e he
    simp only [StdMap.find]
    cases hfind : ds.find? (fun e' => decide (e'.1 = e.1)) with
    | none =>
      have := List.find?_eq_none.1 hfind e he
      simp at this
    | some e' =>
      have h1 : e'.1 = e.1 := by simpa using List.find?_some hfind
      have h2 : e' ∈ ds := List.mem_of_find?_eq_some hfind
      have heq : e' = e := List.inj_on_of_nodup_map hkeys h2 he h1
      subst heq
      refine ⟨_, rfl, fun i => ⟨fun hi => ?_, fun hi => ?_⟩⟩
      · have hlt : n.freeBefore i.val < e'.2.length := by
          rw [hlen e' he]
          exact n.freeBefore_lt_freeCount i hi
        simp only [hi, if_true, List.getElem?_eq_getElem hlt, Option.getD_some]
      · simp only [hi, if_false]

/-- C3 (witness): the example node (two active-and-unconstrained DOFs) and one
load case with the vector `(3, 4)`. -/
theorem addDisplacements_spec_witness :
    (([((7 : load_case), [(3 : ℚ), 4])] : List (load_case × List ℚ)).map Prod.fst).Nodup ∧
    (∀ e ∈ ([((7 : load_case), [(3 : ℚ), 4])] : List (load_case × List ℚ)),
      e.2.length = exampleNode.freeCount) ∧
    ∃ n' : node ℚ, exampleNode.addDisplacements [((7 : load_case), [(3 : ℚ), 4])] = .ok n' ∧
      n' = { exampleNode with mDisplacements := n'.mDisplacements } ∧
      (∀ lc, (n'.mDisplacements.find lc).isSome = true ↔
        lc ∈ ([((7 : load_case), [(3 : ℚ), 4])] : List (load_case × List ℚ)).map Prod.fst) ∧
      (∀ e ∈ ([((7 : load_case), [(3 : ℚ), 4])] : List (load_case × List ℚ)),
        ∃ d : Fin 6 → ℚ, n'.mDisplacements.find e.1 = some d ∧
        ∀ i : Fin 6, (exampleNode.free i → e.2[exampleNode.freeBefore i.val]? = some (d i)) ∧
          (¬ exampleNode.free i → d i = 0)) :=
  have hk : (([((7 : load_case), [(3 : ℚ), 4])] : List (load_case × List ℚ)).map
      Prod.fst).Nodup := by decide
  have hl : ∀ e ∈ ([((7 : load_case), [(3 : ℚ), 4])] : List (load_case × List ℚ)),
      e.2.length = exampleNode.freeCount := by
    intro e he
    rw [List.mem_singleton] at he
    subst he
    decide
  ⟨hk, hl, addDisplacements_spec exampleNode _ hk hl⟩

/-- C4. `getGlobalDOF` is a `const` member function: it is a function of the
node state that returns a result and no state. It fails with `InvalidDOF` when
`localDOF > 5`; it fails with `DOFNotAssigned` when `localDOF <= 5` and the
freedom flag is 0, or the constraint flag is 1, or the numbering map has no
entry; and in every other case with `localDOF <= 5` it returns the index
stored for the DOF. -/
theorem getGlobalDOF_spec (n : node K) (localDOF : Nat) :
    (5 < localDOF → n.getGlobalDOF localDOF = .error .InvalidDOF) ∧
    (∀ h : localDOF ≤ 5,
      (n.mNFS ⟨localDOF, Nat.lt_succ_of_le h⟩ = 0 ∨
        n.mConstraints ⟨localDOF, Nat.lt_succ_of_le h⟩ = 1 ∨
        n.mNFT.find localDOF = none) →
      n.getGlobalDOF localDOF = .error .DOFNotAssigned) ∧
    (∀ h : localDOF ≤ 5, ∀ g : Nat,
      n.mNFS ⟨localDOF, Nat.lt_succ_of_le h⟩ ≠ 0 →
      n.mConstraints ⟨localDOF, Nat.lt_succ_of_le h⟩ ≠ 1 →
      n.mNFT.find localDOF = some g →
      n.getGlobalDOF localDOF = .ok g) := by
  refine ⟨?_, ?_, ?_⟩
  · intro h
    simp [node.getGlobalDOF, h]
  · intro h hcase
    have h5 : ¬ localDOF > 5 := by omega
    unfold node.getGlobalDOF
    rw [dif_neg h5]
    by_cases hflags : n.mNFS ⟨localDOF, Nat.lt_succ_of_le h⟩ = 0 ∨
        n.mConstraints ⟨localDOF, Nat.lt_succ_of_le h⟩ = 1
    · rw [if_pos hflags]
    · rw [if_neg hflags]
      rcases hcase with h0 | h1 | hnone
      · exact absurd (Or.inl h0) hflags
      · exact absurd (Or.inr h1) hflags
      · rw [hnone]
  · intro h g h0 h1 hg
    have h5 : ¬ localDOF > 5 := by omega
    have hflags : ¬ (n.mNFS ⟨localDOF, Nat.lt_succ_of_le h⟩ = 0 ∨
        n.mConstraints ⟨localDOF, Nat.lt_succ_of_le h⟩ = 1) := by
      rintro (h | h)
      · exact h0 h
      · exact h1 h
    unfold node.getGlobalDOF
    rw [dif_neg h5, if_neg hflags, hg]

/-- C5 (counterexample). The example node numbered from 0 holds index 0 for
local DOF 0; after a second `generateNFT` from 5 it holds index 5. -/
theorem generateNFT_second_call_renumbers :
    (exampleNode.generateNFT 0).1.mNFT.find 0 = some 0 ∧
    ((exampleNode.generateNFT 0).1.generateNFT 5).1.mNFT.find 0 = some 5 ∧
    ((exampleNode.generateNFT 0).1.generateNFT 5).1.mNFT.find 0
      ≠ (exampleNode.generateNFT 0).1.mNFT.find 0 := by
  refine ⟨by decide, by decide, by decide⟩

/-- C5 (amended). When `generateNFT` is called on a node with `c1` and then
again with `c2`, every active-and-unconstrained local DOF `i` (the DOFs that
receive an index in the first call) is numbered anew by the second call: it
holds `(c1 + r) mod 2^64` after the first call and `(c2 + r) mod 2^64` after
the second, `r` the number of active-and-unconstrained DOFs below `i`; the
index is the same after both calls if and only if `c1 = c2`. -/
theorem generateNFT_twice (n : node K) (c1 c2 : Nat) (h1 : c1 < ULONG_MODULUS)
    (h2 : c2 < ULONG_MODULUS) (i : Fin 6) (hi : n.free i) :
    (n.generateNFT c1).1.mNFT.find i.val = some ((c1 + n.freeBefore i.val) % ULONG_MODULUS) ∧
    ((n.generateNFT c1).1.generateNFT c2).1.mNFT.find i.val
      = some ((c2 + n.freeBefore i.val) % ULONG_MODULUS) ∧
    (((n.generateNFT c1).1.generateNFT c2).1.mNFT.find i.val
      = (n.generateNFT c1).1.mNFT.find i.val ↔ c1 = c2) := by
  have hfirst := generateNFT_find_free n c1 h1 i hi
  have hsecond : ((n.generateNFT c1).1.generateNFT c2).1.mNFT.find i.val
      = some ((c2 + n.freeBefore i.val) % ULONG_MODULUS) := by
    rw [generateNFT_find_free _ c2 h2 i ((generateNFT_free n c1 h1 i).2 hi),
      generateNFT_freeBefore n c1 h1]
  refine ⟨hfirst, hsecond, ?_⟩
  rw [hfirst, hsecond]
  constructor
  · intro h
    have hmod : c2 + n.freeBefore i.val ≡ c1 + n.freeBefore i.val [MOD ULONG_MODULUS] :=
      Option.some.inj h
    exact ((Nat.ModEq.add_right_cancel' _ hmod).eq_of_lt_of_lt h2 h1).symm
  · rintro rfl
    rfl

/-- C5 (witness): the amended statement at the example node, counters 0 and 5,
local DOF 0. -/
theorem generateNFT_twice_witness :
    (0 : Nat) < ULONG_MODULUS ∧ (5 : Nat) < ULONG_MODULUS ∧ exampleNode.free 0 ∧
    (((exampleNode.generateNFT 0).1.generateNFT 5).1.mNFT.find (0 : Fin 6).val
      = (exampleNode.generateNFT 0).1.mNFT.find (0 : Fin 6).val ↔ 0 = 5) :=
  ⟨by decide, by decide, by decide,
    (generateNFT_twice exampleNode 0 5 (by decide) (by decide) 0 (by decide)).2.2⟩

/-- C6 (counterexample). The example node is numbered from 0. After
`addConstraint(0)` the numbering map still has an entry for local DOF 0, which
is constrained; after `updateNFS` with all six flags set, local DOF 2 is active
and unconstrained and the numbering map has no entry for it. -/
theorem numbering_map_not_kept_in_step_with_flags :
    (∃ n' : node ℚ, node.run (exampleNode.generateNFT 0).1 [NodeOp.addConstraint 0] = some n' ∧
      (n'.mNFT.find 0).isSome = true ∧ ¬ n'.free 0) ∧
    (∃ n' : node ℚ,
      node.run (exampleNode.generateNFT 0).1 [NodeOp.updateNFS (fun _ => 1)] = some n' ∧
      n'.free 2 ∧ (n'.mNFT.find 2).isSome = false) :=
  ⟨⟨_, rfl, by decide, by decide⟩, ⟨_, rfl, by decide, by decide⟩⟩

/-- C6 (amended). From the moment `generateNFT` has run on a previously
unnumbered node, in every state reached by any further sequence of `addLoad`,
`addDisplacements`, `clearDisplacements` and `generateNFT` (the operations that
leave the freedom signature and the constraints alone), returning or throwing,
the numbering map has an entry for key `k` if and only if `k` is a local DOF
that is active and unconstrained. -/
theorem numbering_matches_flags_while_flags_kept [Zero K] [Add K] (n : node K) (c : Nat)
    (hn : n.mNFT = StdMap.empty) (ops : List (NodeOp K))
    (hops : ∀ op ∈ ops, op.keepsFlags = true) (n' : node K)
    (hrun : node.run (n.generateNFT c).1 ops = some n') :
    ∀ k : Nat, (n'.mNFT.find k).isSome = true ↔ ∃ i : Fin 6, i.val = k ∧ n'.free i := by
  have h0 : (n.generateNFT c).1.numberingMatchesFlags :=
    generateNFT_numberingMatchesFlags n c (fun k hk => by
      rw [hn] at hk
      simp [StdMap.find, StdMap.empty] at hk)
  exact run_keeps_numberingMatchesFlags ops _ n' hops h0 hrun

/-- C6 (witness): the example node numbered from 0, then a load, a second
numbering from 4 and a clearing of the displacements. -/
theorem numbering_matches_flags_while_flags_kept_witness :
    exampleNode.mNFT = StdMap.empty ∧
    (∀ op ∈ [NodeOp.addLoad 7 0 (1 : ℚ), NodeOp.generateNFT 4, NodeOp.clearDisplacements],
      op.keepsFlags = true) ∧
    ∃ n' : node ℚ,
      node.run (exampleNode.generateNFT 0).1
        [NodeOp.addLoad 7 0 (1 : ℚ), NodeOp.generateNFT 4, NodeOp.clearDisplacements]
        = some n' ∧
      ∀ k : Nat, (n'.mNFT.find k).isSome = true ↔ ∃ i : Fin 6, i.val = k ∧ n'.free i :=
  have hops : ∀ op ∈ [NodeOp.addLoad 7 0 (1 : ℚ), NodeOp.generateNFT 4,
      NodeOp.clearDisplacements], op.keepsFlags = true := by
    intro op hop
    simp only [List.mem_cons, List.mem_singleton, List.not_mem_nil, or_false] at hop
    rcases hop with rfl | rfl | rfl <;> rfl
  ⟨rfl, hops, _, rfl,
    numbering_matches_flags_while_flags_kept exampleNode 0 rfl _ hops _ rfl⟩

end NodeTheorems

/-! ## Theorems: flat shell element -/

section FlatShellTheorems

open Matrix

variable {K : Type} [Field K]

/-! ### Symmetry -/

theorem ETermNormal_transpose (mE mPoisson : K) :
    (ETermNormal mE mPoisson)ᵀ = ETermNormal mE mPoisson := by
  unfold ETermNormal
  rw [Matrix.transpose_smul]
  congr 1
  ext i j
  fin_cases i <;> fin_cases j <;> rfl

theorem ETermShear_transpose (mE mPoisson : K) :
    (ETermShear mE mPoisson)ᵀ = ETermShear mE mPoisson := by
  unfold ETermShear
  rw [Matrix.transpose_smul]
  congr 1
  ext i j
  fin_cases i <;> fin_cases j <;> rfl

theorem ETermBending_transpose (mE mPoisson mThickness : K) :
    (ETermBending mE mPoisson mThickness)ᵀ = ETermBending mE mPoisson mThickness := by
  unfold ETermBending
  rw [Matrix.transpose_smul]
  congr 1
  ext i j
  fin_cases i <;> fin_cases j <;> rfl

/-- A congruence `Bᵀ * E * B` with symmetric `E` is symmetric. -/
theorem congruence_transpose {m n : Type} [Fintype m] [Fintype n]
    (B : Matrix m n K) (E : Matrix m m K) (hE : Eᵀ = E) :
    (Bᵀ * E * B)ᵀ = Bᵀ * E * B := by
  rw [Matrix.transpose_mul, Matrix.transpose_mul, Matrix.transpose_transpose, hE,
    Matrix.mul_assoc]

/-- A sum accumulated over a list of symmetric terms, from a symmetric start,
is symmetric. -/
theorem foldl_add_transpose {n α : Type} (f : α → Matrix n n K) (l : List α) :
    ∀ z : Matrix n n K, zᵀ = z → (∀ p ∈ l, (f p)ᵀ = f p) →
    (l.foldl (fun k p => k + f p) z)ᵀ = l.foldl (fun k p => k + f p) z := by
  induction l with
  | nil =>
    intro z hz _
    exact hz
  | cons a l ih =>
    intro z hz hf
    rw [List.foldl_cons]
    apply ih
    · rw [Matrix.transpose_add, hz, hf a (List.mem_cons_self _ _)]
    · intro p hp
      exact hf p (List.mem_cons_of_mem _ hp)

theorem kNormal_transpose (loc : Matrix (Fin 4) (Fin 3) K) (mE mPoisson mThickness s : K) :
    (kNormal loc mE mPoisson mThickness s)ᵀ = kNormal loc mE mPoisson mThickness s := by
  unfold kNormal
  apply foldl_add_transpose
  · exact Matrix.transpose_zero
  · intro p _
    simp only [kNormalTerm, Matrix.transpose_smul,
      congruence_transpose _ _ (ETermNormal_transpose mE mPoisson)]

theorem kShear_transpose (loc : Matrix (Fin 4) (Fin 3) K) (mE mPoisson mThickness s : K) :
    (kShear loc mE mPoisson mThickness s)ᵀ = kShear loc mE mPoisson mThickness s := by
  unfold kShear
  apply foldl_add_transpose
  · exact Matrix.transpose_zero
  · intro p _
    simp only [kShearTerm, Matrix.transpose_smul,
      congruence_transpose _ _ (ETermShear_transpose mE mPoisson)]

theorem kBending_transpose (loc : Matrix (Fin 4) (Fin 3) K) (mE mPoisson mThickness s : K) :
    (kBending loc mE mPoisson mThickness s)ᵀ = kBending loc mE mPoisson mThickness s := by
  unfold kBending
  apply foldl_add_transpose
  · exact Matrix.transpose_zero
  · intro p _
    simp only [kBendingTerm, Matrix.transpose_smul,
      congruence_transpose _ _ (ETermBending_transpose mE mPoisson mThickness)]

theorem scatterMembrane_transpose (k : Matrix (Fin 8) (Fin 8) K) (hk : kᵀ = k) :
    (scatterMembrane k)ᵀ = scatterMembrane k := by
  ext r c
  simp only [scatterMembrane, Matrix.transpose_apply, Matrix.of_apply]
  by_cases h : r.val % 6 < 2 ∧ c.val % 6 < 2
  · rw [dif_pos h, dif_pos h.symm]
    conv_rhs => rw [← hk]
    rfl
  · rw [dif_neg h, dif_neg (fun h' => h h'.symm)]

theorem scatterBending_transpose (k : Matrix (Fin 12) (Fin 12) K) (hk : kᵀ = k) :
    (scatterBending k)ᵀ = scatterBending k := by
  ext r c
  simp only [scatterBending, Matrix.transpose_apply, Matrix.of_apply]
  by_cases h : (2 ≤ r.val % 6 ∧ r.val % 6 < 5) ∧ (2 ≤ c.val % 6 ∧ c.val % 6 < 5)
  · rw [dif_pos h, dif_pos h.symm]
    conv_rhs => rw [← hk]
    rfl
  · rw [dif_neg h, dif_neg (fun h' => h h'.symm)]

omit [Field K] in
theorem setEntry_diagonal_transpose (M : Matrix (Fin 24) (Fin 24) K) (hM : Mᵀ = M)
    (i : Fin 24) (v : K) : (setEntry M i i v)ᵀ = setEntry M i i v := by
  ext r c
  simp only [setEntry, Matrix.transpose_apply, Matrix.of_apply]
  by_cases h : r = i ∧ c = i
  · rw [if_pos h, if_pos h.symm]
  · rw [if_neg h, if_neg (fun h' => h h'.symm)]
    exact congrFun (congrFun hM r) c

theorem addDrilling_transpose (M : Matrix (Fin 24) (Fin 24) K) (hM : Mᵀ = M) :
    (addDrilling M)ᵀ = addDrilling M := by
  unfold addDrilling
  exact setEntry_diagonal_transpose _ (setEntry_diagonal_transpose _
    (setEntry_diagonal_transpose _ (setEntry_diagonal_transpose _ hM _ _) _ _) _ _) _ _

/-- C7. For all local axes, vertices, `E`, Poisson ratio, thickness and value
of the integration abscissa, the global combined stiffness matrix produced by
`deriveStiffnessMatrix` equals its own transpose in exact arithmetic, and so do
the global bending, normal and shear matrices. -/
theorem deriveStiffnessMatrix_symmetric (vx vy vz : Fin 3 → K)
    (mVertices : Fin 4 → Fin 3 → K) (mE mPoisson mThickness s : K) :
    (deriveStiffnessMatrix vx vy vz mVertices mE mPoisson mThickness s).mSMᵀ
      = (deriveStiffnessMatrix vx vy vz mVertices mE mPoisson mThickness s).mSM ∧
    (deriveStiffnessMatrix vx vy vz mVertices mE mPoisson mThickness s).mSMBendingᵀ
      = (deriveStiffnessMatrix vx vy vz mVertices mE mPoisson mThickness s).mSMBending ∧
    (deriveStiffnessMatrix vx vy vz mVertices mE mPoisson mThickness s).mSMNormalᵀ
      = (deriveStiffnessMatrix vx vy vz mVertices mE mPoisson mThickness s).mSMNormal ∧
    (deriveStiffnessMatrix vx vy vz mVertices mE mPoisson mThickness s).mSMShearᵀ
      = (deriveStiffnessMatrix vx vy vz mVertices mE mPoisson mThickness s).mSMShear := by
  have hN := scatterMembrane_transpose _
    (kNormal_transpose (localCoordinates (lambdaMatrix vx vy vz) mVertices)
      mE mPoisson mThickness s)
  have hS := scatterMembrane_transpose _
    (kShear_transpose (localCoordinates (lambdaMatrix vx vy vz) mVertices)
      mE mPoisson mThickness s)
  have hB := scatterBending_transpose _
    (kBending_transpose (localCoordinates (lambdaMatrix vx vy vz) mVertices)
      mE mPoisson mThickness s)
  refine ⟨?_, ?_, ?_, ?_⟩
  · apply congruence_transpose
    apply addDrilling_transpose
    rw [Matrix.transpose_add, Matrix.transpose_add, hN, hS, hB]
  · exact congruence_transpose _ _ hB
  · exact congruence_transpose _ _ hN
  · exact congruence_transpose _ _ hS

/-! ### Rigid translations -/

theorem sum_eq_sum_comp_of_injective {α β : Type} [Fintype α] [Fintype β] [DecidableEq β]
    (g : α → β) (hg : Function.Injective g) (f : β → K)
    (h0 : ∀ b, (∀ a, g a ≠ b) → f b = 0) : ∑ b, f b = ∑ a, f (g a) := by
  rw [← Finset.sum_image (s := Finset.univ) (g := g) (fun x _ y _ h => hg h)]
  symm
  apply Finset.sum_subset (Finset.subset_univ _)
  intro b _ hb
  apply h0
  intro a ha
  exact hb (Finset.mem_image.2 ⟨a, Finset.mem_univ _, ha⟩)

theorem scatterMembrane_mulVec (k : Matrix (Fin 8) (Fin 8) K) (w : Fin 24 → K) (r : Fin 24) :
    (scatterMembrane k *ᵥ w) r =
      if h : r.val % 6 < 2 then (k *ᵥ gatherMembrane w) ⟨2 * (r.val / 6) + r.val % 6, by omega⟩
      else 0 := by
  by_cases h : r.val % 6 < 2
  · rw [dif_pos h]
    simp only [Matrix.mulVec, Matrix.dotProduct]
    rw [sum_eq_sum_comp_of_injective
      (fun a : Fin 8 => (⟨6 * (a.val / 2) + a.val % 2, by omega⟩ : Fin 24))]
    · apply Finset.sum_congr rfl
      intro a _
      have ha : (6 * (a.val / 2) + a.val % 2) % 6 < 2 := by omega
      simp only [scatterMembrane, Matrix.of_apply, gatherMembrane]
      rw [dif_pos ⟨h, ha⟩]
      congr 2
      apply Fin.ext
      show 2 * ((6 * (a.val / 2) + a.val % 2) / 6) + (6 * (a.val / 2) + a.val % 2) % 6 = a.val
      omega
    · intro a b hab
      have := congrArg Fin.val hab
      simp only at this
      apply Fin.ext
      omega
    · intro c hc
      have hcn : ¬ c.val % 6 < 2 := by
        intro hlt
        apply hc ⟨2 * (c.val / 6) + c.val % 6, by omega⟩
        apply Fin.ext
        show 6 * ((2 * (c.val / 6) + c.val % 6) / 2) + (2 * (c.val / 6) + c.val % 6) % 2 = c.val
        omega
      simp only [scatterMembrane, Matrix.of_apply]
      rw [dif_neg (fun hh => hcn hh.2), zero_mul]
  · rw [dif_neg h]
    simp only [Matrix.mulVec, Matrix.dotProduct]
    apply Finset.sum_eq_zero
    intro c _
    simp only [scatterMembrane, Matrix.of_apply]
    rw [dif_neg (fun hh => h hh.1), zero_mul]

theorem scatterBending_mulVec (k : Matrix (Fin 12) (Fin 12) K) (w : Fin 24 → K) (r : Fin 24) :
    (scatterBending k *ᵥ w) r =
      if h : 2 ≤ r.val % 6 ∧ r.val % 6 < 5 then
        (k *ᵥ gatherBending w) ⟨3 * (r.val / 6) + (r.val % 6 - 2), by omega⟩
      else 0 := by
  by_cases h : 2 ≤ r.val % 6 ∧ r.val % 6 < 5
  · rw [dif_pos h]
    simp only [Matrix.mulVec, Matrix.dotProduct]
    rw [sum_eq_sum_comp_of_injective
      (fun a : Fin 12 => (⟨6 * (a.val / 3) + 2 + a.val % 3, by omega⟩ : Fin 24))]
    · apply Finset.sum_congr rfl
      intro a _
      have ha : 2 ≤ (6 * (a.val / 3) + 2 + a.val % 3) % 6 ∧
          (6 * (a.val / 3) + 2 + a.val % 3) % 6 < 5 := by omega
      simp only [scatterBending, Matrix.of_apply, gatherBending]
      rw [dif_pos ⟨h, ha⟩]
      congr 2
      apply Fin.ext
      show 3 * ((6 * (a.val / 3) + 2 + a.val % 3) / 6)
        + ((6 * (a.val / 3) + 2 + a.val % 3) % 6 - 2) = a.val
      omega
    · intro a b hab
      have := congrArg Fin.val hab
      simp only at this
      apply Fin.ext
      omega
    · intro c hc
      have hcn : ¬ (2 ≤ c.val % 6 ∧ c.val % 6 < 5) := by
        intro hlt
        apply hc ⟨3 * (c.val / 6) + (c.val % 6 - 2), by omega⟩
        apply Fin.ext
        show 6 * ((3 * (c.val / 6) + (c.val % 6 - 2)) / 3) + 2
          + (3 * (c.val / 6) + (c.val % 6 - 2)) % 3 = c.val
        omega
      simp only [scatterBending, Matrix.of_apply]
      rw [dif_neg (fun hh => hcn hh.2), zero_mul]
  · rw [dif_neg h]
    simp only [Matrix.mulVec, Matrix.dotProduct]
    apply Finset.sum_eq_zero
    intro c _
    simp only [scatterBending, Matrix.of_apply]
    rw [dif_neg (fun hh => h hh.1), zero_mul]

theorem translationVector_rotational (u : Fin 3 → K) (r : Fin 24) (h : ¬ r.val % 6 < 3) :
    translationVector u r = 0 := by
  simp only [translationVector, dif_neg h]

theorem transformationMatrix_mulVec_translation (lambda : Matrix (Fin 3) (Fin 3) K)
    (u : Fin 3 → K) :
    transformationMatrix lambda *ᵥ translationVector u = translationVector (lambdaᵀ *ᵥ u) := by
  funext r
  simp only [Matrix.mulVec, Matrix.dotProduct]
  rw [sum_eq_sum_comp_of_injective
    (fun j : Fin 3 => (⟨3 * (r.val / 3) + j.val, by omega⟩ : Fin 24))]
  · by_cases h : r.val % 6 < 3
    · have hr : translationVector (lambdaᵀ *ᵥ u) r
          = ∑ j, lambdaᵀ ⟨r.val % 6, h⟩ j * u j := by
        simp only [translationVector, dif_pos h, Matrix.mulVec, Matrix.dotProduct]
      rw [hr]
      apply Finset.sum_congr rfl
      intro j _
      have hj : (3 * (r.val / 3) + j.val) % 6 < 3 := by omega
      have hdiv : r.val / 3 = (3 * (r.val / 3) + j.val) / 3 := by omega
      simp only [transformationMatrix, Matrix.of_apply, translationVector, dif_pos hj]
      rw [if_pos hdiv]
      have e1 : (⟨r.val % 3, Nat.mod_lt _ (by decide)⟩ : Fin 3) = ⟨r.val % 6, h⟩ :=
        Fin.ext (by
          show r.val % 3 = r.val % 6
          omega)
      have e2 : (⟨(3 * (r.val / 3) + j.val) % 3, Nat.mod_lt _ (by decide)⟩ : Fin 3) = j :=
        Fin.ext (by
          show (3 * (r.val / 3) + j.val) % 3 = j.val
          omega)
      have e3 : (⟨(3 * (r.val / 3) + j.val) % 6, hj⟩ : Fin 3) = j :=
        Fin.ext (by
          show (3 * (r.val / 3) + j.val) % 6 = j.val
          omega)
      rw [e1, e2, e3]
    · rw [translationVector_rotational _ r h]
      apply Finset.sum_eq_zero
      intro j _
      have hj : ¬ (3 * (r.val / 3) + j.val) % 6 < 3 := by omega
      rw [translationVector_rotational _ _ hj, mul_zero]
  · intro a b hab
    have := congrArg Fin.val hab
    simp only at this
    apply Fin.ext
    omega
  · intro c hc
    have hne : ¬ r.val / 3 = c.val / 3 := by
      intro heq
      apply hc ⟨c.val % 3, Nat.mod_lt _ (by decide)⟩
      apply Fin.ext
      show 3 * (r.val / 3) + c.val % 3 = c.val
      omega
    simp only [transformationMatrix, Matrix.of_apply]
    rw [if_neg hne, zero_mul]

theorem setEntry_mulVec (M : Matrix (Fin 24) (Fin 24) K) (i j : Fin 24) (v : K)
    (w : Fin 24 → K) (hw : w j = 0) : setEntry M i j v *ᵥ w = M *ᵥ w := by
  funext r
  simp only [Matrix.mulVec, Matrix.dotProduct]
  apply Finset.sum_congr rfl
  intro c _
  by_cases hc : c = j
  · subst hc
    rw [hw, mul_zero, mul_zero]
  · simp only [setEntry, Matrix.of_apply]
    rw [if_neg (fun h => hc h.2)]

theorem addDrilling_mulVec_translation (M : Matrix (Fin 24) (Fin 24) K) (u : Fin 3 → K) :
    addDrilling M *ᵥ translationVector u = M *ᵥ translationVector u := by
  unfold addDrilling
  rw [setEntry_mulVec _ _ _ _ _ (translationVector_rotational u 23 (by decide)),
    setEntry_mulVec _ _ _ _ _ (translationVector_rotational u 17 (by decide)),
    setEntry_mulVec _ _ _ _ _ (translationVector_rotational u 11 (by decide)),
    setEntry_mulVec _ _ _ _ _ (translationVector_rotational u 5 (by decide))]

/-- The quadratic form of a congruence `Tᵀ * L * T`. -/
theorem quadraticForm_congruence (T L : Matrix (Fin 24) (Fin 24) K) (d : Fin 24 → K) :
    d ⬝ᵥ ((Tᵀ * L * T) *ᵥ d) = (T *ᵥ d) ⬝ᵥ (L *ᵥ (T *ᵥ d)) := by
  rw [← Matrix.mulVec_mulVec, ← Matrix.mulVec_mulVec, Matrix.dotProduct_mulVec,
    Matrix.vecMul_transpose]

theorem foldl_add_mulVec_eq_zero {m n α : Type} [Fintype n] (f : α → Matrix m n K)
    (v : n → K) (l : List α) :
    ∀ z : Matrix m n K, z *ᵥ v = 0 → (∀ p ∈ l, f p *ᵥ v = 0) →
    (l.foldl (fun k p => k + f p) z) *ᵥ v = 0 := by
  induction l with
  | nil =>
    intro z hz _
    exact hz
  | cons a l ih =>
    intro z hz hf
    rw [List.foldl_cons]
    apply ih
    · rw [Matrix.add_mulVec, hz, hf a (List.mem_cons_self _ _), add_zero]
    · intro p hp
      exact hf p (List.mem_cons_of_mem _ hp)

theorem gatherMembrane_translation (u : Fin 3 → K) :
    gatherMembrane (translationVector u) = ![u 0, u 1, u 0, u 1, u 0, u 1, u 0, u 1] := by
  funext a
  fin_cases a <;> rfl

theorem gatherBending_translation (u : Fin 3 → K) :
    gatherBending (translationVector u)
      = ![u 2, 0, 0, u 2, 0, 0, u 2, 0, 0, u 2, 0, 0] := by
  funext a
  fin_cases a <;> rfl

theorem membraneG_mulVec_translation (ksi eta : K) (u : Fin 3 → K) :
    membraneG ksi eta *ᵥ ![u 0, u 1, u 0, u 1, u 0, u 1, u 0, u 1] = 0 := by
  funext i
  fin_cases i <;>
  · simp [membraneG, Matrix.mulVec, Matrix.dotProduct, Fin.sum_univ_succ]
    ring

theorem membraneB_mulVec_translation (J : Matrix (Fin 2) (Fin 2) K) (ksi eta : K)
    (u : Fin 3 → K) :
    membraneB J ksi eta *ᵥ ![u 0, u 1, u 0, u 1, u 0, u 1, u 0, u 1] = 0 := by
  unfold membraneB
  rw [← Matrix.mulVec_mulVec, membraneG_mulVec_translation, Matrix.mulVec_zero]

/-- A term `c • (d • (Bᵀ * E * B))` annihilates every vector that `B`
annihilates. -/
theorem congruence_mulVec_eq_zero {m n : Type} [Fintype m] [Fintype n]
    (B : Matrix m n K) (E : Matrix m m K) (v : n → K) (hB : B *ᵥ v = 0) :
    (Bᵀ * E * B) *ᵥ v = 0 := by
  rw [← Matrix.mulVec_mulVec, hB, Matrix.mulVec_zero]

theorem kNormal_mulVec_translation (loc : Matrix (Fin 4) (Fin 3) K)
    (mE mPoisson mThickness s : K) (u : Fin 3 → K) :
    kNormal loc mE mPoisson mThickness s *ᵥ ![u 0, u 1, u 0, u 1, u 0, u 1, u 0, u 1] = 0 := by
  unfold kNormal
  apply foldl_add_mulVec_eq_zero
  · exact Matrix.zero_mulVec _
  · intro p _
    simp only [kNormalTerm, Matrix.smul_mulVec_assoc,
      congruence_mulVec_eq_zero _ _ _ (membraneB_mulVec_translation _ p.1 p.2 u), smul_zero]

theorem kShear_mulVec_translation (loc : Matrix (Fin 4) (Fin 3) K)
    (mE mPoisson mThickness s : K) (u : Fin 3 → K) :
    kShear loc mE mPoisson mThickness s *ᵥ ![u 0, u 1, u 0, u 1, u 0, u 1, u 0, u 1] = 0 := by
  unfold kShear
  apply foldl_add_mulVec_eq_zero
  · exact Matrix.zero_mulVec _
  · intro p _
    simp only [kShearTerm, Matrix.smul_mulVec_assoc,
      congruence_mulVec_eq_zero _ _ _ (membraneB_mulVec_translation _ p.1 p.2 u), smul_zero]

theorem vecMul_bendingHx_translation (loc : Matrix (Fin 4) (Fin 3) K) (ksi eta : K)
    (u : Fin 3 → K) :
    Matrix.vecMul ![u 2, 0, 0, u 2, 0, 0, u 2, 0, 0, u 2, 0, 0] (bendingHx loc ksi eta) = 0 := by
  funext c
  simp [bendingHx, midNodes, Matrix.vecMul, Matrix.dotProduct, Fin.sum_univ_succ]
  ring

theorem vecMul_bendingHy_translation (loc : Matrix (Fin 4) (Fin 3) K) (ksi eta : K)
    (u : Fin 3 → K) :
    Matrix.vecMul ![u 2, 0, 0, u 2, 0, 0, u 2, 0, 0, u 2, 0, 0] (bendingHy loc ksi eta) = 0 := by
  funext c
  simp [bendingHy, midNodes, Matrix.vecMul, Matrix.dotProduct, Fin.sum_univ_succ]
  ring

theorem mulVec_dotProduct_eq_zero {m n : Type} [Fintype m] [Fintype n] (H : Matrix m n K)
    (q : n → K) (v : m → K) (h : Matrix.vecMul v H = 0) : (H *ᵥ q) ⬝ᵥ v = 0 := by
  rw [Matrix.dotProduct_comm, Matrix.dotProduct_mulVec, h, Matrix.zero_dotProduct]

theorem bendingB_mulVec_translation (loc : Matrix (Fin 4) (Fin 3) K)
    (JInverse : Matrix (Fin 2) (Fin 2) K) (ksi eta : K) (u : Fin 3 → K) :
    bendingB loc JInverse ksi eta *ᵥ ![u 2, 0, 0, u 2, 0, 0, u 2, 0, 0, u 2, 0, 0] = 0 := by
  have hx := vecMul_bendingHx_translation loc ksi eta u
  have hy := vecMul_bendingHy_translation loc ksi eta u
  funext i
  fin_cases i
  · exact mulVec_dotProduct_eq_zero _ _ _ hx
  · exact mulVec_dotProduct_eq_zero _ _ _ hy
  · show (bendingHy loc ksi eta *ᵥ JInverse 0 + bendingHx loc ksi eta *ᵥ JInverse 1)
      ⬝ᵥ ![u 2, 0, 0, u 2, 0, 0, u 2, 0, 0, u 2, 0, 0] = 0
    rw [Matrix.add_dotProduct, mulVec_dotProduct_eq_zero _ _ _ hx,
      mulVec_dotProduct_eq_zero _ _ _ hy, add_zero]

theorem kBending_mulVec_translation (loc : Matrix (Fin 4) (Fin 3) K)
    (mE mPoisson mThickness s : K) (u : Fin 3 → K) :
    kBending loc mE mPoisson mThickness s
      *ᵥ ![u 2, 0, 0, u 2, 0, 0, u 2, 0, 0, u 2, 0, 0] = 0 := by
  unfold kBending
  apply foldl_add_mulVec_eq_zero
  · exact Matrix.zero_mulVec _
  · intro p _
    simp only [kBendingTerm, Matrix.smul_mulVec_assoc,
      congruence_mulVec_eq_zero _ _ _ (bendingB_mulVec_translation _ _ p.1 p.2 u), smul_zero]

theorem scatterMembrane_mulVec_translation (k : Matrix (Fin 8) (Fin 8) K) (u : Fin 3 → K)
    (hk : k *ᵥ ![u 0, u 1, u 0, u 1, u 0, u 1, u 0, u 1] = 0) :
    scatterMembrane k *ᵥ translationVector u = 0 := by
  funext r
  rw [scatterMembrane_mulVec, gatherMembrane_translation, hk]
  split <;> rfl

theorem scatterBending_mulVec_translation (k : Matrix (Fin 12) (Fin 12) K) (u : Fin 3 → K)
    (hk : k *ᵥ ![u 2, 0, 0, u 2, 0, 0, u 2, 0, 0, u 2, 0, 0] = 0) :
    scatterBending k *ᵥ translationVector u = 0 := by
  funext r
  rw [scatterBending_mulVec, gatherBending_translation, hk]
  split <;> rfl

/-- C8. For all local axes, vertices, `E`, Poisson ratio, thickness and value of
the integration abscissa, and every translation `u`, the 24-vector `d` that has
`u` in the three translational DOFs of each of the 4 nodes and 0 in every
rotational DOF gives `dᵀ * K * d = 0` in exact arithmetic for the global
combined stiffness matrix and for the global bending, normal and shear
matrices. -/
theorem deriveStiffnessMatrix_translation_energy (vx vy vz : Fin 3 → K)
    (mVertices : Fin 4 → Fin 3 → K) (mE mPoisson mThickness s : K) (u : Fin 3 → K) :
    translationVector u ⬝ᵥ
      ((deriveStiffnessMatrix vx vy vz mVertices mE mPoisson mThickness s).mSM
        *ᵥ translationVector u) = 0 ∧
    translationVector u ⬝ᵥ
      ((deriveStiffnessMatrix vx vy vz mVertices mE mPoisson mThickness s).mSMBending
        *ᵥ translationVector u) = 0 ∧
    translationVector u ⬝ᵥ
      ((deriveStiffnessMatrix vx vy vz mVertices mE mPoisson mThickness s).mSMNormal
        *ᵥ translationVector u) = 0 ∧
    translationVector u ⬝ᵥ
      ((deriveStiffnessMatrix vx vy vz mVertices mE mPoisson mThickness s).mSMShear
        *ᵥ translationVector u) = 0 := by
  have hN := scatterMembrane_mulVec_translation _ ((lambdaMatrix vx vy vz)ᵀ *ᵥ u)
    (kNormal_mulVec_translation (localCoordinates (lambdaMatrix vx vy vz) mVertices)
      mE mPoisson mThickness s _)
  have hS := scatterMembrane_mulVec_translation _ ((lambdaMatrix vx vy vz)ᵀ *ᵥ u)
    (kShear_mulVec_translation (localCoordinates (lambdaMatrix vx vy vz) mVertices)
      mE mPoisson mThickness s _)
  have hB := scatterBending_mulVec_translation _ ((lambdaMatrix vx vy vz)ᵀ *ᵥ u)
    (kBending_mulVec_translation (localCoordinates (lambdaMatrix vx vy vz) mVertices)
      mE mPoisson mThickness s _)
  simp only [deriveStiffnessMatrix, quadraticForm_congruence,
    transformationMatrix_mulVec_translation, addDrilling_mulVec_translation,
    Matrix.add_mulVec, hN, hS, hB, add_zero, Matrix.dotProduct_zero, and_self]

end FlatShellTheorems

/-! ## Theorems: response of the flat shell element -/

section ResponseTheorems

open Matrix

variable {K : Type}

theorem halfQuadraticForm_eq [Field K] (M : Matrix (Fin 24) (Fin 24) K) (d : Fin 24 → K) :
    halfQuadraticForm M d = (1 / 2) * (d ⬝ᵥ (M *ᵥ d)) := by
  unfold halfQuadraticForm
  rw [Matrix.vecMul_smul, Matrix.smul_dotProduct, Matrix.dotProduct_mulVec, smul_eq_mul]

theorem finRange_six : List.finRange 6 = [0, 1, 2, 3, 4, 5] := by decide

/-- The inner loop of `computeResponse` for a node that holds a displacement
vector, when six more entries fit into the buffer. -/
theorem computeResponse_innerLoop_ok (e : flat_shell K) (lc : load_case) (nd : node K)
    (d : Fin 6 → K) (b : Fin 24 → K) (pos : Nat) (hEFS : e.mEFS = flatShellEFS)
    (hd : nd.getDisplacements lc = .ok d) (hpos : pos + 6 ≤ 24) :
    flat_shell.computeResponse.innerLoop e lc nd (List.finRange 6) (b, pos) =
      .ok (fun r => if h : pos ≤ r.val ∧ r.val < pos + 6 then d ⟨r.val - pos, by omega⟩
        else b r, pos + 6) := by
  have h0 : pos < 24 := by omega
  have h1 : pos + 1 < 24 := by omega
  have h2 : pos + 1 + 1 < 24 := by omega
  have h3 : pos + 1 + 1 + 1 < 24 := by omega
  have h4 : pos + 1 + 1 + 1 + 1 < 24 := by omega
  have h5 : pos + 1 + 1 + 1 + 1 + 1 < 24 := by omega
  simp only [finRange_six, flat_shell.computeResponse.innerLoop, hEFS, flatShellEFS, hd,
    if_true, dif_pos h0, dif_pos h1, dif_pos h2, dif_pos h3, dif_pos h4, dif_pos h5]
  congr 2
  funext r
  simp only [Function.update_apply, Fin.ext_iff]
  by_cases hr : pos ≤ r.val ∧ r.val < pos + 6
  · rw [dif_pos hr]
    obtain ⟨k, hk, hrk⟩ : ∃ k, k < 6 ∧ r.val = pos + k := ⟨r.val - pos, by omega, by omega⟩
    have hfin : (⟨r.val - pos, by omega⟩ : Fin 6) = ⟨k, hk⟩ :=
      Fin.ext (by
        show r.val - pos = k
        omega)
    rw [hfin]
    interval_cases k <;> split_ifs <;> first | rfl | omega
  · rw [dif_neg hr]
    split_ifs <;> first | rfl | omega

/-- The inner loop of `computeResponse` for a node that holds no displacement
vector throws at the first local DOF. -/
theorem computeResponse_innerLoop_missing (e : flat_shell K) (lc : load_case) (nd : node K)
    (s : (Fin 24 → K) × Nat) (hEFS : e.mEFS = flatShellEFS)
    (hd : nd.mDisplacements.find lc = none) :
    flat_shell.computeResponse.innerLoop e lc nd (List.finRange 6) s
      = .thrown .MissingLoadCase s := by
  have hget : nd.getDisplacements lc = .error .MissingLoadCase := by
    simp only [node.getDisplacements, hd]
  simp only [finRange_six, flat_shell.computeResponse.innerLoop, hEFS, flatShellEFS, hget,
    if_true]

theorem node.getDisplacements_cases (nd : node K) (lc : load_case) :
    nd.mDisplacements.find lc = none ∨ ∃ d, nd.getDisplacements lc = .ok d := by
  unfold node.getDisplacements
  cases nd.mDisplacements.find lc with
  | none => exact Or.inl rfl
  | some d => exact Or.inr ⟨d, rfl⟩

/-- The outer loop of `computeResponse` throws `MissingLoadCase` when a node
holds no displacement vector and the nodes before it fit into the buffer. -/
theorem computeResponse_outerLoop_missing (e : flat_shell K) (lc : load_case)
    (hEFS : e.mEFS = flatShellEFS) (nds : List (node K)) :
    ∀ s : (Fin 24 → K) × Nat, s.2 + 6 * (nds.length - 1) ≤ 24 →
    (∃ nd ∈ nds, nd.mDisplacements.find lc = none) →
    ∃ s', flat_shell.computeResponse.outerLoop e lc nds s = .thrown .MissingLoadCase s' := by
  induction nds with
  | nil =>
    rintro s _ ⟨nd, hnd, _⟩
    simp at hnd
  | cons nd nds ih =>
    intro s hs hmiss
    rcases nd.getDisplacements_cases lc with hnone | ⟨d, hd⟩
    · refine ⟨s, ?_⟩
      simp only [flat_shell.computeResponse.outerLoop,
        computeResponse_innerLoop_missing e lc nd s hEFS hnone]
    · have hrest : ∃ nd' ∈ nds, nd'.mDisplacements.find lc = none := by
        obtain ⟨nd', hmem, hnone⟩ := hmiss
        rcases List.mem_cons.1 hmem with rfl | hmem
        · simp [node.getDisplacements, hnone] at hd
        · exact ⟨nd', hmem, hnone⟩
      have hlen : 0 < nds.length := by
        obtain ⟨nd', hmem, _⟩ := hrest
        exact List.length_pos_of_mem hmem
      simp only [List.length_cons, Nat.add_sub_cancel] at hs
      have hpos : s.2 + 6 ≤ 24 := by omega
      obtain ⟨s', hs'⟩ := ih (fun r => if h : s.2 ≤ r.val ∧ r.val < s.2 + 6 then
          d ⟨r.val - s.2, by omega⟩ else s.1 r, s.2 + 6) (by
          show s.2 + 6 + 6 * (nds.length - 1) ≤ 24
          omega) hrest
      refine ⟨s', ?_⟩
      have hin := computeResponse_innerLoop_ok e lc nd d s.1 s.2 hEFS hd hpos
      simp only [flat_shell.computeResponse.outerLoop, hin, hs']

/-- The outer loop of `computeResponse` over four nodes that hold displacement
vectors fills the buffer node by node. -/
theorem computeResponse_outerLoop_ok [Zero K] (e : flat_shell K) (lc : load_case)
    (nodes : Fin 4 → node K) (disp : Fin 4 → Fin 6 → K) (hEFS : e.mEFS = flatShellEFS)
    (hdisp : ∀ n, (nodes n).getDisplacements lc = .ok (disp n)) :
    ∃ B : Fin 24 → K,
      flat_shell.computeResponse.outerLoop e lc [nodes 0, nodes 1, nodes 2, nodes 3]
        ((fun _ => 0), 0) = .ok (B, 24) ∧
      ∀ (n : Fin 4) (j : Fin 6), B ⟨6 * n.val + j.val, by omega⟩ = disp n j := by
  have h0 := computeResponse_innerLoop_ok e lc (nodes 0) (disp 0) (fun _ => 0) 0 hEFS
    (hdisp 0) (by omega)
  have h1 := computeResponse_innerLoop_ok e lc (nodes 1) (disp 1)
    (fun r => if h : 0 ≤ r.val ∧ r.val < 0 + 6 then disp 0 ⟨r.val - 0, by omega⟩ else 0)
    (0 + 6) hEFS (hdisp 1) (by omega)
  have h2 := computeResponse_innerLoop_ok e lc (nodes 2) (disp 2)
    (fun r => if h : 0 + 6 ≤ r.val ∧ r.val < 0 + 6 + 6 then disp 1 ⟨r.val - (0 + 6), by omega⟩
      else if h : 0 ≤ r.val ∧ r.val < 0 + 6 then disp 0 ⟨r.val - 0, by omega⟩ else 0)
    (0 + 6 + 6) hEFS (hdisp 2) (by omega)
  have h3 := computeResponse_innerLoop_ok e lc (nodes 3) (disp 3)
    (fun r => if h : 0 + 6 + 6 ≤ r.val ∧ r.val < 0 + 6 + 6 + 6 then
        disp 2 ⟨r.val - (0 + 6 + 6), by omega⟩
      else if h : 0 + 6 ≤ r.val ∧ r.val < 0 + 6 + 6 then disp 1 ⟨r.val - (0 + 6), by omega⟩
      else if h : 0 ≤ r.val ∧ r.val < 0 + 6 then disp 0 ⟨r.val - 0, by omega⟩ else 0)
    (0 + 6 + 6 + 6) hEFS (hdisp 3) (by omega)
  refine ⟨fun r => if h : 0 + 6 + 6 + 6 ≤ r.val ∧ r.val < 0 + 6 + 6 + 6 + 6 then
        disp 3 ⟨r.val - (0 + 6 + 6 + 6), by omega⟩
      else if h : 0 + 6 + 6 ≤ r.val ∧ r.val < 0 + 6 + 6 + 6 then
        disp 2 ⟨r.val - (0 + 6 + 6), by omega⟩
      else if h : 0 + 6 ≤ r.val ∧ r.val < 0 + 6 + 6 then disp 1 ⟨r.val - (0 + 6), by omega⟩
      else if h : 0 ≤ r.val ∧ r.val < 0 + 6 then disp 0 ⟨r.val - 0, by omega⟩ else 0, ?_, ?_⟩
  · simp only [flat_shell.computeResponse.outerLoop, h0, h1, h2, h3]
  · intro n j
    have hj := j.isLt
    fin_cases n
    · have hc3 : ¬ (0 + 6 + 6 + 6 ≤ 6 * 0 + j.val ∧ 6 * 0 + j.val < 0 + 6 + 6 + 6 + 6) := by
        omega
      have hc2 : ¬ (0 + 6 + 6 ≤ 6 * 0 + j.val ∧ 6 * 0 + j.val < 0 + 6 + 6 + 6) := by omega
      have hc1 : ¬ (0 + 6 ≤ 6 * 0 + j.val ∧ 6 * 0 + j.val < 0 + 6 + 6) := by omega
      have hc0 : 0 ≤ 6 * 0 + j.val ∧ 6 * 0 + j.val < 0 + 6 := by omega
      show (if h : 0 + 6 + 6 + 6 ≤ 6 * 0 + j.val ∧ 6 * 0 + j.val < 0 + 6 + 6 + 6 + 6 then _
        else _) = _
      rw [dif_neg hc3, dif_neg hc2, dif_neg hc1, dif_pos hc0]
      congr 1
      apply Fin.ext
      show 6 * 0 + j.val - 0 = j.val
      omega
    · have hc3 : ¬ (0 + 6 + 6 + 6 ≤ 6 * 1 + j.val ∧ 6 * 1 + j.val < 0 + 6 + 6 + 6 + 6) := by
        omega
      have hc2 : ¬ (0 + 6 + 6 ≤ 6 * 1 + j.val ∧ 6 * 1 + j.val < 0 + 6 + 6 + 6) := by omega
      have hc1 : 0 + 6 ≤ 6 * 1 + j.val ∧ 6 * 1 + j.val < 0 + 6 + 6 := by omega
      show (if h : 0 + 6 + 6 + 6 ≤ 6 * 1 + j.val ∧ 6 * 1 + j.val < 0 + 6 + 6 + 6 + 6 then _
        else _) = _
      rw [dif_neg hc3, dif_neg hc2, dif_pos hc1]
      congr 1
      apply Fin.ext
      show 6 * 1 + j.val - (0 + 6) = j.val
      omega
    · have hc3 : ¬ (0 + 6 + 6 + 6 ≤ 6 * 2 + j.val ∧ 6 * 2 + j.val < 0 + 6 + 6 + 6 + 6) := by
        omega
      have hc2 : 0 + 6 + 6 ≤ 6 * 2 + j.val ∧ 6 * 2 + j.val < 0 + 6 + 6 + 6 := by omega
      show (if h : 0 + 6 + 6 + 6 ≤ 6 * 2 + j.val ∧ 6 * 2 + j.val < 0 + 6 + 6 + 6 + 6 then _
        else _) = _
      rw [dif_neg hc3, dif_pos hc2]
      congr 1
      apply Fin.ext
      show 6 * 2 + j.val - (0 + 6 + 6) = j.val
      omega
    · have hc3 : 0 + 6 + 6 + 6 ≤ 6 * 3 + j.val ∧ 6 * 3 + j.val < 0 + 6 + 6 + 6 + 6 := by
        omega
      show (if h : 0 + 6 + 6 + 6 ≤ 6 * 3 + j.val ∧ 6 * 3 + j.val < 0 + 6 + 6 + 6 + 6 then _
        else _) = _
      rw [dif_pos hc3]
      congr 1
      apply Fin.ext
      show 6 * 3 + j.val - (0 + 6 + 6 + 6) = j.val
      omega

/-! ### Main results: response -/

/-- C9. For every flat shell element (element freedom signature all ones) with
4 bound nodes and every load case `lc` for which each bound node holds a
displacement vector, `computeResponse(lc)` returns and stores the 24-vector `d`
with `d[6n+j]` the displacement of bound node `n` at local DOF `j`; stores
`0.5 * dᵀ * K * d` as total energy of `lc` for the global combined matrix `K`;
stores the same form of the global normal, shear and bending matrices under
the tags "normal", "shear" and "bending"; and increases the running total
energy by the total energy of `lc`. -/
theorem computeResponse_spec [Field K] (e : flat_shell K) (lc : load_case)
    (nodes : Fin 4 → node K) (disp : Fin 4 → Fin 6 → K) (hEFS : e.mEFS = flatShellEFS)
    (hnodes : e.mNodes = [nodes 0, nodes 1, nodes 2, nodes 3])
    (hdisp : ∀ n, (nodes n).getDisplacements lc = .ok (disp n)) :
    ∃ (e' : flat_shell K) (d : Fin 24 → K), e.computeResponse lc = .ok e' ∧
      (∀ (n : Fin 4) (j : Fin 6), d (elementDOF n j) = disp n j) ∧
      e'.mDisplacements.find lc = some d ∧
      e'.mEnergies.find lc = some ((1 / 2) * (d ⬝ᵥ (e.mSM *ᵥ d))) ∧
      (e'.mSeparatedEnergies.find lc).bind (fun m => m.find "normal")
        = some ((1 / 2) * (d ⬝ᵥ (e.mSMNormal *ᵥ d))) ∧
      (e'.mSeparatedEnergies.find lc).bind (fun m => m.find "shear")
        = some ((1 / 2) * (d ⬝ᵥ (e.mSMShear *ᵥ d))) ∧
      (e'.mSeparatedEnergies.find lc).bind (fun m => m.find "bending")
        = some ((1 / 2) * (d ⬝ᵥ (e.mSMBending *ᵥ d))) ∧
      e'.mTotalEnergy = e.mTotalEnergy + (1 / 2) * (d ⬝ᵥ (e.mSM *ᵥ d)) := by
  obtain ⟨B, hB, hBd⟩ := computeResponse_outerLoop_ok e lc nodes disp hEFS hdisp
  have hns : ("normal" : String) ≠ "shear" := by decide
  have hnb : ("normal" : String) ≠ "bending" := by decide
  have hsb : ("shear" : String) ≠ "bending" := by decide
  refine ⟨{ e with
      mDisplacements := e.mDisplacements.assign lc B
      mEnergies := e.mEnergies.assign lc (halfQuadraticForm e.mSM B)
      mTotalEnergy := e.mTotalEnergy + halfQuadraticForm e.mSM B
      mSeparatedEnergies :=
        assignSeparated
          (assignSeparated
            (assignSeparated e.mSeparatedEnergies lc "normal" (halfQuadraticForm e.mSMNormal B))
            lc "shear" (halfQuadraticForm e.mSMShear B))
          lc "bending" (halfQuadraticForm e.mSMBending B) },
    B, ?_, fun n j => hBd n j, ?_, ?_, ?_, ?_, ?_, ?_⟩
  · simp only [flat_shell.computeResponse, hnodes, hB]
  · simp [StdMap.find, StdMap.assign]
  · simp [StdMap.find, StdMap.assign, halfQuadraticForm_eq]
  · simp [assignSeparated, StdMap.find, StdMap.assign, halfQuadraticForm_eq, hns, hnb]
  · simp [assignSeparated, StdMap.find, StdMap.assign, halfQuadraticForm_eq, hsb]
  · simp [assignSeparated, StdMap.find, StdMap.assign, halfQuadraticForm_eq]
  · simp [halfQuadraticForm_eq]

/-- C9 (witness): the example shell bound to four copies of the example node
that hold the zero displacement vector for load case 7. -/
theorem computeResponse_spec_witness :
    (exampleShell [exampleDisplacedNode, exampleDisplacedNode, exampleDisplacedNode,
      exampleDisplacedNode]).mEFS = flatShellEFS ∧
    (∀ n : Fin 4, ((fun _ => exampleDisplacedNode) n : node ℚ).getDisplacements 7
      = .ok ((fun _ _ => 0) n)) ∧
    ∃ (e' : flat_shell ℚ) (d : Fin 24 → ℚ),
      (exampleShell [exampleDisplacedNode, exampleDisplacedNode, exampleDisplacedNode,
        exampleDisplacedNode]).computeResponse 7 = .ok e' ∧
      e'.mDisplacements.find 7 = some d ∧ e'.mTotalEnergy = 0 + (1 / 2) * (d ⬝ᵥ (0 *ᵥ d)) :=
  have hd : ∀ n : Fin 4, ((fun _ => exampleDisplacedNode) n : node ℚ).getDisplacements 7
      = .ok ((fun _ _ => 0) n) := fun _ => rfl
  ⟨rfl, hd,
    let ⟨e', d, h1, _, h3, _, _, _, _, h8⟩ :=
      computeResponse_spec (exampleShell [exampleDisplacedNode, exampleDisplacedNode,
        exampleDisplacedNode, exampleDisplacedNode]) 7 (fun _ => exampleDisplacedNode)
        (fun _ _ => 0) rfl rfl hd
    ⟨e', d, h1, h3, h8⟩⟩

/-- C10. For every flat shell element (element freedom signature all ones, at
most 4 bound nodes) and every load case `lc`, if at least one bound node holds
no displacement vector for `lc`, then `computeResponse(lc)` throws the node's
`MissingLoadCase` error, and the element is in the same state after the call
as before it: stored displacement vectors, per-load-case energies, tagged
partial energies and running total energy are untouched. -/
theorem computeResponse_missing_load_case [Field K] (e : flat_shell K) (lc : load_case)
    (hEFS : e.mEFS = flatShellEFS) (hlen : e.mNodes.length ≤ 4)
    (hmiss : ∃ nd ∈ e.mNodes, nd.mDisplacements.find lc = none) :
    e.computeResponse lc = .thrown .MissingLoadCase e := by
  obtain ⟨s', hs'⟩ := computeResponse_outerLoop_missing e lc hEFS e.mNodes ((fun _ => 0), 0)
    (by
      show 0 + 6 * (e.mNodes.length - 1) ≤ 24
      omega) hmiss
  simp only [flat_shell.computeResponse, hs']

/-- C10 (witness): the example shell bound to one node that holds a displacement
vector for load case 7 and one node that holds none. -/
theorem computeResponse_missing_load_case_witness :
    (exampleShell [exampleDisplacedNode, exampleNode]).mEFS = flatShellEFS ∧
    (exampleShell [exampleDisplacedNode, exampleNode]).mNodes.length ≤ 4 ∧
    (∃ nd ∈ (exampleShell [exampleDisplacedNode, exampleNode]).mNodes,
      nd.mDisplacements.find 7 = none) ∧
    (exampleShell [exampleDisplacedNode, exampleNode]).computeResponse 7
      = .thrown .MissingLoadCase (exampleShell [exampleDisplacedNode, exampleNode]) :=
  have hm : ∃ nd ∈ (exampleShell [exampleDisplacedNode, exampleNode]).mNodes,
      nd.mDisplacements.find 7 = none :=
    ⟨exampleNode, List.mem_cons_of_mem _ (List.mem_cons_self _ _), rfl⟩
  ⟨rfl, by decide, hm,
    computeResponse_missing_load_case (exampleShell [exampleDisplacedNode, exampleNode]) 7 rfl
      (by decide) hm⟩

end ResponseTheorems

/-! ## Theorems: loads, constraints and freedom signature of a node -/

section NodeOperationTheorems

variable {K : Type}

/-! ### The loop of `updateNFS` -/

/-- Loop invariant of `updateNFS` over a list of local DOFs. -/
theorem updateNFS_loop (EFS : Fin 6 → Int) (l : List (Fin 6)) : ∀ n : node K,
    l.foldl (fun s i => if EFS i = 1 then { s with mNFS := Function.update s.mNFS i 1 } else s) n
      = { n with mNFS := fun i => if i ∈ l ∧ EFS i = 1 then 1 else n.mNFS i } := by
  induction l with
  | nil =>
    intro n
    simp
  | cons a l ih =>
    intro n
    rw [List.foldl_cons]
    by_cases ha : EFS a = 1
    · rw [if_pos ha, ih]
      congr 1
      funext i
      by_cases hia : i = a
      · subst hia
        by_cases hil : i ∈ l
        · simp [hil, ha]
        · simp [hil, ha]
      · simp [hia, Function.update_apply]
    · rw [if_neg ha, ih]
      congr 1
      funext i
      by_cases hia : i = a
      · subst hia
        simp [ha]
      · simp [hia]

/-- The node after `updateNFS`: only the freedom signature changes, and flag `i`
becomes 1 where the element signature is 1. -/
theorem updateNFS_eq (n : node K) (EFS : Fin 6 → Int) :
    n.updateNFS EFS = { n with mNFS := fun i => if EFS i = 1 then 1 else n.mNFS i } := by
  unfold node.updateNFS
  rw [updateNFS_loop]
  congr 1
  funext i
  simp [List.mem_finRange]

/-! ### Effect of one operation on the freedom signature -/

/-- Every operation, returning or throwing, leaves each freedom flag as it was
or sets it to 1. -/
theorem NodeOp.apply_mNFS [Zero K] [Add K] (op : NodeOp K) (n s : node K)
    (hs : op.apply n = .ok s ∨ ∃ e, op.apply n = .thrown e s) (i : Fin 6) :
    s.mNFS i = n.mNFS i ∨ s.mNFS i = 1 := by
  cases op with
  | updateNFS EFS =>
    rcases hs with hs | ⟨e, hs⟩
    · simp only [NodeOp.apply, Outcome.ok.injEq] at hs
      subst hs
      rw [updateNFS_eq]
      by_cases h : EFS i = 1
      · exact Or.inr (by simp [h])
      · exact Or.inl (by simp [h])
    · simp [NodeOp.apply] at hs
  | addConstraint localDOF =>
    by_cases h : localDOF > 5
    · rcases hs with hs | ⟨e, hs⟩
      · simp [NodeOp.apply, node.addConstraint, h] at hs
      · simp only [NodeOp.apply, node.addConstraint, dif_pos h, Outcome.thrown.injEq] at hs
        rw [← hs.2]
        exact Or.inl rfl
    · rcases hs with hs | ⟨e, hs⟩
      · simp only [NodeOp.apply, node.addConstraint, dif_neg h, Outcome.ok.injEq] at hs
        subst hs
        exact Or.inl rfl
      · simp [NodeOp.apply, node.addConstraint, h] at hs
  | addLoad lc localDOF magnitude =>
    by_cases h : localDOF > 5
    · rcases hs with hs | ⟨e, hs⟩
      · simp [NodeOp.apply, node.addLoad, h] at hs
      · simp only [NodeOp.apply, node.addLoad, dif_pos h, Outcome.thrown.injEq] at hs
        rw [← hs.2]
        exact Or.inl rfl
    · rcases hs with hs | ⟨e, hs⟩
      · simp only [NodeOp.apply, node.addLoad, dif_neg h, Outcome.ok.injEq] at hs
        subst hs
        exact Or.inl rfl
      · simp [NodeOp.apply, node.addLoad, h] at hs
  | addDisplacements displacements =>
    simp only [NodeOp.apply, node.addDisplacements] at hs
    cases hfold : displacements.foldlM node.addDisplacements.outer
        { n with mDisplacements := StdMap.empty } with
    | none => simp [hfold] at hs
    | some s' =>
      have hss : s' = s := by
        rcases hs with hs | ⟨e, hs⟩
        · simpa [hfold] using hs
        · simp [hfold] at hs
      subst hss
      obtain ⟨h1, _, _, _⟩ := addDisplacements_outer_frame displacements _ _ hfold
      rw [h1]
      exact Or.inl rfl
  | clearDisplacements =>
    rcases hs with hs | ⟨e, hs⟩
    · simp only [NodeOp.apply, Outcome.ok.injEq] at hs
      subst hs
      exact Or.inl rfl
    · simp [NodeOp.apply] at hs
  | generateNFT NFM =>
    rcases hs with hs | ⟨e, hs⟩
    · simp only [NodeOp.apply, Outcome.ok.injEq] at hs
      subst hs
      have h1 := (generateNFT_loop_keys (List.finRange 6) n NFM).1
      unfold node.generateNFT
      rw [h1]
      exact Or.inl rfl
    · simp [NodeOp.apply] at hs

/-- A run of operations leaves each freedom flag as it was or sets it to 1. -/
theorem run_mNFS [Zero K] [Add K] (ops : List (NodeOp K)) :
    ∀ n n' : node K, node.run n ops = some n' → ∀ i : Fin 6,
    n'.mNFS i = n.mNFS i ∨ n'.mNFS i = 1 := by
  induction ops with
  | nil =>
    intro n n' hrun i
    simp only [node.run, Option.some.injEq] at hrun
    subst hrun
    exact Or.inl rfl
  | cons op ops ih =>
    intro n n' hrun i
    rw [node.run] at hrun
    cases hap : op.apply n with
    | ok s =>
      rw [hap] at hrun
      rcases ih s n' hrun i with h | h
      · rcases op.apply_mNFS n s (Or.inl hap) i with h' | h'
        · exact Or.inl (h.trans h')
        · exact Or.inr (h.trans h')
      · exact Or.inr h
    | thrown e s =>
      rw [hap] at hrun
      rcases ih s n' hrun i with h | h
      · rcases op.apply_mNFS n s (Or.inr ⟨e, hap⟩) i with h' | h'
        · exact Or.inl (h.trans h')
        · exact Or.inr (h.trans h')
      · exact Or.inr h
    | undefined =>
      rw [hap] at hrun
      simp at hrun

/-- Every node state reached from a constructed node has freedom flags 0 or 1. -/
theorem flagsBoolean_of_run [Zero K] [Add K] (coords : Fin 3 → K) (ID : Nat)
    (ops : List (NodeOp K)) (n' : node K) (hrun : node.run (node.mk0 coords ID) ops = some n') :
    n'.flagsBoolean := by
  intro i
  rcases run_mNFS ops _ n' hrun i with h | h
  · exact Or.inl h
  · exact Or.inr h

/-! ### Loads -/

theorem StdMap.assign_assign {κ ν : Type} [DecidableEq κ] (m : StdMap κ ν) (k : κ) (v w : ν) :
    (m.assign k v).assign k w = m.assign k w := by
  funext x
  by_cases h : x = k <;> simp [StdMap.assign, h]

/-- The node after an `addLoad` with the local DOF in range. -/
theorem addLoad_ok [Zero K] [Add K] (n : node K) (lc : load_case) (localDOF : Nat) (m : K)
    (h : localDOF ≤ 5) :
    n.addLoad lc localDOF m = .ok (n.loadAdded lc ⟨localDOF, Nat.lt_succ_of_le h⟩ m) := by
  have h5 : ¬ localDOF > 5 := by omega
  unfold node.addLoad node.loadAdded
  rw [dif_neg h5]
  cases hfind : n.mLoads.find lc with
  | none =>
    have hl : (fun i => n.loadAt lc i) = fun _ => (0 : K) := by
      funext i
      simp [node.loadAt, hfind]
    simp only [hl, StdMap.assign_assign]
    simp [StdMap.find, StdMap.assign]
  | some v =>
    have hl : (fun i => n.loadAt lc i) = v := by
      funext i
      simp [node.loadAt, hfind]
    simp only [hl, hfind, Option.getD_some]

/-- The stored loads after an `addLoad` with the local DOF in range. -/
theorem addLoad_loadAt [Zero K] [Add K] (n n' : node K) (lc : load_case) (localDOF : Nat)
    (m : K) (h : localDOF ≤ 5) (hn : n.addLoad lc localDOF m = .ok n') (lc' : load_case)
    (i : Fin 6) :
    n'.loadAt lc' i
      = if lc' = lc ∧ i.val = localDOF then n.loadAt lc' i + m else n.loadAt lc' i := by
  rw [addLoad_ok n lc localDOF m h] at hn
  simp only [Outcome.ok.injEq] at hn
  subst hn
  by_cases hlc : lc' = lc
  · subst hlc
    by_cases hi : i.val = localDOF
    · subst hi
      simp [node.loadAdded, node.loadAt, StdMap.find, StdMap.assign]
    · have hne : i ≠ ⟨localDOF, Nat.lt_succ_of_le h⟩ := fun hh => hi (congrArg Fin.val hh)
      simp [node.loadAdded, node.loadAt, StdMap.find, StdMap.assign, hi,
        Function.update_noteq hne]
  · simp [node.loadAdded, node.loadAt, StdMap.find, StdMap.assign, hlc]

theorem accumulated_cons [Add K] (c : load_case × Fin 6 × K)
    (calls : List (load_case × Fin 6 × K)) (lc : load_case) (i : Fin 6) (start : K) :
    accumulated (c :: calls) lc i start
      = accumulated calls lc i (if c.1 = lc ∧ c.2.1 = i then start + c.2.2 else start) := by
  unfold accumulated
  by_cases h : c.1 = lc ∧ c.2.1 = i
  · simp [List.filter_cons, h]
  · simp [List.filter_cons, h]

/-- The stored loads after a sequence of `addLoad` calls with the local DOFs in
range. No law of the addition is used. -/
theorem addLoad_run [Zero K] [Add K] (calls : List (load_case × Fin 6 × K)) :
    ∀ n : node K, ∃ n' : node K, node.run n (calls.map addLoadOp) = some n' ∧
      ∀ lc i, n'.loadAt lc i = accumulated calls lc i (n.loadAt lc i) := by
  induction calls with
  | nil =>
    intro n
    exact ⟨n, rfl, fun lc i => rfl⟩
  | cons c calls ih =>
    intro n
    have hc : c.2.1.val ≤ 5 := Nat.le_of_lt_succ c.2.1.isLt
    have hstep := addLoad_ok n c.1 c.2.1.val c.2.2 hc
    obtain ⟨n', hrun, hsum⟩ := ih (n.loadAdded c.1 ⟨c.2.1.val, Nat.lt_succ_of_le hc⟩ c.2.2)
    refine ⟨n', ?_, ?_⟩
    · simp only [List.map_cons, node.run, addLoadOp, NodeOp.apply, hstep]
      exact hrun
    · intro lc i
      rw [hsum lc i, addLoad_loadAt n _ c.1 c.2.1.val c.2.2 hc hstep lc i, accumulated_cons]
      congr 1
      by_cases h1 : lc = c.1
      · by_cases h2 : i = c.2.1
        · simp [h1, h2]
        · have h3 : ¬ i.val = c.2.1.val := fun hh => h2 (Fin.ext hh)
          have h4 : ¬ c.2.1 = i := fun hh => h2 hh.symm
          simp [h1, h3, h4]
      · have h5 : ¬ c.1 = lc := fun hh => h1 hh.symm
        simp [h1, h5]

/-! ### Main results: loads, constraints and freedom signature -/

/-- C12 (counterexample). With `double` scalars, a node whose load for load
case 7 at local DOF 2 is `1e16` gets `addLoad(7, 2, 1.0)`: the sum `1e16 + 1` is
no `double` and is rounded to `1e16`, so the load stored after the call is not
the value stored before plus 1. After a second `addLoad(7, 2, 1.0)` the stored
load is still `1e16`, not the sum `1e16 + 2` of the three registered magnitudes,
which is itself a `double`. -/
theorem addLoad_rounds :
    ∃ n1 n2 n3 : node IntegralDouble,
      exampleDoubleNode.addLoad 7 2 ⟨10 ^ 16⟩ = .ok n1 ∧
      n1.addLoad 7 2 ⟨1⟩ = .ok n2 ∧
      n2.addLoad 7 2 ⟨1⟩ = .ok n3 ∧
      (n1.loadAt 7 2).value = 10 ^ 16 ∧
      (n2.loadAt 7 2).value = 10 ^ 16 ∧
      (n2.loadAt 7 2).value ≠ (n1.loadAt 7 2).value + 1 ∧
      (n3.loadAt 7 2).value = 10 ^ 16 ∧
      (n3.loadAt 7 2).value ≠ 10 ^ 16 + 1 + 1 ∧
      roundToDouble (10 ^ 16 + 1 + 1) = 10 ^ 16 + 1 + 1 := by
  refine ⟨_, _, _, addLoad_ok _ 7 2 _ (by decide), addLoad_ok _ 7 2 _ (by decide),
    addLoad_ok _ 7 2 _ (by decide), ?_, ?_, ?_, ?_, ?_, ?_⟩
  · decide
  · decide
  · decide
  · decide
  · decide
  · decide

/-- C12 (amended). For every node state, load case `lc`, `localDOF <= 5` and
magnitude `m`, `addLoad(lc, localDOF, m)` returns and changes the load store
only; afterwards `lc` has a load vector, the load stored for `lc` at `localDOF`
is the result of the addition `+=` of the scalars (for `double`, the sum
rounded to the nearest `double`) applied to the value stored before (0 if `lc`
had no vector) and `m`, every other component of the vector of `lc` is as
before (0 in a new vector), and the vector of every other load case is
unchanged. Hence after any sequence of `addLoad` calls with DOFs in range the
stored component is the value obtained from the value before the sequence by
adding the magnitudes registered for that load case and DOF one at a time, in
the order of the calls, with that addition. No law of the addition is
assumed. -/
theorem addLoad_accumulates [Zero K] [Add K] (n : node K) (lc : load_case) (localDOF : Nat)
    (m : K) (h : localDOF ≤ 5) :
    (∃ n' : node K, n.addLoad lc localDOF m = .ok n' ∧
      n' = { n with mLoads := n'.mLoads } ∧
      (∃ v, n'.mLoads.find lc = some v) ∧
      (∀ lc' i, n'.loadAt lc' i
        = if lc' = lc ∧ i.val = localDOF then n.loadAt lc' i + m else n.loadAt lc' i) ∧
      (∀ lc', lc' ≠ lc → n'.mLoads.find lc' = n.mLoads.find lc')) ∧
    (∀ calls : List (load_case × Fin 6 × K),
      ∃ n' : node K, node.run n (calls.map addLoadOp) = some n' ∧
        ∀ lc' i, n'.loadAt lc' i = accumulated calls lc' i (n.loadAt lc' i)) := by
  refine ⟨⟨_, addLoad_ok n lc localDOF m h, rfl, ?_, ?_, ?_⟩, fun calls => addLoad_run calls n⟩
  · exact ⟨Function.update (fun j => n.loadAt lc j) ⟨localDOF, Nat.lt_succ_of_le h⟩
      (n.loadAt lc ⟨localDOF, Nat.lt_succ_of_le h⟩ + m),
      by simp [node.loadAdded, StdMap.find, StdMap.assign]⟩
  · intro lc' i
    exact addLoad_loadAt n _ lc localDOF m h (addLoad_ok n lc localDOF m h) lc' i
  · intro lc' hne
    simp [node.loadAdded, StdMap.find, StdMap.assign, hne]

/-- C12 (witness): the node with `double` scalars, load case 7, local DOF 2 and
the magnitudes `1e16`, 1 and 1. -/
theorem addLoad_accumulates_witness :
    (2 : Nat) ≤ 5 ∧
    ∃ n' : node IntegralDouble, node.run exampleDoubleNode
        ([((7 : load_case), ((2 : Fin 6), (⟨10 ^ 16⟩ : IntegralDouble))), (7, (2, ⟨1⟩)),
          (7, (2, ⟨1⟩))].map addLoadOp) = some n' ∧
      ∀ lc' i, n'.loadAt lc' i
        = accumulated [(7, (2, ⟨10 ^ 16⟩)), (7, (2, ⟨1⟩)), (7, (2, ⟨1⟩))] lc' i
          (exampleDoubleNode.loadAt lc' i) :=
  ⟨by decide,
    (addLoad_accumulates exampleDoubleNode 7 2 (⟨1⟩ : IntegralDouble) (by decide)).2
      [(7, (2, ⟨10 ^ 16⟩)), (7, (2, ⟨1⟩)), (7, (2, ⟨1⟩))]⟩

/-- C13. For every node state, `addConstraint(localDOF)` and
`addLoad(lc, localDOF, m)` throw if and only if `localDOF > 5`; the error is
`InvalidDOF` and the node is then exactly as before the call, so that no load
vector is created for `lc`. -/
theorem invalidDOF_iff [Zero K] [Add K] (n : node K) (lc : load_case) (localDOF : Nat) (m : K) :
    ((∃ e s, n.addConstraint localDOF = .thrown e s) ↔ 5 < localDOF) ∧
    (∀ e s, n.addConstraint localDOF = .thrown e s → e = .InvalidDOF ∧ s = n) ∧
    (5 < localDOF → n.addConstraint localDOF = .thrown .InvalidDOF n) ∧
    ((∃ e s, n.addLoad lc localDOF m = .thrown e s) ↔ 5 < localDOF) ∧
    (∀ e s, n.addLoad lc localDOF m = .thrown e s → e = .InvalidDOF ∧ s = n) ∧
    (5 < localDOF → n.addLoad lc localDOF m = .thrown .InvalidDOF n) := by
  by_cases h : localDOF > 5
  · have hc : n.addConstraint localDOF = .thrown .InvalidDOF n := by
      simp [node.addConstraint, h]
    have hl : n.addLoad lc localDOF m = .thrown .InvalidDOF n := by
      simp [node.addLoad, h]
    rw [hc, hl]
    refine ⟨⟨fun _ => h, fun _ => ⟨_, _, rfl⟩⟩, ?_, fun _ => rfl,
      ⟨fun _ => h, fun _ => ⟨_, _, rfl⟩⟩, ?_, fun _ => rfl⟩
    · intro e s hes
      simp only [Outcome.thrown.injEq] at hes
      exact ⟨hes.1.symm, hes.2.symm⟩
    · intro e s hes
      simp only [Outcome.thrown.injEq] at hes
      exact ⟨hes.1.symm, hes.2.symm⟩
  · have hc : ∀ e s, n.addConstraint localDOF ≠ .thrown e s := by
      intro e s
      simp [node.addConstraint, h]
    have hl : ∀ e s, n.addLoad lc localDOF m ≠ .thrown e s := by
      intro e s
      simp [node.addLoad, h]
    refine ⟨⟨?_, fun h' => absurd h' h⟩, ?_, fun h' => absurd h' h,
      ⟨?_, fun h' => absurd h' h⟩, ?_, fun h' => absurd h' h⟩
    · rintro ⟨e, s, hes⟩
      exact absurd hes (hc e s)
    · intro e s hes
      exact absurd hes (hc e s)
    · rintro ⟨e, s, hes⟩
      exact absurd hes (hl e s)
    · intro e s hes
      exact absurd hes (hl e s)

/-- C14 (counterexample). Local DOF 3 of the example node is inactive; called
with the caller's variable holding 5, `checkLoad` returns `false` and leaves
the variable at 5, not at zero. -/
theorem checkLoad_leaves_value :
    ¬ exampleNode.free 3 ∧ exampleNode.checkLoad 7 3 (5 : ℚ) = some (false, 5) ∧
    (5 : ℚ) ≠ 0 := by
  refine ⟨by decide, ?_, by norm_num⟩
  have h5 : ¬ (3 : Nat) > 5 := by decide
  have hf : ¬ (exampleNode.mNFS ⟨3, by decide⟩ = 1 ∧ exampleNode.mConstraints ⟨3, by decide⟩ = 0) := by
    decide
  unfold node.checkLoad
  rw [dif_neg h5, if_neg hf]

/-- C14 (amended). For every node state, load case `lc`, `localDOF <= 5` and
value `load` of the caller's variable, `checkLoad` returns a flag `present` and
leaves a value in the variable. `present` is true if and only if the DOF is
active and unconstrained, `lc` has a stored load vector and its component at
`localDOF` is not zero. When the DOF is active and unconstrained and `lc` has a
stored vector, the value is the stored component (zero exactly when `present`
is false); otherwise `present` is false and the variable is not written: the
value is `load`. -/
theorem checkLoad_spec [Zero K] [DecidableEq K] (n : node K) (lc : load_case) (localDOF : Nat)
    (load : K) (h : localDOF ≤ 5) :
    ∃ (present : Bool) (value : K), n.checkLoad lc localDOF load = some (present, value) ∧
      (present = true ↔ n.free ⟨localDOF, Nat.lt_succ_of_le h⟩ ∧
        ∃ v, n.mLoads.find lc = some v ∧ v ⟨localDOF, Nat.lt_succ_of_le h⟩ ≠ 0) ∧
      (∀ v, n.free ⟨localDOF, Nat.lt_succ_of_le h⟩ → n.mLoads.find lc = some v →
        value = v ⟨localDOF, Nat.lt_succ_of_le h⟩ ∧ (present = false → value = 0)) ∧
      (¬ (n.free ⟨localDOF, Nat.lt_succ_of_le h⟩ ∧ ∃ v, n.mLoads.find lc = some v) →
        present = false ∧ value = load) := by
  have h5 : ¬ localDOF > 5 := by omega
  unfold node.checkLoad
  rw [dif_neg h5]
  by_cases hf : n.mNFS ⟨localDOF, Nat.lt_succ_of_le h⟩ = 1 ∧
      n.mConstraints ⟨localDOF, Nat.lt_succ_of_le h⟩ = 0
  · have hfree : n.free ⟨localDOF, Nat.lt_succ_of_le h⟩ := hf
    rw [if_pos hf]
    cases hfind : n.mLoads.find lc with
    | none =>
      refine ⟨false, load, rfl, ?_, ?_, ?_⟩
      · simp
      · intro v _ hv
        simp at hv
      · intro _
        exact ⟨rfl, rfl⟩
    | some v =>
      by_cases hv : v ⟨localDOF, Nat.lt_succ_of_le h⟩ = 0
      · refine ⟨false, v ⟨localDOF, Nat.lt_succ_of_le h⟩, by simp [hv], ?_, ?_, ?_⟩
        · simp [hv]
        · intro w _ hw
          have : v = w := Option.some.inj hw
          subst this
          exact ⟨rfl, fun _ => hv⟩
        · intro hno
          exact absurd ⟨hfree, v, rfl⟩ hno
      · refine ⟨true, v ⟨localDOF, Nat.lt_succ_of_le h⟩, by simp [hv], ?_, ?_, ?_⟩
        · simp [hv, hfree]
        · intro w _ hw
          have : v = w := Option.some.inj hw
          subst this
          exact ⟨rfl, fun hp => by simp at hp⟩
        · intro hno
          exact absurd ⟨hfree, v, rfl⟩ hno
  · have hfree : ¬ n.free ⟨localDOF, Nat.lt_succ_of_le h⟩ := hf
    rw [if_neg hf]
    refine ⟨false, load, rfl, ?_, ?_, ?_⟩
    · simp [hfree]
    · intro v hv _
      exact absurd hv hfree
    · intro _
      exact ⟨rfl, rfl⟩

/-- C14 (witness): the example node, load case 7, local DOF 3 and the caller's
variable at 5. -/
theorem checkLoad_spec_witness :
    (3 : Nat) ≤ 5 ∧
    ∃ (present : Bool) (value : ℚ), exampleNode.checkLoad 7 3 (5 : ℚ) = some (present, value) ∧
      (¬ (exampleNode.free ⟨3, by decide⟩ ∧ ∃ v, exampleNode.mLoads.find 7 = some v) →
        present = false ∧ value = 5) :=
  ⟨by decide,
    let ⟨present, value, h1, _, _, h4⟩ := checkLoad_spec exampleNode 7 3 (5 : ℚ) (by decide)
    ⟨present, value, h1, h4⟩⟩

/-- C15. For every node and every local DOF `i`, once freedom flag `i` is 1 it
is 1 in every state reached by a further sequence of node operations
(`updateNFS` with arbitrary element signatures, `addConstraint`, `addLoad`,
`addDisplacements`, `clearDisplacements`, `generateNFT`), returning or
throwing. -/
theorem freedom_flag_stays_set [Zero K] [Add K] (n : node K) (i : Fin 6) (h : n.mNFS i = 1)
    (ops : List (NodeOp K)) (n' : node K) (hrun : node.run n ops = some n') :
    n'.mNFS i = 1 := by
  rcases run_mNFS ops n n' hrun i with h' | h'
  · exact h'.trans h
  · exact h'

/-- C15 (witness): the example node, its local DOF 0, and a run that updates the
signature with zeros, constrains DOF 0, numbers the node and adds a load. -/
theorem freedom_flag_stays_set_witness :
    exampleNode.mNFS 0 = 1 ∧
    ∃ n' : node ℚ,
      node.run exampleNode [NodeOp.updateNFS (fun _ => 0), NodeOp.addConstraint 0,
        NodeOp.generateNFT 3, NodeOp.addLoad 7 9 (1 : ℚ)] = some n' ∧
      n'.mNFS 0 = 1 :=
  ⟨rfl, _, rfl, freedom_flag_stays_set exampleNode 0 rfl
    [NodeOp.updateNFS (fun _ => 0), NodeOp.addConstraint 0, NodeOp.generateNFT 3,
      NodeOp.addLoad 7 9 (1 : ℚ)] _ rfl⟩

/-- C16. For every node state with freedom flags in {0,1} and every element
signature `a` with entries in {0,1}, `updateNFS(a)` makes each freedom flag the
bitwise OR of the old flag and the entry of `a`. For all node states and all
signatures `a` and `b`: `updateNFS(a)` applied twice gives the same node state
as applied once, `updateNFS(a)` then `updateNFS(b)` gives the same node state
as `updateNFS(b)` then `updateNFS(a)`, and no field other than the freedom
signature changes. -/
theorem updateNFS_or_idempotent_commutative (n : node K) (a b : Fin 6 → Int)
    (hn : n.flagsBoolean) (ha : ∀ i, a i = 0 ∨ a i = 1) :
    (∀ i, (n.updateNFS a).mNFS i = Int.lor (n.mNFS i) (a i)) ∧
    (n.updateNFS a).updateNFS a = n.updateNFS a ∧
    (n.updateNFS a).updateNFS b = (n.updateNFS b).updateNFS a ∧
    n.updateNFS a = { n with mNFS := (n.updateNFS a).mNFS } := by
  refine ⟨?_, ?_, ?_, ?_⟩
  · intro i
    rw [updateNFS_eq]
    rcases hn i with h0 | h1 <;> rcases ha i with h2 | h3
    · simp only [h0, h2]
      decide
    · simp only [h0, h3]
      decide
    · simp only [h1, h2]
      decide
    · simp only [h1, h3]
      decide
  · simp only [updateNFS_eq]
    congr 1
    funext i
    by_cases h : a i = 1 <;> simp [h]
  · simp only [updateNFS_eq]
    congr 1
    funext i
    by_cases h : a i = 1 <;> by_cases h' : b i = 1 <;> simp [h, h']
  · rw [updateNFS_eq]

/-- C16 (witness): the example node and the signatures `(1,1,1,1,1,1)` and
`(0,0,0,0,0,0)`. -/
theorem updateNFS_or_idempotent_commutative_witness :
    exampleNode.flagsBoolean ∧ (∀ i : Fin 6, flatShellEFS i = 0 ∨ flatShellEFS i = 1) ∧
    (∀ i, (exampleNode.updateNFS flatShellEFS).mNFS i
      = Int.lor (exampleNode.mNFS i) (flatShellEFS i)) :=
  have hn : exampleNode.flagsBoolean := by
    intro i
    by_cases h : i.val < 2
    · exact Or.inr (by simp [exampleNode, h])
    · exact Or.inl (by simp [exampleNode, h])
  have ha : ∀ i : Fin 6, flatShellEFS i = 0 ∨ flatShellEFS i = 1 := fun _ => Or.inr rfl
  ⟨hn, ha, (updateNFS_or_idempotent_commutative exampleNode flatShellEFS (fun _ => 0) hn ha).1⟩

end NodeOperationTheorems

/-! ## Theorems: node binding of the flat shell element -/

section BindingTheorems

variable {K : Type}

theorem allActive_allActive (n : node K) : n.allActive.allActive = n.allActive := rfl

end BindingTheorems

/-! ## Theorems: the loops that fill the 24x24 matrices -/

section LoopTheorems

open Matrix

variable {K : Type}

/-- Loop invariant of the block assignments of an 8x8 membrane matrix. -/
theorem foldl_assignBlock_membrane (k : Matrix (Fin 8) (Fin 8) K) (L : List (Nat × Nat)) :
    ∀ M : Matrix (Fin 24) (Fin 24) K, (∀ mn ∈ L, mn.1 < 4 ∧ mn.2 < 4) →
    L.foldl (fun M mn => assignBlock 2 M (6 * mn.1 + 0) (6 * mn.2 + 0) k (2 * mn.1) (2 * mn.2)) M
      = Matrix.of fun r c =>
          if h : r.val % 6 < 2 ∧ c.val % 6 < 2 then
            if (r.val / 6, c.val / 6) ∈ L then
              k ⟨2 * (r.val / 6) + r.val % 6, by omega⟩ ⟨2 * (c.val / 6) + c.val % 6, by omega⟩
            else M r c
          else M r c := by
  induction L with
  | nil =>
    intro M _
    ext r c
    simp
  | cons mn L ih =>
    intro M hL
    obtain ⟨m, n⟩ := mn
    have hmn : m < 4 ∧ n < 4 := hL (m, n) (List.mem_cons_self _ _)
    rw [List.foldl_cons, ih _ (fun x hx => hL x (List.mem_cons_of_mem _ hx))]
    ext r c
    simp only [Matrix.of_apply]
    by_cases h : r.val % 6 < 2 ∧ c.val % 6 < 2
    · rw [dif_pos h, dif_pos h]
      by_cases hin : (r.val / 6, c.val / 6) ∈ L
      · rw [if_pos hin, if_pos (List.mem_cons_of_mem _ hin)]
      · rw [if_neg hin]
        by_cases heq : r.val / 6 = m ∧ c.val / 6 = n
        · have hmem : (r.val / 6, c.val / 6) ∈ (m, n) :: L := by
            rw [heq.1, heq.2]
            exact List.mem_cons_self _ _
          have hcond : ((6 * m + 0 ≤ r.val ∧ r.val < 6 * m + 0 + 2) ∧
              (6 * n + 0 ≤ c.val ∧ c.val < 6 * n + 0 + 2)) ∧
              (2 * m + 2 ≤ 8 ∧ 2 * n + 2 ≤ 8) := by omega
          rw [if_pos hmem]
          simp only [assignBlock, Matrix.of_apply]
          rw [dif_pos hcond]
          congr 1 <;>
          · apply Fin.ext
            simp only
            omega
        · have hmem : ¬ (r.val / 6, c.val / 6) ∈ (m, n) :: L := by
            rw [List.mem_cons, Prod.mk.injEq]
            rintro (h' | h')
            · exact heq h'
            · exact hin h'
          have hcond : ¬ (((6 * m + 0 ≤ r.val ∧ r.val < 6 * m + 0 + 2) ∧
              (6 * n + 0 ≤ c.val ∧ c.val < 6 * n + 0 + 2)) ∧
              (2 * m + 2 ≤ 8 ∧ 2 * n + 2 ≤ 8)) := by omega
          rw [if_neg hmem]
          simp only [assignBlock, Matrix.of_apply]
          rw [dif_neg hcond]
    · have hcond : ¬ (((6 * m + 0 ≤ r.val ∧ r.val < 6 * m + 0 + 2) ∧
          (6 * n + 0 ≤ c.val ∧ c.val < 6 * n + 0 + 2)) ∧
          (2 * m + 2 ≤ 8 ∧ 2 * n + 2 ≤ 8)) := by omega
      rw [dif_neg h, dif_neg h]
      simp only [assignBlock, Matrix.of_apply]
      rw [dif_neg hcond]

/-- Loop invariant of the block assignments of the 12x12 bending matrix. -/
theorem foldl_assignBlock_bending (k : Matrix (Fin 12) (Fin 12) K) (L : List (Nat × Nat)) :
    ∀ M : Matrix (Fin 24) (Fin 24) K, (∀ mn ∈ L, mn.1 < 4 ∧ mn.2 < 4) →
    L.foldl (fun M mn => assignBlock 3 M (6 * mn.1 + 2) (6 * mn.2 + 2) k (3 * mn.1) (3 * mn.2)) M
      = Matrix.of fun r c =>
          if h : (2 ≤ r.val % 6 ∧ r.val % 6 < 5) ∧ (2 ≤ c.val % 6 ∧ c.val % 6 < 5) then
            if (r.val / 6, c.val / 6) ∈ L then
              k ⟨3 * (r.val / 6) + (r.val % 6 - 2), by omega⟩
                ⟨3 * (c.val / 6) + (c.val % 6 - 2), by omega⟩
            else M r c
          else M r c := by
  induction L with
  | nil =>
    intro M _
    ext r c
    simp
  | cons mn L ih =>
    intro M hL
    obtain ⟨m, n⟩ := mn
    have hmn : m < 4 ∧ n < 4 := hL (m, n) (List.mem_cons_self _ _)
    rw [List.foldl_cons, ih _ (fun x hx => hL x (List.mem_cons_of_mem _ hx))]
    ext r c
    simp only [Matrix.of_apply]
    by_cases h : (2 ≤ r.val % 6 ∧ r.val % 6 < 5) ∧ (2 ≤ c.val % 6 ∧ c.val % 6 < 5)
    · rw [dif_pos h, dif_pos h]
      by_cases hin : (r.val / 6, c.val / 6) ∈ L
      · rw [if_pos hin, if_pos (List.mem_cons_of_mem _ hin)]
      · rw [if_neg hin]
        by_cases heq : r.val / 6 = m ∧ c.val / 6 = n
        · have hmem : (r.val / 6, c.val / 6) ∈ (m, n) :: L := by
            rw [heq.1, heq.2]
            exact List.mem_cons_self _ _
          have hcond : ((6 * m + 2 ≤ r.val ∧ r.val < 6 * m + 2 + 3) ∧
              (6 * n + 2 ≤ c.val ∧ c.val < 6 * n + 2 + 3)) ∧
              (3 * m + 3 ≤ 12 ∧ 3 * n + 3 ≤ 12) := by omega
          rw [if_pos hmem]
          simp only [assignBlock, Matrix.of_apply]
          rw [dif_pos hcond]
          congr 1 <;>
          · apply Fin.ext
            simp only
            omega
        · have hmem : ¬ (r.val / 6, c.val / 6) ∈ (m, n) :: L := by
            rw [List.mem_cons, Prod.mk.injEq]
            rintro (h' | h')
            · exact heq h'
            · exact hin h'
          have hcond : ¬ (((6 * m + 2 ≤ r.val ∧ r.val < 6 * m + 2 + 3) ∧
              (6 * n + 2 ≤ c.val ∧ c.val < 6 * n + 2 + 3)) ∧
              (3 * m + 3 ≤ 12 ∧ 3 * n + 3 ≤ 12)) := by omega
          rw [if_neg hmem]
          simp only [assignBlock, Matrix.of_apply]
          rw [dif_neg hcond]
    · have hcond : ¬ (((6 * m + 2 ≤ r.val ∧ r.val < 6 * m + 2 + 3) ∧
          (6 * n + 2 ≤ c.val ∧ c.val < 6 * n + 2 + 3)) ∧
          (3 * m + 3 ≤ 12 ∧ 3 * n + 3 ≤ 12)) := by omega
      rw [dif_neg h, dif_neg h]
      simp only [assignBlock, Matrix.of_apply]
      rw [dif_neg hcond]

/-- Loop invariant of the block assignments that fill `mT`. -/
theorem foldl_assignBlock_transformation (lam : Matrix (Fin 3) (Fin 3) K) (L : List Nat) :
    ∀ M : Matrix (Fin 24) (Fin 24) K,
    L.foldl (fun M b => assignBlock 3 M (b * 3) (b * 3) lam 0 0) M
      = Matrix.of fun r c =>
          if r.val / 3 = c.val / 3 ∧ r.val / 3 ∈ L then
            lam ⟨r.val % 3, Nat.mod_lt _ (by decide)⟩ ⟨c.val % 3, Nat.mod_lt _ (by decide)⟩
          else M r c := by
  induction L with
  | nil =>
    intro M
    ext r c
    simp
  | cons b L ih =>
    intro M
    rw [List.foldl_cons, ih]
    ext r c
    simp only [Matrix.of_apply]
    by_cases h : r.val / 3 = c.val / 3 ∧ r.val / 3 ∈ L
    · rw [if_pos h, if_pos ⟨h.1, List.mem_cons_of_mem _ h.2⟩]
    · rw [if_neg h]
      by_cases heq : r.val / 3 = b ∧ c.val / 3 = b
      · have hmem : r.val / 3 = c.val / 3 ∧ r.val / 3 ∈ b :: L :=
          ⟨heq.1.trans heq.2.symm, heq.1 ▸ List.mem_cons_self _ _⟩
        have hcond : ((b * 3 ≤ r.val ∧ r.val < b * 3 + 3) ∧
            (b * 3 ≤ c.val ∧ c.val < b * 3 + 3)) ∧ (0 + 3 ≤ 3 ∧ 0 + 3 ≤ 3) := by omega
        rw [if_pos hmem]
        simp only [assignBlock, Matrix.of_apply]
        rw [dif_pos hcond]
        congr 1 <;>
        · apply Fin.ext
          simp only
          omega
      · have hmem : ¬ (r.val / 3 = c.val / 3 ∧ r.val / 3 ∈ b :: L) := by
          rw [List.mem_cons]
          rintro ⟨h1, h2 | h2⟩
          · exact heq ⟨h2, h1 ▸ h2⟩
          · exact h ⟨h1, h2⟩
        have hcond : ¬ (((b * 3 ≤ r.val ∧ r.val < b * 3 + 3) ∧
            (b * 3 ≤ c.val ∧ c.val < b * 3 + 3)) ∧ (0 + 3 ≤ 3 ∧ 0 + 3 ≤ 3)) := by omega
        rw [if_neg hmem]
        simp only [assignBlock, Matrix.of_apply]
        rw [dif_neg hcond]

/-- The scatter loops treat the three matrices independently. -/
theorem foldl_scatterLoop_body (kNormal kShear : Matrix (Fin 8) (Fin 8) K)
    (kBending : Matrix (Fin 12) (Fin 12) K) (L : List (Nat × Nat)) :
    ∀ s : LocalMatrices K,
    L.foldl (scatterLoop.body kNormal kShear kBending) s =
      { mSMNormal := L.foldl (fun M mn =>
          assignBlock 2 M (6 * mn.1 + 0) (6 * mn.2 + 0) kNormal (2 * mn.1) (2 * mn.2)) s.mSMNormal
        mSMShear := L.foldl (fun M mn =>
          assignBlock 2 M (6 * mn.1 + 0) (6 * mn.2 + 0) kShear (2 * mn.1) (2 * mn.2)) s.mSMShear
        mSMBending := L.foldl (fun M mn =>
          assignBlock 3 M (6 * mn.1 + 2) (6 * mn.2 + 2) kBending (3 * mn.1) (3 * mn.2))
          s.mSMBending } := by
  induction L with
  | nil =>
    intro s
    rfl
  | cons mn L ih =>
    intro s
    rw [List.foldl_cons, ih]
    rfl

theorem scatterPairs_bound : ∀ mn ∈ scatterPairs, mn.1 < 4 ∧ mn.2 < 4 := by decide

theorem mem_scatterPairs (r c : Fin 24) : (r.val / 6, c.val / 6) ∈ scatterPairs := by
  revert r c
  decide

theorem mem_transformationBlocks (r : Fin 24) : r.val / 3 ∈ transformationBlocks := by
  revert r
  decide

/-- The scatter loops produce the scattered matrices `scatterMembrane kNormal`,
`scatterMembrane kShear` and `scatterBending kBending`. -/
theorem scatterLoop_eq [Field K] (kNormal kShear : Matrix (Fin 8) (Fin 8) K)
    (kBending : Matrix (Fin 12) (Fin 12) K) :
    scatterLoop kNormal kShear kBending =
      { mSMNormal := scatterMembrane kNormal
        mSMShear := scatterMembrane kShear
        mSMBending := scatterBending kBending } := by
  unfold scatterLoop
  rw [foldl_scatterLoop_body, foldl_assignBlock_membrane _ _ _ scatterPairs_bound,
    foldl_assignBlock_membrane _ _ _ scatterPairs_bound,
    foldl_assignBlock_bending _ _ _ scatterPairs_bound]
  congr 1
  · ext r c
    simp only [Matrix.of_apply, scatterMembrane, mem_scatterPairs, if_true, Matrix.zero_apply]
  · ext r c
    simp only [Matrix.of_apply, scatterMembrane, mem_scatterPairs, if_true, Matrix.zero_apply]
  · ext r c
    simp only [Matrix.of_apply, scatterBending, mem_scatterPairs, if_true, Matrix.zero_apply]

/-- The loops that fill `mT` produce `transformationMatrix lambda`. -/
theorem transformationLoop_eq [Field K] (lambda : Matrix (Fin 3) (Fin 3) K) :
    transformationLoop lambda = transformationMatrix lambda := by
  unfold transformationLoop
  rw [foldl_assignBlock_transformation]
  ext r c
  simp only [Matrix.of_apply, transformationMatrix, mem_transformationBlocks, and_true,
    Matrix.zero_apply]

end LoopTheorems

/-! ## Theorems: structure of the local stiffness matrix -/

section StructureTheorems

open Matrix

variable {K : Type} [Field K]

/-- The entries of a matrix after the four assignments of the drilling
stiffness. -/
theorem addDrilling_apply (M : Matrix (Fin 24) (Fin 24) K) (r c : Fin 24) :
    addDrilling M r c
      = if r = c ∧ (r = 5 ∨ r = 11 ∨ r = 17 ∨ r = 23) then mean M else M r c := by
  have h1 : ¬ ((5 : Fin 24) = 11 ∧ (5 : Fin 24) = 11) := by decide
  have h2 : ¬ ((5 : Fin 24) = 17 ∧ (5 : Fin 24) = 17) := by decide
  have h0 : ((5 : Fin 24) = 5 ∧ (5 : Fin 24) = 5) := by decide
  simp only [addDrilling, setEntry, Matrix.of_apply, if_neg h1, if_neg h2, if_pos h0]
  by_cases h23 : r = 23 ∧ c = 23
  · obtain ⟨rfl, rfl⟩ := h23
    simp
  · rw [if_neg h23]
    by_cases h17 : r = 17 ∧ c = 17
    · obtain ⟨rfl, rfl⟩ := h17
      simp
    · rw [if_neg h17]
      by_cases h11 : r = 11 ∧ c = 11
      · obtain ⟨rfl, rfl⟩ := h11
        simp
      · rw [if_neg h11]
        by_cases h5 : r = 5 ∧ c = 5
        · obtain ⟨rfl, rfl⟩ := h5
          simp
        · rw [if_neg h5]
          have hno : ¬ (r = c ∧ (r = 5 ∨ r = 11 ∨ r = 17 ∨ r = 23)) := by
            rintro ⟨rfl, h | h | h | h⟩
            · exact h5 ⟨h, h⟩
            · exact h11 ⟨h, h⟩
            · exact h17 ⟨h, h⟩
            · exact h23 ⟨h, h⟩
          rw [if_neg hno]

/-- The entries of the sum of the scattered matrices, by node and local DOF. -/
theorem scattered_sum_apply (kN kS : Matrix (Fin 8) (Fin 8) K) (kB : Matrix (Fin 12) (Fin 12) K)
    (m n : Fin 4) (a b : Fin 6) :
    (scatterBending kB + scatterMembrane kN + scatterMembrane kS) (elementDOF m a)
        (elementDOF n b)
      = if h : a.val < 2 ∧ b.val < 2 then
          kN ⟨2 * m.val + a.val, by omega⟩ ⟨2 * n.val + b.val, by omega⟩
            + kS ⟨2 * m.val + a.val, by omega⟩ ⟨2 * n.val + b.val, by omega⟩
        else if h : (2 ≤ a.val ∧ a.val < 5) ∧ (2 ≤ b.val ∧ b.val < 5) then
          kB ⟨3 * m.val + (a.val - 2), by omega⟩ ⟨3 * n.val + (b.val - 2), by omega⟩
        else 0 := by
  have hm := m.isLt
  have hn := n.isLt
  have ha := a.isLt
  have hb := b.isLt
  simp only [Matrix.add_apply, scatterMembrane, scatterBending, Matrix.of_apply, elementDOF]
  by_cases h1 : a.val < 2 ∧ b.val < 2
  · have c1 : (6 * m.val + a.val) % 6 < 2 ∧ (6 * n.val + b.val) % 6 < 2 := by omega
    have c2 : ¬ ((2 ≤ (6 * m.val + a.val) % 6 ∧ (6 * m.val + a.val) % 6 < 5) ∧
        (2 ≤ (6 * n.val + b.val) % 6 ∧ (6 * n.val + b.val) % 6 < 5)) := by omega
    rw [dif_pos h1]
    simp only [dif_pos c1, dif_neg c2, zero_add]
    congr 2 <;>
    · apply Fin.ext
      simp only
      omega
  · have c1 : ¬ ((6 * m.val + a.val) % 6 < 2 ∧ (6 * n.val + b.val) % 6 < 2) := by omega
    rw [dif_neg h1]
    simp only [dif_neg c1, add_zero]
    by_cases h2 : (2 ≤ a.val ∧ a.val < 5) ∧ (2 ≤ b.val ∧ b.val < 5)
    · have c2 : (2 ≤ (6 * m.val + a.val) % 6 ∧ (6 * m.val + a.val) % 6 < 5) ∧
          (2 ≤ (6 * n.val + b.val) % 6 ∧ (6 * n.val + b.val) % 6 < 5) := by omega
      rw [dif_pos h2, dif_pos c2]
      congr 1 <;>
      · apply Fin.ext
        simp only
        omega
    · have c2 : ¬ ((2 ≤ (6 * m.val + a.val) % 6 ∧ (6 * m.val + a.val) % 6 < 5) ∧
          (2 ≤ (6 * n.val + b.val) % 6 ∧ (6 * n.val + b.val) % 6 < 5)) := by omega
      rw [dif_neg h2, dif_neg c2]

/-- The sum of the scattered matrices is zero in the rows and columns of the
drilling DOFs. -/
theorem scattered_sum_drilling (kN kS : Matrix (Fin 8) (Fin 8) K)
    (kB : Matrix (Fin 12) (Fin 12) K) (r c : Fin 24) (h : r.val % 6 = 5 ∨ c.val % 6 = 5) :
    (scatterBending kB + scatterMembrane kN + scatterMembrane kS) r c = 0 := by
  have c1 : ¬ (r.val % 6 < 2 ∧ c.val % 6 < 2) := by omega
  have c2 : ¬ ((2 ≤ r.val % 6 ∧ r.val % 6 < 5) ∧ (2 ≤ c.val % 6 ∧ c.val % 6 < 5)) := by omega
  simp only [Matrix.add_apply, scatterMembrane, scatterBending, Matrix.of_apply, dif_neg c1,
    dif_neg c2, add_zero]

/-! ### Main results: structure of the local stiffness matrix -/

/-- C17. For all local axes, vertices, material values and integration
abscissa, in the local combined matrix `localSM` from which the global matrix
is computed (`mSM = mTᵀ * localSM * mT`), the four diagonal entries (5,5),
(11,11), (17,17) and (23,23) are all equal to the arithmetic mean of the 576
entries of the combined local matrix before the patch (the sum of the scattered
bending, normal and shear matrices), and every other entry is the entry of the
matrix before the patch. -/
theorem drilling_patch_spec (vx vy vz : Fin 3 → K) (mVertices : Fin 4 → Fin 3 → K)
    (mE mPoisson mThickness s : K) :
    (deriveStiffnessMatrix vx vy vz mVertices mE mPoisson mThickness s).localSM 5 5
      = mean (deriveStiffnessMatrix vx vy vz mVertices mE mPoisson mThickness s).localSum ∧
    (deriveStiffnessMatrix vx vy vz mVertices mE mPoisson mThickness s).localSM 11 11
      = mean (deriveStiffnessMatrix vx vy vz mVertices mE mPoisson mThickness s).localSum ∧
    (deriveStiffnessMatrix vx vy vz mVertices mE mPoisson mThickness s).localSM 17 17
      = mean (deriveStiffnessMatrix vx vy vz mVertices mE mPoisson mThickness s).localSum ∧
    (deriveStiffnessMatrix vx vy vz mVertices mE mPoisson mThickness s).localSM 23 23
      = mean (deriveStiffnessMatrix vx vy vz mVertices mE mPoisson mThickness s).localSum ∧
    (∀ r c : Fin 24, ¬ (r = c ∧ (r = 5 ∨ r = 11 ∨ r = 17 ∨ r = 23)) →
      (deriveStiffnessMatrix vx vy vz mVertices mE mPoisson mThickness s).localSM r c
        = (deriveStiffnessMatrix vx vy vz mVertices mE mPoisson mThickness s).localSum r c) ∧
    (deriveStiffnessMatrix vx vy vz mVertices mE mPoisson mThickness s).localSum
      = (deriveStiffnessMatrix vx vy vz mVertices mE mPoisson mThickness s).localBending
        + (deriveStiffnessMatrix vx vy vz mVertices mE mPoisson mThickness s).localNormal
        + (deriveStiffnessMatrix vx vy vz mVertices mE mPoisson mThickness s).localShear ∧
    mean (deriveStiffnessMatrix vx vy vz mVertices mE mPoisson mThickness s).localSum
      = (∑ r, ∑ c, (deriveStiffnessMatrix vx vy vz mVertices mE mPoisson mThickness s).localSum r c)
        / 576 ∧
    (deriveStiffnessMatrix vx vy vz mVertices mE mPoisson mThickness s).mSM
      = (deriveStiffnessMatrix vx vy vz mVertices mE mPoisson mThickness s).mTᵀ
        * (deriveStiffnessMatrix vx vy vz mVertices mE mPoisson mThickness s).localSM
        * (deriveStiffnessMatrix vx vy vz mVertices mE mPoisson mThickness s).mT := by
  have hsm : (deriveStiffnessMatrix vx vy vz mVertices mE mPoisson mThickness s).localSM
    = addDrilling (deriveStiffnessMatrix vx vy vz mVertices mE mPoisson mThickness s).localSum :=
      rfl
  refine ⟨?_, ?_, ?_, ?_, ?_, rfl, rfl, rfl⟩
  · rw [hsm, addDrilling_apply]
    simp
  · rw [hsm, addDrilling_apply]
    simp
  · rw [hsm, addDrilling_apply]
    simp
  · rw [hsm, addDrilling_apply]
    simp
  · intro r c hrc
    rw [hsm, addDrilling_apply, if_neg hrc]

/-- C18. For all local axes, vertices, material values and integration
abscissa, the scatter loops produce the scattered normal, shear and bending
matrices, and the local combined matrix before the drilling patch is their sum:
for nodes `m`, `n` and local DOFs `a`, `b` its entry `(6m+a, 6n+b)` is
`kNormal(2m+a, 2n+b) + kShear(2m+a, 2n+b)` for `a, b` in {0,1}, is
`kBending(3m+a-2, 3n+b-2)` for `a, b` in {2,3,4}, and is 0 otherwise; every
entry in a row or column 5, 11, 17 or 23 is 0. -/
theorem local_sum_spec (vx vy vz : Fin 3 → K) (mVertices : Fin 4 → Fin 3 → K)
    (mE mPoisson mThickness s : K) :
    scatterLoop
        (kNormal (localCoordinates (lambdaMatrix vx vy vz) mVertices) mE mPoisson mThickness s)
        (kShear (localCoordinates (lambdaMatrix vx vy vz) mVertices) mE mPoisson mThickness s)
        (kBending (localCoordinates (lambdaMatrix vx vy vz) mVertices) mE mPoisson mThickness s)
      = { mSMNormal :=
            (deriveStiffnessMatrix vx vy vz mVertices mE mPoisson mThickness s).localNormal
          mSMShear :=
            (deriveStiffnessMatrix vx vy vz mVertices mE mPoisson mThickness s).localShear
          mSMBending :=
            (deriveStiffnessMatrix vx vy vz mVertices mE mPoisson mThickness s).localBending } ∧
    (deriveStiffnessMatrix vx vy vz mVertices mE mPoisson mThickness s).localSum
      = (deriveStiffnessMatrix vx vy vz mVertices mE mPoisson mThickness s).localBending
        + (deriveStiffnessMatrix vx vy vz mVertices mE mPoisson mThickness s).localNormal
        + (deriveStiffnessMatrix vx vy vz mVertices mE mPoisson mThickness s).localShear ∧
    (∀ (m n : Fin 4) (a b : Fin 6),
      (deriveStiffnessMatrix vx vy vz mVertices mE mPoisson mThickness s).localSum (elementDOF m a)
          (elementDOF n b)
        = if h : a.val < 2 ∧ b.val < 2 then
            kNormal (localCoordinates (lambdaMatrix vx vy vz) mVertices) mE mPoisson mThickness s
                ⟨2 * m.val + a.val, by omega⟩ ⟨2 * n.val + b.val, by omega⟩
              + kShear (localCoordinates (lambdaMatrix vx vy vz) mVertices) mE mPoisson mThickness s
                ⟨2 * m.val + a.val, by omega⟩ ⟨2 * n.val + b.val, by omega⟩
          else if h : (2 ≤ a.val ∧ a.val < 5) ∧ (2 ≤ b.val ∧ b.val < 5) then
            kBending (localCoordinates (lambdaMatrix vx vy vz) mVertices) mE mPoisson mThickness s
              ⟨3 * m.val + (a.val - 2), by omega⟩ ⟨3 * n.val + (b.val - 2), by omega⟩
          else 0) ∧
    (∀ r c : Fin 24, (r.val % 6 = 5 ∨ c.val % 6 = 5) →
        (deriveStiffnessMatrix vx vy vz mVertices mE mPoisson mThickness s).localSum r c = 0) := by
  refine ⟨scatterLoop_eq _ _ _, rfl, ?_, ?_⟩
  · intro m n a b
    exact scattered_sum_apply _ _ _ m n a b
  · intro r c h
    exact scattered_sum_drilling _ _ _ r c h

end StructureTheorems

/-! ## Theorems: local frame and transformation matrix -/

section TransformationTheorems

open Matrix

variable {K : Type} [Field K]

theorem dot_three (u v : Fin 3 → K) : u ⬝ᵥ v = u 0 * v 0 + u 1 * v 1 + u 2 * v 2 := by
  simp only [Matrix.dotProduct, Fin.sum_univ_three]

theorem normalize_dot_self (rt : K → K) (v : Fin 3 → K) (h : v ⬝ᵥ v ≠ 0)
    (hrt : rt (v ⬝ᵥ v) * rt (v ⬝ᵥ v) = v ⬝ᵥ v) : normalize rt v ⬝ᵥ normalize rt v = 1 := by
  have ha : rt (v ⬝ᵥ v) ≠ 0 := by
    intro h0
    rw [h0, mul_zero] at hrt
    exact h hrt.symm
  rw [dot_three] at hrt
  simp only [dot_three, normalize] at ha ⊢
  field_simp
  linear_combination -hrt

theorem normalize_dot_normalize (rt : K → K) (u v : Fin 3 → K) (h : u ⬝ᵥ v = 0) :
    normalize rt u ⬝ᵥ normalize rt v = 0 := by
  rw [dot_three] at h
  simp only [dot_three, normalize]
  rw [div_mul_div_comm, div_mul_div_comm, div_mul_div_comm, ← add_div, ← add_div, h, zero_div]

theorem cross_dot_left (a b : Fin 3 → K) : cross a b ⬝ᵥ a = 0 := by
  simp only [dot_three, cross, Matrix.cons_val_zero, Matrix.cons_val_one, Matrix.head_cons,
    Matrix.cons_val_two, Matrix.tail_cons]
  ring

theorem cross_dot_right (a b : Fin 3 → K) : cross a b ⬝ᵥ b = 0 := by
  simp only [dot_three, cross, Matrix.cons_val_zero, Matrix.cons_val_one, Matrix.head_cons,
    Matrix.cons_val_two, Matrix.tail_cons]
  ring

theorem cross_dot_self (a b : Fin 3 → K) :
    cross a b ⬝ᵥ cross a b = (a ⬝ᵥ a) * (b ⬝ᵥ b) - (a ⬝ᵥ b) * (a ⬝ᵥ b) := by
  simp only [dot_three, cross, Matrix.cons_val_zero, Matrix.cons_val_one, Matrix.head_cons,
    Matrix.cons_val_two, Matrix.tail_cons]
  ring

theorem normalize_dot_left (rt : K → K) (u v : Fin 3 → K) (h : u ⬝ᵥ v = 0) :
    normalize rt u ⬝ᵥ v = 0 := by
  rw [dot_three] at h
  simp only [dot_three, normalize]
  rw [div_mul_eq_mul_div, div_mul_eq_mul_div, div_mul_eq_mul_div, ← add_div, ← add_div, h,
    zero_div]

theorem dot_comm3 (u v : Fin 3 → K) : u ⬝ᵥ v = v ⬝ᵥ u := Matrix.dotProduct_comm u v

theorem lambdaMatrix_orthonormal (vx vy vz : Fin 3 → K)
    (hxx : vx ⬝ᵥ vx = 1) (hyy : vy ⬝ᵥ vy = 1) (hzz : vz ⬝ᵥ vz = 1)
    (hxy : vx ⬝ᵥ vy = 0) (hxz : vx ⬝ᵥ vz = 0) (hyz : vy ⬝ᵥ vz = 0) :
    (lambdaMatrix vx vy vz)ᵀ * lambdaMatrix vx vy vz = 1 := by
  have hyx : vy ⬝ᵥ vx = 0 := by rw [dot_comm3, hxy]
  have hzx : vz ⬝ᵥ vx = 0 := by rw [dot_comm3, hxz]
  have hzy : vz ⬝ᵥ vy = 0 := by rw [dot_comm3, hyz]
  have key : ∀ i j : Fin 3, ((lambdaMatrix vx vy vz)ᵀ * lambdaMatrix vx vy vz) i j
      = ![vx, vy, vz] i ⬝ᵥ ![vx, vy, vz] j := by
    intro i j
    simp only [Matrix.mul_apply, Matrix.transpose_apply, lambdaMatrix, Matrix.of_apply,
      Matrix.dotProduct]
  ext i j
  rw [key]
  fin_cases i <;> fin_cases j <;> simp [hxx, hyy, hzz, hxy, hxz, hyz, hyx, hzx, hzy]

/-- The local axes are unit vectors that are perpendicular to each other. -/
theorem localAxes_orthonormal (rt : K → K) (d n : Fin 3 → K)
    (hd : d ⬝ᵥ d ≠ 0) (hn : n ⬝ᵥ n ≠ 0) (hp : d ⬝ᵥ n = 0)
    (hrd : rt (d ⬝ᵥ d) * rt (d ⬝ᵥ d) = d ⬝ᵥ d) (hrn : rt (n ⬝ᵥ n) * rt (n ⬝ᵥ n) = n ⬝ᵥ n)
    (h1 : rt 1 * rt 1 = 1) :
    normalize rt d ⬝ᵥ normalize rt d = 1 ∧
    normalize rt (cross (normalize rt n) (normalize rt d))
      ⬝ᵥ normalize rt (cross (normalize rt n) (normalize rt d)) = 1 ∧
    normalize rt n ⬝ᵥ normalize rt n = 1 ∧
    normalize rt d ⬝ᵥ normalize rt (cross (normalize rt n) (normalize rt d)) = 0 ∧
    normalize rt d ⬝ᵥ normalize rt n = 0 ∧
    normalize rt (cross (normalize rt n) (normalize rt d)) ⬝ᵥ normalize rt n = 0 := by
  have hxx := normalize_dot_self rt d hd hrd
  have hzz := normalize_dot_self rt n hn hrn
  have hxz := normalize_dot_normalize rt d n hp
  have hzx : normalize rt n ⬝ᵥ normalize rt d = 0 := by rw [dot_comm3, hxz]
  have hcc : cross (normalize rt n) (normalize rt d) ⬝ᵥ cross (normalize rt n) (normalize rt d)
      = 1 := by
    rw [cross_dot_self, hxx, hzz, hzx]
    ring
  have hyy := normalize_dot_self rt (cross (normalize rt n) (normalize rt d))
    (by rw [hcc]; exact one_ne_zero) (by rw [hcc]; exact h1)
  have hyx := normalize_dot_left rt _ _ (cross_dot_right (normalize rt n) (normalize rt d))
  have hyz := normalize_dot_left rt _ _ (cross_dot_left (normalize rt n) (normalize rt d))
  exact ⟨hxx, hyy, hzz, by rw [dot_comm3, hyx], hxz, hyz⟩

/-- The product of the transformation matrix of an orthonormal `lambda` and
its transpose is the identity. -/
theorem transformationMatrix_mul_transpose (lambda : Matrix (Fin 3) (Fin 3) K)
    (h : lambdaᵀ * lambda = 1) :
    transformationMatrix lambda * (transformationMatrix lambda)ᵀ = 1 := by
  ext r c
  simp only [Matrix.mul_apply, Matrix.transpose_apply]
  rw [sum_eq_sum_comp_of_injective
    (fun j : Fin 3 => (⟨3 * (r.val / 3) + j.val, by omega⟩ : Fin 24))]
  · by_cases hrc : r.val / 3 = c.val / 3
    · have hsum : ∀ j : Fin 3,
          transformationMatrix lambda r ⟨3 * (r.val / 3) + j.val, by omega⟩
            * transformationMatrix lambda c ⟨3 * (r.val / 3) + j.val, by omega⟩
          = lambdaᵀ ⟨r.val % 3, Nat.mod_lt _ (by decide)⟩ j
            * lambda j ⟨c.val % 3, Nat.mod_lt _ (by decide)⟩ := by
        intro j
        have hdr : r.val / 3 = (3 * (r.val / 3) + j.val) / 3 := by omega
        have hdc : c.val / 3 = (3 * (r.val / 3) + j.val) / 3 := by omega
        have e2 : (⟨(3 * (r.val / 3) + j.val) % 3, Nat.mod_lt _ (by decide)⟩ : Fin 3) = j :=
          Fin.ext (by
            show (3 * (r.val / 3) + j.val) % 3 = j.val
            omega)
        simp only [transformationMatrix, Matrix.of_apply]
        rw [if_pos hdr, if_pos hdc, e2]
        rfl
      rw [Finset.sum_congr rfl (fun j _ => hsum j), ← Matrix.mul_apply, h]
      by_cases hmod : r.val % 3 = c.val % 3
      · have hrceq : r = c := Fin.ext (by omega)
        have hmeq : (⟨r.val % 3, Nat.mod_lt _ (by decide)⟩ : Fin 3)
            = ⟨c.val % 3, Nat.mod_lt _ (by decide)⟩ := Fin.ext hmod
        rw [hmeq, hrceq, Matrix.one_apply_eq, Matrix.one_apply_eq]
      · have hne : r ≠ c := fun he => hmod (by rw [he])
        rw [Matrix.one_apply_ne hne, Matrix.one_apply_ne (fun he => hmod (congrArg Fin.val he))]
    · have hne : r ≠ c := fun he => hrc (by rw [he])
      rw [Matrix.one_apply_ne hne]
      apply Finset.sum_eq_zero
      intro j _
      have hdc : ¬ c.val / 3 = (3 * (r.val / 3) + j.val) / 3 := by omega
      simp only [transformationMatrix, Matrix.of_apply]
      rw [if_neg hdc, mul_zero]
  · intro a b hab
    have := congrArg Fin.val hab
    simp only at this
    apply Fin.ext
    omega
  · intro k hk
    have hne : ¬ r.val / 3 = k.val / 3 := by
      intro heq
      apply hk ⟨k.val % 3, Nat.mod_lt _ (by decide)⟩
      apply Fin.ext
      show 3 * (r.val / 3) + k.val % 3 = k.val
      omega
    simp only [transformationMatrix, Matrix.of_apply]
    rw [if_neg hne, zero_mul]


/-- The transformation matrix by block number and position in the block. -/
theorem transformationMatrix_block (lambda : Matrix (Fin 3) (Fin 3) K) (b1 b2 : Fin 8)
    (i j : Fin 3) :
    transformationMatrix lambda ⟨3 * b1.val + i.val, by omega⟩ ⟨3 * b2.val + j.val, by omega⟩
      = if b1 = b2 then lambdaᵀ i j else 0 := by
  have e1 : (⟨(3 * b1.val + i.val) % 3, Nat.mod_lt _ (by decide)⟩ : Fin 3) = i :=
    Fin.ext (by
      show (3 * b1.val + i.val) % 3 = i.val
      omega)
  have e2 : (⟨(3 * b2.val + j.val) % 3, Nat.mod_lt _ (by decide)⟩ : Fin 3) = j :=
    Fin.ext (by
      show (3 * b2.val + j.val) % 3 = j.val
      omega)
  simp only [transformationMatrix, Matrix.of_apply]
  by_cases hb : b1 = b2
  · have hdiv : (3 * b1.val + i.val) / 3 = (3 * b2.val + j.val) / 3 := by
      rw [hb]
      omega
    rw [if_pos hdiv, if_pos hb, e1, e2]
  · have hdiv : ¬ (3 * b1.val + i.val) / 3 = (3 * b2.val + j.val) / 3 := by
      intro h
      apply hb
      apply Fin.ext
      omega
    rw [if_neg hdiv, if_neg hb]

end TransformationTheorems

section FrameTheorems

open Matrix

variable {K : Type} [LinearOrderedField K]

/-! ### Main result: orthogonality of the transformation -/

/-- C19. For every element whose local x direction `d` (from the centre to the
middle of the edge between the vertices 1 and 2) is nonzero and perpendicular
to the nonzero normal, with `rt` a square root at `d·d`, at `normal·normal` and
at 1, and `vx`, `vy`, `vz` the local axes derived from them: the loops that
fill `mT` produce the matrix `mT` of `deriveStiffnessMatrix`; this matrix has
`lambdaᵀ` on each of its 8 diagonal 3x3 blocks and 0 everywhere else, where the
columns of `lambda` are `vx`, `vy`, `vz`; the axes are unit vectors
perpendicular to each other; and `mT * mTᵀ` is the 24x24 identity in exact
arithmetic. -/
theorem transformation_orthogonal_spec (rt : K → K) (center normal : Fin 3 → K)
    (mVertices : Fin 4 → Fin 3 → K) (mE mPoisson mThickness s : K) (vx vy vz : Fin 3 → K)
    (hA : localAxes rt center normal mVertices = (vx, vy, vz))
    (hd : localXDirection center mVertices ≠ 0) (hn : normal ≠ 0)
    (hp : localXDirection center mVertices ⬝ᵥ normal = 0)
    (hrd : rt (localXDirection center mVertices ⬝ᵥ localXDirection center mVertices)
        * rt (localXDirection center mVertices ⬝ᵥ localXDirection center mVertices)
      = localXDirection center mVertices ⬝ᵥ localXDirection center mVertices)
    (hrn : rt (normal ⬝ᵥ normal) * rt (normal ⬝ᵥ normal) = normal ⬝ᵥ normal)
    (h1 : rt 1 * rt 1 = 1) :
    transformationLoop (lambdaMatrix vx vy vz)
      = (deriveStiffnessMatrix vx vy vz mVertices mE mPoisson mThickness s).mT ∧
    (∀ (b1 b2 : Fin 8) (i j : Fin 3),
      (deriveStiffnessMatrix vx vy vz mVertices mE mPoisson mThickness s).mT
          ⟨3 * b1.val + i.val, by omega⟩ ⟨3 * b2.val + j.val, by omega⟩
        = if b1 = b2 then (lambdaMatrix vx vy vz)ᵀ i j else 0) ∧
    (∀ i j : Fin 3, lambdaMatrix vx vy vz i j = ![vx, vy, vz] j i) ∧
    (vx ⬝ᵥ vx = 1 ∧ vy ⬝ᵥ vy = 1 ∧ vz ⬝ᵥ vz = 1 ∧
      vx ⬝ᵥ vy = 0 ∧ vx ⬝ᵥ vz = 0 ∧ vy ⬝ᵥ vz = 0) ∧
    (deriveStiffnessMatrix vx vy vz mVertices mE mPoisson mThickness s).mT
        * (deriveStiffnessMatrix vx vy vz mVertices mE mPoisson mThickness s).mTᵀ = 1 := by
  have hd2 : localXDirection center mVertices ⬝ᵥ localXDirection center mVertices ≠ 0 :=
    fun h => hd (Matrix.dotProduct_self_eq_zero.1 h)
  have hn2 : normal ⬝ᵥ normal ≠ 0 := fun h => hn (Matrix.dotProduct_self_eq_zero.1 h)
  have hO := localAxes_orthonormal rt (localXDirection center mVertices) normal hd2 hn2 hp
    hrd hrn h1
  simp only [localAxes, Prod.mk.injEq] at hA
  obtain ⟨hx, hy, hz⟩ := hA
  rw [hx, hz] at hy
  rw [hx, hz] at hO
  rw [hy] at hO
  obtain ⟨hxx, hyy, hzz, hxy, hxz, hyz⟩ := hO
  refine ⟨transformationLoop_eq _, ?_, fun _ _ => rfl, ⟨hxx, hyy, hzz, hxy, hxz, hyz⟩, ?_⟩
  · intro b1 b2 i j
    exact transformationMatrix_block _ b1 b2 i j
  · exact transformationMatrix_mul_transpose _
      (lambdaMatrix_orthonormal vx vy vz hxx hyy hzz hxy hxz hyz)

/-- The local x direction of the centred square before it is normalised. -/
theorem exampleDirection_eq : localXDirection (fun _ => 0) exampleCentredVertices = ![1, 0, 0] := by
  funext i
  fin_cases i <;> simp [localXDirection, exampleCentredVertices, Matrix.vecHead, Matrix.vecTail]

/-- C19 (witness): the square of side 2 centred at the origin, with normal
`(0, 0, 1)`. -/
theorem transformation_orthogonal_spec_witness :
    localXDirection (fun _ => 0) exampleCentredVertices ≠ 0 ∧
    (![0, 0, 1] : Fin 3 → ℚ) ≠ 0 ∧
    localXDirection (fun _ => 0) exampleCentredVertices ⬝ᵥ ![0, 0, 1] = 0 ∧
    (deriveStiffnessMatrix exampleAxes.1 exampleAxes.2.1 exampleAxes.2.2 exampleCentredVertices
        1 0 1 (1 / 2)).mT
      * (deriveStiffnessMatrix exampleAxes.1 exampleAxes.2.1 exampleAxes.2.2
        exampleCentredVertices 1 0 1 (1 / 2)).mTᵀ = 1 :=
  have hd : localXDirection (fun _ => 0) exampleCentredVertices ≠ 0 := fun h => by
    have h0 := congrFun h 0
    rw [exampleDirection_eq] at h0
    simp at h0
  have hn : (![0, 0, 1] : Fin 3 → ℚ) ≠ 0 := fun h => by
    have h2 := congrFun h 2
    simp at h2
  have hp : localXDirection (fun _ => 0) exampleCentredVertices ⬝ᵥ ![0, 0, 1] = 0 := by
    rw [exampleDirection_eq]
    simp [dot_three]
  ⟨hd, hn, hp,
    (transformation_orthogonal_spec exampleRoot (fun _ => 0) ![0, 0, 1] exampleCentredVertices 1 0 1
        (1 / 2)
      exampleAxes.1 exampleAxes.2.1 exampleAxes.2.2 rfl hd hn hp
      (by
        rw [exampleDirection_eq]
        simp [dot_three, exampleRoot])
      (by simp [dot_three, exampleRoot])
      (by simp [exampleRoot])).2.2.2.2⟩

end FrameTheorems

/-! ## Theorems: decomposition of the combined stiffness matrix -/

section DecompositionTheorems

open Matrix

variable {K : Type} [Field K]

/-- On a matrix that is zero in the rows and columns of the drilling DOFs, the
drilling assignments add the drilling matrix. -/
theorem addDrilling_eq_add (M : Matrix (Fin 24) (Fin 24) K)
    (h : ∀ r c : Fin 24, (r.val % 6 = 5 ∨ c.val % 6 = 5) → M r c = 0) :
    addDrilling M = M + drillingMatrix (mean M) := by
  ext r c
  rw [addDrilling_apply, Matrix.add_apply]
  simp only [drillingMatrix, Matrix.of_apply]
  by_cases hd : r = c ∧ r.val % 6 = 5
  · have hd2 : r = c ∧ (r = 5 ∨ r = 11 ∨ r = 17 ∨ r = 23) := by
      refine ⟨hd.1, ?_⟩
      have hr := r.isLt
      have h5 := hd.2
      have hv : r.val = 5 ∨ r.val = 11 ∨ r.val = 17 ∨ r.val = 23 := by omega
      rcases hv with hv | hv | hv | hv
      · exact Or.inl (Fin.ext hv)
      · exact Or.inr (Or.inl (Fin.ext hv))
      · exact Or.inr (Or.inr (Or.inl (Fin.ext hv)))
      · exact Or.inr (Or.inr (Or.inr (Fin.ext hv)))
    rw [if_pos hd, if_pos hd2, h r c (Or.inl hd.2), zero_add]
  · have hd2 : ¬ (r = c ∧ (r = 5 ∨ r = 11 ∨ r = 17 ∨ r = 23)) := by
      rintro ⟨hrc, hr | hr | hr | hr⟩
      · exact hd ⟨hrc, by rw [hr]; rfl⟩
      · exact hd ⟨hrc, by rw [hr]; rfl⟩
      · exact hd ⟨hrc, by rw [hr]; rfl⟩
      · exact hd ⟨hrc, by rw [hr]; rfl⟩
    rw [if_neg hd, if_neg hd2, add_zero]

/-- The global combined matrix is the sum of the global partial matrices and
the transformed drilling matrix. -/
theorem deriveStiffnessMatrix_decomposition (vx vy vz : Fin 3 → K)
    (mVertices : Fin 4 → Fin 3 → K) (mE mPoisson mThickness s : K) :
    (deriveStiffnessMatrix vx vy vz mVertices mE mPoisson mThickness s).mSM
      = (deriveStiffnessMatrix vx vy vz mVertices mE mPoisson mThickness s).mSMBending
        + (deriveStiffnessMatrix vx vy vz mVertices mE mPoisson mThickness s).mSMNormal
        + (deriveStiffnessMatrix vx vy vz mVertices mE mPoisson mThickness s).mSMShear
      + (deriveStiffnessMatrix vx vy vz mVertices mE mPoisson mThickness s).mTᵀ
          * drillingMatrix (mean
          (deriveStiffnessMatrix vx vy vz mVertices mE mPoisson mThickness s).localSum)
          * (deriveStiffnessMatrix vx vy vz mVertices mE mPoisson mThickness s).mT := by
  have hsum : addDrilling
      (deriveStiffnessMatrix vx vy vz mVertices mE mPoisson mThickness s).localSum
      = (deriveStiffnessMatrix vx vy vz mVertices mE mPoisson mThickness s).localSum
          + drillingMatrix (mean
          (deriveStiffnessMatrix vx vy vz mVertices mE mPoisson mThickness s).localSum) :=
    addDrilling_eq_add _ (fun r c h => scattered_sum_drilling _ _ _ r c h)
  show (deriveStiffnessMatrix vx vy vz mVertices mE mPoisson mThickness s).mTᵀ
      * addDrilling (deriveStiffnessMatrix vx vy vz mVertices mE mPoisson mThickness s).localSum
      * (deriveStiffnessMatrix vx vy vz mVertices mE mPoisson mThickness s).mT = _
  rw [hsum]
  show (deriveStiffnessMatrix vx vy vz mVertices mE mPoisson mThickness s).mTᵀ
      * ((deriveStiffnessMatrix vx vy vz mVertices mE mPoisson mThickness s).localBending
      + (deriveStiffnessMatrix vx vy vz mVertices mE mPoisson mThickness s).localNormal
      + (deriveStiffnessMatrix vx vy vz mVertices mE mPoisson mThickness s).localShear
      + drillingMatrix (mean
          (deriveStiffnessMatrix vx vy vz mVertices mE mPoisson mThickness s).localSum))
          * (deriveStiffnessMatrix vx vy vz mVertices mE mPoisson mThickness s).mT
    = (deriveStiffnessMatrix vx vy vz mVertices mE mPoisson mThickness s).mTᵀ
        * (deriveStiffnessMatrix vx vy vz mVertices mE mPoisson mThickness s).localBending
        * (deriveStiffnessMatrix vx vy vz mVertices mE mPoisson mThickness s).mT
        + (deriveStiffnessMatrix vx vy vz mVertices mE mPoisson mThickness s).mTᵀ
        * (deriveStiffnessMatrix vx vy vz mVertices mE mPoisson mThickness s).localNormal
        * (deriveStiffnessMatrix vx vy vz mVertices mE mPoisson mThickness s).mT
      + (deriveStiffnessMatrix vx vy vz mVertices mE mPoisson mThickness s).mTᵀ
          * (deriveStiffnessMatrix vx vy vz mVertices mE mPoisson mThickness s).localShear
          * (deriveStiffnessMatrix vx vy vz mVertices mE mPoisson mThickness s).mT
      + (deriveStiffnessMatrix vx vy vz mVertices mE mPoisson mThickness s).mTᵀ
          * drillingMatrix (mean
          (deriveStiffnessMatrix vx vy vz mVertices mE mPoisson mThickness s).localSum)
          * (deriveStiffnessMatrix vx vy vz mVertices mE mPoisson mThickness s).mT
  simp only [Matrix.mul_add, Matrix.add_mul]

/-- The state after `computeResponse` on four bound nodes that hold
displacement vectors. -/
theorem computeResponse_ok (e : flat_shell K) (lc : load_case) (nodes : Fin 4 → node K)
    (disp : Fin 4 → Fin 6 → K) (hEFS : e.mEFS = flatShellEFS)
    (hnodes : e.mNodes = [nodes 0, nodes 1, nodes 2, nodes 3])
    (hdisp : ∀ n, (nodes n).getDisplacements lc = .ok (disp n)) :
    ∃ (e' : flat_shell K) (d : Fin 24 → K), e.computeResponse lc = .ok e' ∧
      (∀ (n : Fin 4) (j : Fin 6), d (elementDOF n j) = disp n j) ∧
      e'.mEnergies.find lc = some (halfQuadraticForm e.mSM d) ∧
      (e'.mSeparatedEnergies.find lc).bind (fun m => m.find "normal")
        = some (halfQuadraticForm e.mSMNormal d) ∧
      (e'.mSeparatedEnergies.find lc).bind (fun m => m.find "shear")
        = some (halfQuadraticForm e.mSMShear d) ∧
      (e'.mSeparatedEnergies.find lc).bind (fun m => m.find "bending")
        = some (halfQuadraticForm e.mSMBending d) := by
  obtain ⟨B, hB, hBd⟩ := computeResponse_outerLoop_ok e lc nodes disp hEFS hdisp
  have hns : ("normal" : String) ≠ "shear" := by decide
  have hnb : ("normal" : String) ≠ "bending" := by decide
  have hsb : ("shear" : String) ≠ "bending" := by decide
  refine ⟨{ e with
      mDisplacements := e.mDisplacements.assign lc B
      mEnergies := e.mEnergies.assign lc (halfQuadraticForm e.mSM B)
      mTotalEnergy := e.mTotalEnergy + halfQuadraticForm e.mSM B
      mSeparatedEnergies :=
        assignSeparated
          (assignSeparated
            (assignSeparated e.mSeparatedEnergies lc "normal" (halfQuadraticForm e.mSMNormal B))
            lc "shear" (halfQuadraticForm e.mSMShear B))
          lc "bending" (halfQuadraticForm e.mSMBending B) },
    B, ?_, fun n j => hBd n j, ?_, ?_, ?_, ?_⟩
  · simp only [flat_shell.computeResponse, hnodes, hB]
  · simp [StdMap.find, StdMap.assign]
  · simp [assignSeparated, StdMap.find, StdMap.assign, hns, hnb]
  · simp [assignSeparated, StdMap.find, StdMap.assign, hsb]
  · simp [assignSeparated, StdMap.find, StdMap.assign]

/-! ### Main result: decomposition of the combined matrix and of the energy -/

end DecompositionTheorems

/-! ## Theorems: displacement scalars and numbering order -/

section NumberingOrderTheorems

variable {K : Type}

/-- A node has at most 6 active-and-unconstrained DOFs. -/
theorem node.freeCount_le (n : node K) : n.freeCount ≤ 6 := by
  unfold node.freeCount node.freeBefore node.freeBeforeIn
  exact le_trans (List.length_filter_le _ _) (by simp)

/-- The difference of two `unsigned long` values, taken in `unsigned long`
arithmetic, undoes the addition in `unsigned long` arithmetic. -/
theorem unsigned_difference (c r : Nat) (hc : c < ULONG_MODULUS) (hr : r < ULONG_MODULUS) :
    ((c + r) % ULONG_MODULUS + ULONG_MODULUS - c) % ULONG_MODULUS = r := by
  unfold ULONG_MODULUS at hc hr ⊢
  omega

/-- The vectors stored by `addDisplacements` for the entries of the supplied
map. -/
theorem addDisplacements_stored [Zero K] (n : node K) (ds : List (load_case × List K))
    (hkeys : (ds.map Prod.fst).Nodup) (hlen : ∀ e ∈ ds, n.freeCount ≤ e.2.length) :
    ∃ n' : node K, n.addDisplacements ds = .ok n' ∧
      ∀ e ∈ ds, n'.mDisplacements.find e.1
        = some (fun j => if n.free j then (e.2[n.freeBefore j.val]?).getD 0 else 0) := by
  have hloop := addDisplacements_outer_loop ds { n with mDisplacements := StdMap.empty } hkeys
    hlen
  refine ⟨{ n with mDisplacements := fun lc =>
      match ds.find? (fun e => decide (e.1 = lc)) with
      | some e => some (fun j => if n.free j then (e.2[n.freeBefore j.val]?).getD 0 else 0)
      | none => none }, ?_, ?_⟩
  · unfold node.addDisplacements
    rw [hloop]
    rfl
  · intro e he
    simp only [StdMap.find]
    cases hfind : ds.find? (fun e' => decide (e'.1 = e.1)) with
    | none =>
      have := List.find?_eq_none.1 hfind e he
      simp at this
    | some e' =>
      have h1 : e'.1 = e.1 := by simpa using List.find?_some hfind
      have h2 : e' ∈ ds := List.mem_of_find?_eq_some hfind
      have heq : e' = e := List.inj_on_of_nodup_map hkeys h2 he h1
      subst heq
      rfl

/-- The result of `getGlobalDOF` at an active-and-unconstrained local DOF that
has an entry in the numbering map. -/
theorem getGlobalDOF_of_free (n : node K) (i : Fin 6) (hi : n.free i) (g : Nat)
    (hg : n.mNFT.find i.val = some g) : n.getGlobalDOF i.val = .ok g := by
  have h5 : ¬ i.val > 5 := by
    have := i.isLt
    omega
  have hflags : ¬ (n.mNFS ⟨i.val, i.isLt⟩ = 0 ∨ n.mConstraints ⟨i.val, i.isLt⟩ = 1) := by
    have h1 : n.mNFS i = 1 := hi.1
    have h2 : n.mConstraints i = 0 := hi.2
    show ¬ (n.mNFS i = 0 ∨ n.mConstraints i = 1)
    rw [h1, h2]
    decide
  unfold node.getGlobalDOF
  rw [dif_neg h5, if_neg hflags, hg]

/-! ### Main result: the order in which displacement scalars are consumed -/

/-- C21. For every node state `m` whose numbering is the one `generateNFT` made
from counter value `c` on a node `n` and whose freedom signature and
constraints are those of `n`, and every supplied map (its keys are distinct) in
which each vector `v` has as many entries as the node has
active-and-unconstrained DOFs, `addDisplacements` returns, and the 6-vector it
stores for a load case has at each active-and-unconstrained local DOF `i` the
scalar `v[getGlobalDOF(i) - c]`, the difference being taken in `unsigned long`
arithmetic; when the counter did not wrap around (`c + count <= 2^64`) it is
the plain difference. -/
theorem addDisplacements_follows_numbering [Zero K] (n m : node K) (c : Nat)
    (hc : c < ULONG_MODULUS) (hNFS : m.mNFS = n.mNFS) (hCon : m.mConstraints = n.mConstraints)
    (hNFT : m.mNFT = (n.generateNFT c).1.mNFT) (ds : List (load_case × List K))
    (hkeys : (ds.map Prod.fst).Nodup) (hlen : ∀ e ∈ ds, e.2.length = m.freeCount) :
    ∃ m' : node K, m.addDisplacements ds = .ok m' ∧
      ∀ e ∈ ds, ∃ d : Fin 6 → K, m'.mDisplacements.find e.1 = some d ∧
        ∀ i : Fin 6, m.free i → ∃ g : Nat, m.getGlobalDOF i.val = .ok g ∧
          e.2[(g + ULONG_MODULUS - c) % ULONG_MODULUS]? = some (d i) ∧
          (c + m.freeCount ≤ ULONG_MODULUS → c ≤ g ∧ e.2[g - c]? = some (d i)) := by
  obtain ⟨m', hrun, hst⟩ := addDisplacements_stored m ds hkeys
    (fun e he => le_of_eq (hlen e he).symm)
  have hfree : ∀ i, m.free i → n.free i := by
    intro i hi
    have h1 : m.mNFS i = 1 := hi.1
    have h2 : m.mConstraints i = 0 := hi.2
    rw [hNFS] at h1
    rw [hCon] at h2
    exact ⟨h1, h2⟩
  have hbefore : ∀ k, n.freeBefore k = m.freeBefore k := by
    intro k
    unfold node.freeBefore node.freeBeforeIn
    congr 2
    funext j
    simp only [node.free, hNFS, hCon]
  refine ⟨m', hrun, fun e he => ⟨_, hst e he, fun i hi => ?_⟩⟩
  have hg : m.mNFT.find i.val = some ((c + m.freeBefore i.val) % ULONG_MODULUS) := by
    rw [hNFT, generateNFT_find_free n c hc i (hfree i hi), hbefore]
  have hlt : m.freeBefore i.val < m.freeCount := m.freeBefore_lt_freeCount i hi
  have hcount := m.freeCount_le
  have hrM : m.freeBefore i.val < ULONG_MODULUS := by
    unfold ULONG_MODULUS
    omega
  have hval : e.2[m.freeBefore i.val]?
      = some ((fun j => if m.free j then (e.2[m.freeBefore j.val]?).getD 0 else 0) i) := by
    have hlt2 : m.freeBefore i.val < e.2.length := by
      rw [hlen e he]
      exact hlt
    simp only [hi, if_true, List.getElem?_eq_getElem hlt2, Option.getD_some]
  refine ⟨_, getGlobalDOF_of_free m i hi _ hg, ?_, ?_⟩
  · rw [unsigned_difference c _ hc hrM]
    exact hval
  · intro hno
    have hmod : (c + m.freeBefore i.val) % ULONG_MODULUS = c + m.freeBefore i.val :=
      Nat.mod_eq_of_lt (by omega)
    rw [hmod]
    refine ⟨by omega, ?_⟩
    rw [Nat.add_sub_cancel_left]
    exact hval

/-- C21 (witness): the example node (two active-and-unconstrained DOFs)
numbered from counter value 3, and one load case with the vector `(3, 4)`. -/
theorem addDisplacements_follows_numbering_witness :
    (3 : Nat) < ULONG_MODULUS ∧
    (([((7 : load_case), [(3 : ℚ), 4])] : List (load_case × List ℚ)).map Prod.fst).Nodup ∧
    (∀ e ∈ ([((7 : load_case), [(3 : ℚ), 4])] : List (load_case × List ℚ)),
      e.2.length = (exampleNode.generateNFT 3).1.freeCount) ∧
    ∃ m' : node ℚ,
      (exampleNode.generateNFT 3).1.addDisplacements [((7 : load_case), [(3 : ℚ), 4])]
        = .ok m' ∧
      ∀ e ∈ ([((7 : load_case), [(3 : ℚ), 4])] : List (load_case × List ℚ)),
        ∃ d : Fin 6 → ℚ, m'.mDisplacements.find e.1 = some d ∧
          ∀ i : Fin 6, (exampleNode.generateNFT 3).1.free i →
            ∃ g : Nat, (exampleNode.generateNFT 3).1.getGlobalDOF i.val = .ok g ∧
              e.2[(g + ULONG_MODULUS - 3) % ULONG_MODULUS]? = some (d i) ∧
              (3 + (exampleNode.generateNFT 3).1.freeCount ≤ ULONG_MODULUS →
                3 ≤ g ∧ e.2[g - 3]? = some (d i)) :=
  have hc : (3 : Nat) < ULONG_MODULUS := by decide
  have hk : (([((7 : load_case), [(3 : ℚ), 4])] : List (load_case × List ℚ)).map
      Prod.fst).Nodup := by decide
  have hl : ∀ e ∈ ([((7 : load_case), [(3 : ℚ), 4])] : List (load_case × List ℚ)),
      e.2.length = (exampleNode.generateNFT 3).1.freeCount := by
    intro e he
    rw [List.mem_singleton] at he
    subst he
    decide
  ⟨hc, hk, hl,
    addDisplacements_follows_numbering exampleNode (exampleNode.generateNFT 3).1 3 hc rfl rfl
      rfl _ hk hl⟩

end NumberingOrderTheorems

/-! ## Theorems: positive semidefiniteness of the stiffness matrices -/

section DefinitenessTheorems

open Matrix

variable {K : Type} [LinearOrderedField K]

/-- The quadratic form of a congruence `Bᵀ * E * B` with a rectangular `B`. -/
theorem quadraticForm_congruence_rect {m n : Type} [Fintype m] [Fintype n] (B : Matrix m n K)
    (E : Matrix m m K) (x : n → K) :
    x ⬝ᵥ ((Bᵀ * E * B) *ᵥ x) = (B *ᵥ x) ⬝ᵥ (E *ᵥ (B *ᵥ x)) := by
  rw [← Matrix.mulVec_mulVec, ← Matrix.mulVec_mulVec, Matrix.dotProduct_mulVec,
    Matrix.vecMul_transpose]

/-- The quadratic form of a matrix scaled twice. -/
theorem quadraticForm_smul_smul {n : Type} [Fintype n] (a b : K) (M : Matrix n n K)
    (x : n → K) : x ⬝ᵥ ((a • (b • M)) *ᵥ x) = a * (b * (x ⬝ᵥ (M *ᵥ x))) := by
  rw [Matrix.smul_mulVec_assoc, Matrix.smul_mulVec_assoc, Matrix.dotProduct_smul,
    Matrix.dotProduct_smul, smul_eq_mul, smul_eq_mul]

/-- A sum accumulated over a list of terms with a nonnegative quadratic form,
from such a start, has a nonnegative quadratic form. -/
theorem foldl_add_quadraticForm_nonneg {n α : Type} [Fintype n] (f : α → Matrix n n K)
    (l : List α) (x : n → K) (hf : ∀ p ∈ l, 0 ≤ x ⬝ᵥ (f p *ᵥ x)) :
    ∀ M0 : Matrix n n K, 0 ≤ x ⬝ᵥ (M0 *ᵥ x) →
      0 ≤ x ⬝ᵥ ((l.foldl (fun k p => k + f p) M0) *ᵥ x) := by
  induction l with
  | nil =>
    intro M0 h0
    exact h0
  | cons p l ih =>
    intro M0 h0
    rw [List.foldl_cons]
    apply ih (fun q hq => hf q (List.mem_cons_of_mem _ hq))
    rw [Matrix.add_mulVec, Matrix.dotProduct_add]
    exact add_nonneg h0 (hf p (List.mem_cons_self _ _))

/-- The factor `1 - mPoisson^2` is positive for a Poisson ratio strictly
between -1 and 1. -/
theorem one_sub_sq_pos (mPoisson : K) (h1 : -1 < mPoisson) (h2 : mPoisson < 1) :
    0 < 1 - mPoisson ^ 2 := by
  nlinarith

/-- The quadratic form of `ETermNormal`. -/
theorem ETermNormal_quadraticForm (mE mPoisson : K) (y : Fin 3 → K) :
    y ⬝ᵥ (ETermNormal mE mPoisson *ᵥ y)
      = (mE / (1 - mPoisson ^ 2))
        * ((y 0 + mPoisson * y 1) ^ 2 + (1 - mPoisson ^ 2) * y 1 ^ 2) := by
  simp only [ETermNormal, Matrix.smul_mulVec_assoc, Matrix.dotProduct_smul, smul_eq_mul]
  congr 1
  simp [Matrix.dotProduct, Matrix.mulVec, Fin.sum_univ_three]
  ring

/-- The quadratic form of `ETermShear`. -/
theorem ETermShear_quadraticForm (mE mPoisson : K) (y : Fin 3 → K) :
    y ⬝ᵥ (ETermShear mE mPoisson *ᵥ y)
      = (mE / (1 - mPoisson ^ 2)) * ((1 - mPoisson) / 2 * y 2 ^ 2) := by
  simp only [ETermShear, Matrix.smul_mulVec_assoc, Matrix.dotProduct_smul, smul_eq_mul]
  congr 1
  simp [Matrix.dotProduct, Matrix.mulVec, Fin.sum_univ_three]
  ring

/-- The quadratic form of `ETermBending`. -/
theorem ETermBending_quadraticForm (mE mPoisson mThickness : K) (y : Fin 3 → K) :
    y ⬝ᵥ (ETermBending mE mPoisson mThickness *ᵥ y)
      = ((mE * mThickness ^ 3) / (12 * (1 - mPoisson ^ 2)))
        * ((y 0 + mPoisson * y 1) ^ 2 + (1 - mPoisson ^ 2) * y 1 ^ 2
          + (1 - mPoisson) / 2 * y 2 ^ 2) := by
  simp only [ETermBending, Matrix.smul_mulVec_assoc, Matrix.dotProduct_smul, smul_eq_mul]
  congr 1
  simp [Matrix.dotProduct, Matrix.mulVec, Fin.sum_univ_three]
  ring

/-- The quadratic form of `ETermNormal` is nonnegative. -/
theorem ETermNormal_nonneg (mE mPoisson : K) (hE : 0 < mE) (h1 : -1 < mPoisson)
    (h2 : mPoisson < 1) (y : Fin 3 → K) : 0 ≤ y ⬝ᵥ (ETermNormal mE mPoisson *ᵥ y) := by
  have hp := one_sub_sq_pos mPoisson h1 h2
  rw [ETermNormal_quadraticForm]
  exact mul_nonneg (div_nonneg hE.le hp.le)
    (add_nonneg (sq_nonneg _) (mul_nonneg hp.le (sq_nonneg _)))

/-- The quadratic form of `ETermShear` is nonnegative. -/
theorem ETermShear_nonneg (mE mPoisson : K) (hE : 0 < mE) (h1 : -1 < mPoisson)
    (h2 : mPoisson < 1) (y : Fin 3 → K) : 0 ≤ y ⬝ᵥ (ETermShear mE mPoisson *ᵥ y) := by
  have hp := one_sub_sq_pos mPoisson h1 h2
  have hhalf : 0 ≤ (1 - mPoisson) / 2 := div_nonneg (by linarith) (by norm_num)
  rw [ETermShear_quadraticForm]
  exact mul_nonneg (div_nonneg hE.le hp.le) (mul_nonneg hhalf (sq_nonneg _))

/-- The quadratic form of `ETermBending` is nonnegative. -/
theorem ETermBending_nonneg (mE mPoisson mThickness : K) (hE : 0 < mE) (ht : 0 < mThickness)
    (h1 : -1 < mPoisson) (h2 : mPoisson < 1) (y : Fin 3 → K) :
    0 ≤ y ⬝ᵥ (ETermBending mE mPoisson mThickness *ᵥ y) := by
  have hp := one_sub_sq_pos mPoisson h1 h2
  have hhalf : 0 ≤ (1 - mPoisson) / 2 := div_nonneg (by linarith) (by norm_num)
  have hnum : 0 ≤ mE * mThickness ^ 3 := mul_nonneg hE.le (pow_nonneg ht.le 3)
  have hden : 0 ≤ 12 * (1 - mPoisson ^ 2) := mul_nonneg (by norm_num) hp.le
  rw [ETermBending_quadraticForm]
  exact mul_nonneg (div_nonneg hnum hden)
    (add_nonneg (add_nonneg (sq_nonneg _) (mul_nonneg hp.le (sq_nonneg _)))
      (mul_nonneg hhalf (sq_nonneg _)))

/-- The quadratic form of `kNormal` is nonnegative. -/
theorem kNormal_nonneg (loc : Matrix (Fin 4) (Fin 3) K) (mE mPoisson mThickness s : K)
    (hE : 0 < mE) (ht : 0 < mThickness) (h1 : -1 < mPoisson) (h2 : mPoisson < 1)
    (hJ : ∀ p ∈ integrationPoints s, 0 < determinant2 (jacobian loc p.1 p.2))
    (x : Fin 8 → K) : 0 ≤ x ⬝ᵥ (kNormal loc mE mPoisson mThickness s *ᵥ x) := by
  unfold kNormal
  apply foldl_add_quadraticForm_nonneg
  · intro p hp
    unfold kNormalTerm
    simp only
    rw [quadraticForm_smul_smul, quadraticForm_congruence_rect]
    exact mul_nonneg (hJ p hp).le (mul_nonneg
      (by
        unfold integrationWeight
        rw [mul_one, mul_one]
        exact ht.le)
      (ETermNormal_nonneg mE mPoisson hE h1 h2 _))
  · rw [Matrix.zero_mulVec, Matrix.dotProduct_zero]

/-- The quadratic form of `kShear` is nonnegative. -/
theorem kShear_nonneg (loc : Matrix (Fin 4) (Fin 3) K) (mE mPoisson mThickness s : K)
    (hE : 0 < mE) (ht : 0 < mThickness) (h1 : -1 < mPoisson) (h2 : mPoisson < 1)
    (hJ : ∀ p ∈ integrationPoints s, 0 < determinant2 (jacobian loc p.1 p.2))
    (x : Fin 8 → K) : 0 ≤ x ⬝ᵥ (kShear loc mE mPoisson mThickness s *ᵥ x) := by
  unfold kShear
  apply foldl_add_quadraticForm_nonneg
  · intro p hp
    unfold kShearTerm
    simp only
    rw [quadraticForm_smul_smul, quadraticForm_congruence_rect]
    exact mul_nonneg (hJ p hp).le (mul_nonneg
      (by
        unfold integrationWeight
        rw [mul_one, mul_one]
        exact ht.le)
      (ETermShear_nonneg mE mPoisson hE h1 h2 _))
  · rw [Matrix.zero_mulVec, Matrix.dotProduct_zero]

/-- The quadratic form of `kBending` is nonnegative. -/
theorem kBending_nonneg (loc : Matrix (Fin 4) (Fin 3) K) (mE mPoisson mThickness s : K)
    (hE : 0 < mE) (ht : 0 < mThickness) (h1 : -1 < mPoisson) (h2 : mPoisson < 1)
    (hJ : ∀ p ∈ integrationPoints s, 0 < determinant2 (jacobian loc p.1 p.2))
    (x : Fin 12 → K) : 0 ≤ x ⬝ᵥ (kBending loc mE mPoisson mThickness s *ᵥ x) := by
  unfold kBending
  apply foldl_add_quadraticForm_nonneg
  · intro p hp
    unfold kBendingTerm
    simp only
    rw [Matrix.smul_mulVec_assoc, Matrix.dotProduct_smul, smul_eq_mul,
      quadraticForm_congruence_rect]
    exact mul_nonneg (hJ p hp).le (ETermBending_nonneg mE mPoisson mThickness hE ht h1 h2 _)
  · rw [Matrix.zero_mulVec, Matrix.dotProduct_zero]

/-- The quadratic form of a scattered membrane matrix is the quadratic form of
the 8x8 matrix at the membrane DOFs. -/
theorem scatterMembrane_quadraticForm (k : Matrix (Fin 8) (Fin 8) K) (w : Fin 24 → K) :
    w ⬝ᵥ (scatterMembrane k *ᵥ w) = gatherMembrane w ⬝ᵥ (k *ᵥ gatherMembrane w) := by
  simp only [Matrix.dotProduct]
  rw [sum_eq_sum_comp_of_injective
    (fun a : Fin 8 => (⟨6 * (a.val / 2) + a.val % 2, by omega⟩ : Fin 24))]
  · apply Finset.sum_congr rfl
    intro a _
    have ha : (6 * (a.val / 2) + a.val % 2) % 6 < 2 := by omega
    rw [scatterMembrane_mulVec, dif_pos ha]
    simp only [gatherMembrane]
    congr 2
    apply Fin.ext
    show 2 * ((6 * (a.val / 2) + a.val % 2) / 6) + (6 * (a.val / 2) + a.val % 2) % 6 = a.val
    omega
  · intro a b hab
    have := congrArg Fin.val hab
    simp only at this
    apply Fin.ext
    omega
  · intro c hc
    have hcn : ¬ c.val % 6 < 2 := by
      intro hlt
      apply hc ⟨2 * (c.val / 6) + c.val % 6, by omega⟩
      apply Fin.ext
      show 6 * ((2 * (c.val / 6) + c.val % 6) / 2) + (2 * (c.val / 6) + c.val % 6) % 2 = c.val
      omega
    rw [scatterMembrane_mulVec, dif_neg hcn, mul_zero]

/-- The quadratic form of the scattered bending matrix is the quadratic form of
the 12x12 matrix at the bending DOFs. -/
theorem scatterBending_quadraticForm (k : Matrix (Fin 12) (Fin 12) K) (w : Fin 24 → K) :
    w ⬝ᵥ (scatterBending k *ᵥ w) = gatherBending w ⬝ᵥ (k *ᵥ gatherBending w) := by
  simp only [Matrix.dotProduct]
  rw [sum_eq_sum_comp_of_injective
    (fun a : Fin 12 => (⟨6 * (a.val / 3) + 2 + a.val % 3, by omega⟩ : Fin 24))]
  · apply Finset.sum_congr rfl
    intro a _
    have ha : 2 ≤ (6 * (a.val / 3) + 2 + a.val % 3) % 6 ∧
        (6 * (a.val / 3) + 2 + a.val % 3) % 6 < 5 := by omega
    rw [scatterBending_mulVec, dif_pos ha]
    simp only [gatherBending]
    congr 2
    apply Fin.ext
    show 3 * ((6 * (a.val / 3) + 2 + a.val % 3) / 6)
      + ((6 * (a.val / 3) + 2 + a.val % 3) % 6 - 2) = a.val
    omega
  · intro a b hab
    have := congrArg Fin.val hab
    simp only at this
    apply Fin.ext
    omega
  · intro c hc
    have hcn : ¬ (2 ≤ c.val % 6 ∧ c.val % 6 < 5) := by
      intro hlt
      apply hc ⟨3 * (c.val / 6) + (c.val % 6 - 2), by omega⟩
      apply Fin.ext
      show 6 * ((3 * (c.val / 6) + (c.val % 6 - 2)) / 3) + 2
        + (3 * (c.val / 6) + (c.val % 6 - 2)) % 3 = c.val
      omega
    rw [scatterBending_mulVec, dif_neg hcn, mul_zero]

/-- The mean of the entries of a matrix is its quadratic form at the vector of
ones, divided by the number of entries. -/
theorem mean_eq_quadraticForm (M : Matrix (Fin 24) (Fin 24) K) :
    mean M = ((fun _ => 1) ⬝ᵥ (M *ᵥ fun _ => 1)) / 576 := by
  simp only [mean, Matrix.dotProduct, Matrix.mulVec, mul_one, one_mul]

/-- The quadratic form of the drilling matrix of a nonnegative value is
nonnegative. -/
theorem drillingMatrix_nonneg (v : K) (hv : 0 ≤ v) (x : Fin 24 → K) :
    0 ≤ x ⬝ᵥ (drillingMatrix v *ᵥ x) := by
  simp only [Matrix.dotProduct, Matrix.mulVec]
  apply Finset.sum_nonneg
  intro r _
  have hrow : ∑ c, drillingMatrix v r c * x c = if r.val % 6 = 5 then v * x r else 0 := by
    simp only [drillingMatrix, Matrix.of_apply]
    by_cases h : r.val % 6 = 5
    · simp [h]
    · simp [h]
  rw [hrow]
  by_cases h : r.val % 6 = 5
  · rw [if_pos h]
    have h3 : x r * (v * x r) = v * (x r * x r) := by ring
    rw [h3]
    exact mul_nonneg hv (mul_self_nonneg _)
  · rw [if_neg h, mul_zero]

/-- The quadratic form of the sum of the scattered matrices is nonnegative. -/
theorem localSum_nonneg (vx vy vz : Fin 3 → K) (mVertices : Fin 4 → Fin 3 → K)
    (mE mPoisson mThickness s : K) (hE : 0 < mE) (ht : 0 < mThickness) (h1 : -1 < mPoisson)
    (h2 : mPoisson < 1)
    (hJ : ∀ p ∈ integrationPoints s, 0 < determinant2
        (jacobian (localCoordinates (lambdaMatrix vx vy vz) mVertices) p.1 p.2))
    (x : Fin 24 → K) :
    0 ≤ x ⬝ᵥ ((deriveStiffnessMatrix vx vy vz mVertices mE mPoisson mThickness s).localBending *ᵥ x)
        ∧ 0 ≤ x ⬝ᵥ ((deriveStiffnessMatrix vx vy vz mVertices mE mPoisson mThickness s).localNormal
        *ᵥ x) ∧
    0 ≤ x ⬝ᵥ ((deriveStiffnessMatrix vx vy vz mVertices mE mPoisson mThickness s).localShear *ᵥ x) ∧
        0 ≤ x ⬝ᵥ ((deriveStiffnessMatrix vx vy vz mVertices mE mPoisson mThickness s).localSum *ᵥ x)
        := by
  have hB : 0 ≤ x ⬝ᵥ ((deriveStiffnessMatrix vx vy vz mVertices mE mPoisson mThickness
      s).localBending *ᵥ x) := by
    show 0 ≤ x ⬝ᵥ (scatterBending
        (kBending (localCoordinates (lambdaMatrix vx vy vz) mVertices) mE mPoisson mThickness s) *ᵥ
        x)
    rw [scatterBending_quadraticForm]
    exact kBending_nonneg _ mE mPoisson mThickness s hE ht h1 h2 hJ _
  have hN : 0 ≤ x ⬝ᵥ ((deriveStiffnessMatrix vx vy vz mVertices mE mPoisson mThickness
      s).localNormal *ᵥ x) := by
    show 0 ≤ x ⬝ᵥ (scatterMembrane
        (kNormal (localCoordinates (lambdaMatrix vx vy vz) mVertices) mE mPoisson mThickness s) *ᵥ
        x)
    rw [scatterMembrane_quadraticForm]
    exact kNormal_nonneg _ mE mPoisson mThickness s hE ht h1 h2 hJ _
  have hS : 0 ≤ x ⬝ᵥ ((deriveStiffnessMatrix vx vy vz mVertices mE mPoisson mThickness s).localShear
      *ᵥ x) := by
    show 0 ≤ x ⬝ᵥ (scatterMembrane
        (kShear (localCoordinates (lambdaMatrix vx vy vz) mVertices) mE mPoisson mThickness s) *ᵥ x)
    rw [scatterMembrane_quadraticForm]
    exact kShear_nonneg _ mE mPoisson mThickness s hE ht h1 h2 hJ _
  refine ⟨hB, hN, hS, ?_⟩
  show 0 ≤ x ⬝ᵥ (((deriveStiffnessMatrix vx vy vz mVertices mE mPoisson mThickness s).localBending
      + (deriveStiffnessMatrix vx vy vz mVertices mE mPoisson mThickness s).localNormal
      + (deriveStiffnessMatrix vx vy vz mVertices mE mPoisson mThickness s).localShear) *ᵥ x)
  rw [Matrix.add_mulVec, Matrix.add_mulVec, Matrix.dotProduct_add, Matrix.dotProduct_add]
  exact add_nonneg (add_nonneg hB hN) hS

/-- The drilling value is nonnegative. -/
theorem drillingValue_nonneg (vx vy vz : Fin 3 → K) (mVertices : Fin 4 → Fin 3 → K)
    (mE mPoisson mThickness s : K) (hE : 0 < mE) (ht : 0 < mThickness) (h1 : -1 < mPoisson)
    (h2 : mPoisson < 1)
    (hJ : ∀ p ∈ integrationPoints s, 0 < determinant2
        (jacobian (localCoordinates (lambdaMatrix vx vy vz) mVertices) p.1 p.2)) :
    0 ≤ mean (deriveStiffnessMatrix vx vy vz mVertices mE mPoisson mThickness s).localSum := by
  rw [mean_eq_quadraticForm]
  exact div_nonneg
    (localSum_nonneg vx vy vz mVertices mE mPoisson mThickness s hE ht h1 h2 hJ _).2.2.2
    (by norm_num)

/-- The quadratic forms of the four global matrices are nonnegative. -/
theorem deriveStiffnessMatrix_nonneg (vx vy vz : Fin 3 → K) (mVertices : Fin 4 → Fin 3 → K)
    (mE mPoisson mThickness s : K) (hE : 0 < mE) (ht : 0 < mThickness) (h1 : -1 < mPoisson)
    (h2 : mPoisson < 1)
    (hJ : ∀ p ∈ integrationPoints s, 0 < determinant2
        (jacobian (localCoordinates (lambdaMatrix vx vy vz) mVertices) p.1 p.2))
    (x : Fin 24 → K) :
    0 ≤ x ⬝ᵥ ((deriveStiffnessMatrix vx vy vz mVertices mE mPoisson mThickness s).mSM *ᵥ x) ∧ 0 ≤ x
        ⬝ᵥ ((deriveStiffnessMatrix vx vy vz mVertices mE mPoisson mThickness s).mSMBending *ᵥ x) ∧
    0 ≤ x ⬝ᵥ ((deriveStiffnessMatrix vx vy vz mVertices mE mPoisson mThickness s).mSMNormal *ᵥ x) ∧
        0 ≤ x ⬝ᵥ ((deriveStiffnessMatrix vx vy vz mVertices mE mPoisson mThickness s).mSMShear *ᵥ x)
        := by
  have hloc := localSum_nonneg vx vy vz mVertices mE mPoisson mThickness s hE ht h1 h2 hJ
    ((deriveStiffnessMatrix vx vy vz mVertices mE mPoisson mThickness s).mT *ᵥ x)
  have hB : 0 ≤ x ⬝ᵥ ((deriveStiffnessMatrix vx vy vz mVertices mE mPoisson mThickness s).mSMBending
      *ᵥ x) := by
    show 0 ≤ x ⬝ᵥ (((deriveStiffnessMatrix vx vy vz mVertices mE mPoisson mThickness s).mTᵀ
        * (deriveStiffnessMatrix vx vy vz mVertices mE mPoisson mThickness s).localBending
        * (deriveStiffnessMatrix vx vy vz mVertices mE mPoisson mThickness s).mT) *ᵥ x)
    rw [quadraticForm_congruence]
    exact hloc.1
  have hN : 0 ≤ x ⬝ᵥ ((deriveStiffnessMatrix vx vy vz mVertices mE mPoisson mThickness s).mSMNormal
      *ᵥ x) := by
    show 0 ≤ x ⬝ᵥ (((deriveStiffnessMatrix vx vy vz mVertices mE mPoisson mThickness s).mTᵀ
        * (deriveStiffnessMatrix vx vy vz mVertices mE mPoisson mThickness s).localNormal
        * (deriveStiffnessMatrix vx vy vz mVertices mE mPoisson mThickness s).mT) *ᵥ x)
    rw [quadraticForm_congruence]
    exact hloc.2.1
  have hS : 0 ≤ x ⬝ᵥ ((deriveStiffnessMatrix vx vy vz mVertices mE mPoisson mThickness s).mSMShear
      *ᵥ x) := by
    show 0 ≤ x ⬝ᵥ (((deriveStiffnessMatrix vx vy vz mVertices mE mPoisson mThickness s).mTᵀ
        * (deriveStiffnessMatrix vx vy vz mVertices mE mPoisson mThickness s).localShear
        * (deriveStiffnessMatrix vx vy vz mVertices mE mPoisson mThickness s).mT) *ᵥ x)
    rw [quadraticForm_congruence]
    exact hloc.2.2.1
  refine ⟨?_, hB, hN, hS⟩
  rw [deriveStiffnessMatrix_decomposition, Matrix.add_mulVec, Matrix.add_mulVec,
    Matrix.add_mulVec, Matrix.dotProduct_add, Matrix.dotProduct_add, Matrix.dotProduct_add,
    quadraticForm_congruence]
  exact add_nonneg (add_nonneg (add_nonneg hB hN) hS)
    (drillingMatrix_nonneg _
      (drillingValue_nonneg vx vy vz mVertices mE mPoisson mThickness s hE ht h1 h2 hJ) _)

/-- The four global matrices are symmetric. -/
theorem deriveStiffnessMatrix_transpose (vx vy vz : Fin 3 → K)
    (mVertices : Fin 4 → Fin 3 → K) (mE mPoisson mThickness s : K) :
    (deriveStiffnessMatrix vx vy vz mVertices mE mPoisson mThickness s).mSMᵀ
      = (deriveStiffnessMatrix vx vy vz mVertices mE mPoisson mThickness s).mSM ∧
        (deriveStiffnessMatrix vx vy vz mVertices mE mPoisson mThickness s).mSMBendingᵀ
      = (deriveStiffnessMatrix vx vy vz mVertices mE mPoisson mThickness s).mSMBending ∧
    (deriveStiffnessMatrix vx vy vz mVertices mE mPoisson mThickness s).mSMNormalᵀ
      = (deriveStiffnessMatrix vx vy vz mVertices mE mPoisson mThickness s).mSMNormal ∧
        (deriveStiffnessMatrix vx vy vz mVertices mE mPoisson mThickness s).mSMShearᵀ
      = (deriveStiffnessMatrix vx vy vz mVertices mE mPoisson mThickness s).mSMShear := by
  have hN := scatterMembrane_transpose _
      (kNormal_transpose (localCoordinates (lambdaMatrix vx vy vz) mVertices) mE mPoisson mThickness
      s)
  have hS := scatterMembrane_transpose _
      (kShear_transpose (localCoordinates (lambdaMatrix vx vy vz) mVertices) mE mPoisson mThickness
      s)
  have hB := scatterBending_transpose _
      (kBending_transpose (localCoordinates (lambdaMatrix vx vy vz) mVertices) mE mPoisson
      mThickness s)
  refine ⟨?_, ?_, ?_, ?_⟩
  · apply congruence_transpose
    apply addDrilling_transpose
    rw [Matrix.transpose_add, Matrix.transpose_add, hN, hS, hB]
  · exact congruence_transpose _ _ hB
  · exact congruence_transpose _ _ hN
  · exact congruence_transpose _ _ hS

/-! ### Main result: positive semidefiniteness and nonnegative energies -/

/-- C22. For every element with `E > 0`, thickness `> 0`, Poisson ratio strictly
between -1 and 1 and a strictly positive Jacobian determinant at each of the
four Gauss points, and for every local frame (orthonormal or not), the global
combined, bending, normal and shear stiffness matrices are positive
semidefinite in exact arithmetic: each is symmetric and has a quadratic form
that is nowhere negative; the drilling value, the mean of all entries of the
local combined matrix before the patch, is `>= 0`. Hence for every flat shell
that stores these matrices and is bound to 4 nodes that hold displacement
vectors for a load case, `computeResponse` returns, and the total energy and
the partial energies "normal", "shear" and "bending" it stores are `>= 0`. -/
theorem stiffness_positive_semidefinite (vx vy vz : Fin 3 → K)
    (mVertices : Fin 4 → Fin 3 → K) (mE mPoisson mThickness s : K) (hE : 0 < mE)
    (ht : 0 < mThickness) (h1 : -1 < mPoisson) (h2 : mPoisson < 1)
    (hJ : ∀ p ∈ integrationPoints s, 0 < determinant2
        (jacobian (localCoordinates (lambdaMatrix vx vy vz) mVertices) p.1 p.2)) :
    positiveSemidefinite
      (deriveStiffnessMatrix vx vy vz mVertices mE mPoisson mThickness s).mSM ∧
    positiveSemidefinite
      (deriveStiffnessMatrix vx vy vz mVertices mE mPoisson mThickness s).mSMBending ∧
    positiveSemidefinite
      (deriveStiffnessMatrix vx vy vz mVertices mE mPoisson mThickness s).mSMNormal ∧
    positiveSemidefinite
      (deriveStiffnessMatrix vx vy vz mVertices mE mPoisson mThickness s).mSMShear ∧
    0 ≤ mean (deriveStiffnessMatrix vx vy vz mVertices mE mPoisson mThickness s).localSum ∧
    ∀ (e : flat_shell K) (lc : load_case) (nodes : Fin 4 → node K) (disp : Fin 4 → Fin 6 → K),
      e.mEFS = flatShellEFS → e.mNodes = [nodes 0, nodes 1, nodes 2, nodes 3] →
      (∀ n, (nodes n).getDisplacements lc = .ok (disp n)) →
      e.mSM = (deriveStiffnessMatrix vx vy vz mVertices mE mPoisson mThickness s).mSM →
      e.mSMNormal
        = (deriveStiffnessMatrix vx vy vz mVertices mE mPoisson mThickness s).mSMNormal →
      e.mSMShear
        = (deriveStiffnessMatrix vx vy vz mVertices mE mPoisson mThickness s).mSMShear →
      e.mSMBending
        = (deriveStiffnessMatrix vx vy vz mVertices mE mPoisson mThickness s).mSMBending →
      ∃ (e' : flat_shell K) (total normal shear bending : K),
        e.computeResponse lc = .ok e' ∧
        e'.mEnergies.find lc = some total ∧
        (e'.mSeparatedEnergies.find lc).bind (fun m => m.find "normal") = some normal ∧
        (e'.mSeparatedEnergies.find lc).bind (fun m => m.find "shear") = some shear ∧
        (e'.mSeparatedEnergies.find lc).bind (fun m => m.find "bending") = some bending ∧
        0 ≤ total ∧ 0 ≤ normal ∧ 0 ≤ shear ∧ 0 ≤ bending := by
  have hsym := deriveStiffnessMatrix_transpose vx vy vz mVertices mE mPoisson mThickness s
  have hform := deriveStiffnessMatrix_nonneg vx vy vz mVertices mE mPoisson mThickness s hE ht
    h1 h2 hJ
  have hhalf : (0 : K) ≤ 1 / 2 := by norm_num
  refine ⟨⟨hsym.1, fun x => (hform x).1⟩, ⟨hsym.2.1, fun x => (hform x).2.1⟩,
    ⟨hsym.2.2.1, fun x => (hform x).2.2.1⟩, ⟨hsym.2.2.2, fun x => (hform x).2.2.2⟩,
    drillingValue_nonneg vx vy vz mVertices mE mPoisson mThickness s hE ht h1 h2 hJ, ?_⟩
  intro e lc nodes disp hEFS hnodes hdisp hSM hN hS hB
  obtain ⟨e', d, hrun, _, htot, hn, hs, hb⟩ := computeResponse_ok e lc nodes disp hEFS hnodes
    hdisp
  refine ⟨e', _, _, _, _, hrun, htot, hn, hs, hb, ?_, ?_, ?_, ?_⟩
  · rw [hSM, halfQuadraticForm_eq]
    exact mul_nonneg hhalf (hform d).1
  · rw [hN, halfQuadraticForm_eq]
    exact mul_nonneg hhalf (hform d).2.2.1
  · rw [hS, halfQuadraticForm_eq]
    exact mul_nonneg hhalf (hform d).2.2.2
  · rw [hB, halfQuadraticForm_eq]
    exact mul_nonneg hhalf (hform d).2.1

/-- The local coordinates of the centred square in the frame of the global
axes are its global coordinates. -/
theorem exampleLocalCoordinates :
    localCoordinates (lambdaMatrix ![1, 0, 0] ![0, 1, 0] ![0, 0, 1]) exampleCentredVertices
      = Matrix.of exampleCentredVertices := by
  ext i j
  fin_cases i <;> fin_cases j <;>
    simp [localCoordinates, lambdaMatrix, Matrix.mulVec, Matrix.dotProduct,
      Fin.sum_univ_three, exampleCentredVertices, Matrix.vecHead, Matrix.vecTail]

/-- The Jacobian determinant of the centred square is 1 at every point. -/
theorem exampleJacobian_determinant (ksi eta : ℚ) :
    determinant2 (jacobian
      (localCoordinates (lambdaMatrix ![1, 0, 0] ![0, 1, 0] ![0, 0, 1]) exampleCentredVertices)
      ksi eta) = 1 := by
  rw [exampleLocalCoordinates]
  simp [determinant2, jacobian, exampleCentredVertices, Matrix.vecHead, Matrix.vecTail]
  ring

/-- C22 (witness): the square of side 2 centred at the origin in the frame of
the global axes, with `E = 1`, Poisson ratio 0, thickness 1 and integration
abscissa 1/2. -/
theorem stiffness_positive_semidefinite_witness :
    (0 : ℚ) < 1 ∧ (-1 : ℚ) < 0 ∧ (0 : ℚ) < 1 ∧
    (∀ p ∈ integrationPoints (1 / 2 : ℚ), 0 < determinant2 (jacobian
      (localCoordinates (lambdaMatrix ![1, 0, 0] ![0, 1, 0] ![0, 0, 1]) exampleCentredVertices)
      p.1 p.2)) ∧
    positiveSemidefinite
      (deriveStiffnessMatrix ![1, 0, 0] ![0, 1, 0] ![0, 0, 1] exampleCentredVertices
        1 0 1 (1 / 2)).mSM :=
  have hJ : ∀ p ∈ integrationPoints (1 / 2 : ℚ), 0 < determinant2 (jacobian
      (localCoordinates (lambdaMatrix ![1, 0, 0] ![0, 1, 0] ![0, 0, 1])
        exampleCentredVertices) p.1 p.2) := by
    intro p _
    rw [exampleJacobian_determinant]
    exact zero_lt_one
  ⟨zero_lt_one, by norm_num, zero_lt_one, hJ,
    (stiffness_positive_semidefinite ![1, 0, 0] ![0, 1, 0] ![0, 0, 1] exampleCentredVertices
      1 0 1 (1 / 2) zero_lt_one zero_lt_one (by norm_num) zero_lt_one hJ).1⟩

end DefinitenessTheorems

end bso.structural_design.element
